import Mathlib

/-!
# fast_string: a small-string-optimised byte buffer

A shallow embedding of `src/fast_string.h` / `src/fast_string.cpp` and theorems
about it.

## Memory model

* A byte (`char`) is a `Nat`; the terminator is `0`.
* A memory block (the inline array `m_SSOBuffer`, a `malloc`/`realloc` result,
  the characters behind a `const char*`) is a `List Nat` whose length is the
  size of the block.
* `m_Data` is `none` for the null pointer and `some block` otherwise.
* Every access through a pointer is bounds checked against the block it points
  into.  An access outside the block, or through the null pointer, is undefined
  behaviour in C++ and is reported as `Error.undefined`.
* The contents of fresh memory (the inline array of a new object, the bytes
  returned by `malloc`, the bytes `realloc` adds) are indeterminate.  Each
  function that obtains fresh memory takes them as a parameter
  (`junk : Nat → Nat`, byte `k` of the fresh area is `junk k`), so a theorem
  quantified over `junk` holds whatever the fresh memory contains.
* Allocation itself is assumed to succeed.
* `uint64_t` / `size_t` values are `Nat`.  Sums of lengths of objects that are
  in memory cannot reach `2 ^ 64` and are plain sums, and a subtraction behind
  a guard that excludes a negative result is a plain difference.  Where the
  code lets a subtraction wrap (`count - index` in `substr`, the length
  arithmetic of `replace`), it is taken modulo `2 ^ 64` (`sub64`, `add64`).
* An overload set of the class is one definition per overload, told apart by a
  suffix: `_cstr` for a `const char*` argument, `_fs` for a `const fast_string&`.
  An argument of type `const fast_string&` is another object than the one the
  member is called on, and it is only read.
* A member is a function from the object to the object it leaves, or to an
  error.  What a call that throws leaves in the object is not visible in that
  form, so the members that throw `index_out_of_range` (`substr`, `erase`,
  `insert`) are embedded a second time, statement by statement, as computations
  on the object in which an exception rolls nothing back (`member`,
  `member.call`); the two embeddings are proved to agree.
* `memcpy` moves the bytes as a block, which is what the common
  implementations do also when the source and the destination overlap.  The C
  standard leaves that case undefined.  `erase(size_t, size_t)` and `insert`,
  whose shift of the tail is such a call, are embedded a second time with the
  standard's `memcpy` (`overlap`, `memcpy_within_std`, `erase_std`,
  `insert_cstr_std`, `insert_fs_std`).
* `char` is signed: `generate_hash` adds a byte of value 128 or more as the
  negative number it is, modulo `2 ^ 64` (`hash_step`).
* The operators are named `assign_fs` / `assign_cstr` (`operator=`), `op_eq`,
  `op_ne` and `op_index` (`operator[]`); the constructors are `of_size`
  (`fast_string(size_t)`), `of_cstr` (`fast_string(const char*)`) and `of_copy`
  (`fast_string(const fast_string&)`).
* A property of the object after a call is stated with `after`: it is a property
  of the state the call returns.  Where it is stated for every object, the
  theorem also says on which objects the call does return.
-/

namespace FastString

/-! ## Errors and memory primitives -/

/-- The two ways an operation can fail to return normally. -/
inductive Error where
  /-- The exception `std::runtime_error("(fast_string error) index out of range")`. -/
  | index_out_of_range
  /-- An access outside an allocated block or through the null pointer. -/
  | undefined
deriving DecidableEq, Repr

deriving instance DecidableEq for Except

/-- Unsigned 64-bit subtraction `a - b` of two values below `2 ^ 64`. -/
def sub64 (a b : Nat) : Nat := (a + 2 ^ 64 - b) % 2 ^ 64

/-- Unsigned 64-bit addition `a + b`. -/
def add64 (a b : Nat) : Nat := (a + b) % 2 ^ 64

/-- The bytes of a fresh allocation of `n` bytes: `malloc(n)`. -/
def malloc (junk : Nat → Nat) (n : Nat) : List Nat := (List.range n).map junk

/-- The block `realloc(p, n)` returns: the old bytes up to the smaller of the two
sizes, followed by indeterminate bytes; `realloc(NULL, n)` is `malloc(n)`.  A request
for 0 bytes is given a block of no bytes; an implementation may give the null pointer
instead, and every access through either is undefined. -/
def realloc (junk : Nat → Nat) (p : Option (List Nat)) (n : Nat) : List Nat :=
  match p with
  | none => malloc junk n
  | some old => old.take n ++ (List.range (n - old.length)).map junk

/-- The call `memcpy(dst + d, src + o, n)`: bytes `[d, d + n)` of `dst` are
replaced by bytes `[o, o + n)` of `src`.  Both ranges must lie inside their
blocks.  The source bytes are read as they are before the call, so when the two
ranges belong to one block and overlap the call moves the bytes as a block, as
`memmove` does; the C standard leaves `memcpy` on overlapping ranges undefined, see
`overlap` and `memcpy_within_std`. -/
def memcpy (dst : List Nat) (d : Nat) (src : List Nat) (o n : Nat) : Except Error (List Nat) :=
  if d + n ≤ dst.length ∧ o + n ≤ src.length then
    .ok (dst.take d ++ (src.drop o).take n ++ dst.drop (d + n))
  else
    .error .undefined

/-- The store `p[k] = v` into the block `blk`. -/
def poke (blk : List Nat) (k v : Nat) : Except Error (List Nat) :=
  if k < blk.length then .ok (blk.set k v) else .error .undefined

/-- The load `p[k]` from the block `blk`. -/
def peek (blk : List Nat) (k : Nat) : Except Error Nat :=
  match blk[k]? with
  | some v => .ok v
  | none => .error .undefined

/-- The function `strlen(str)`: the number of bytes before the first zero byte.
A `const char*` argument is given by the list of bytes it points to; the string
it denotes ends before the first zero byte, or at the end of the list. -/
def strlen (str : List Nat) : Nat := (str.takeWhile (fun b => b != 0)).length

/-- The memory behind a `const char*` argument: the characters of the string
followed by its terminator. -/
def c_string (str : List Nat) : List Nat := str.takeWhile (fun b => b != 0) ++ [0]

/-- A byte sequence without a zero byte. -/
def zero_free (bytes : List Nat) : Prop := ∀ b ∈ bytes, b ≠ 0

instance (bytes : List Nat) : Decidable (zero_free bytes) := by
  unfold zero_free; infer_instance

/-! ## The object -/

/-- The size of the inline array: `_default_sso_size`. -/
def _default_sso_size : Nat := 32

/-- The value `fast_string::invalid`, `(size_t)-1`. -/
def invalid : Nat := 2 ^ 64 - 1

/-- The data members of `class fast_string`. -/
structure fast_string where
  /-- The inline array `char m_SSOBuffer[32]`. -/
  m_SSOBuffer : List Nat
  /-- The heap pointer `char* m_Data`. -/
  m_Data : Option (List Nat)
  m_Capacity : Nat
  m_Length : Nat
  m_Hash : Nat
deriving DecidableEq, Repr

/-- Which of the two blocks a `char*` obtained from the object points into. -/
inductive Region where
  | sso
  | heap
deriving DecidableEq, Repr

namespace fast_string

/-- The accessor `c_str()`: `(m_Capacity > _default_sso_size) ? m_Data : m_SSOBuffer`. -/
def c_str (s : fast_string) : Region :=
  if s.m_Capacity > _default_sso_size then .heap else .sso

/-- The block behind a pointer into region `r`; the null pointer has none. -/
def block (s : fast_string) (r : Region) : Except Error (List Nat) :=
  match r with
  | .sso => .ok s.m_SSOBuffer
  | .heap =>
    match s.m_Data with
    | some b => .ok b
    | none => .error .undefined

/-- The object after the block of region `r` has been written through a pointer. -/
def set_block (s : fast_string) (r : Region) (b : List Nat) : fast_string :=
  match r with
  | .sso => { s with m_SSOBuffer := b }
  | .heap => { s with m_Data := some b }

/-- The first `m_Length + 1` bytes behind `c_str()`: the content and the byte in
the terminator slot.  There is no such view when `c_str()` is null. -/
def c_str_view (s : fast_string) : Option (List Nat) :=
  match s.block s.c_str with
  | .ok b => some (b.take (s.m_Length + 1))
  | .error _ => none

/-- The buffer holds content `Y`: `length()` is `|Y|`, the first `|Y|` bytes behind
`c_str()` are `Y` and the next byte, still inside the block, is the terminator. -/
def holds (s : fast_string) (Y : List Nat) : Prop :=
  s.m_Length = Y.length ∧ s.c_str_view = some (Y ++ [0])

instance (s : fast_string) (Y : List Nat) : Decidable (s.holds Y) := by
  unfold holds; infer_instance

/-- A write `memcpy(p + d, src + o, n)` through a pointer `p` into region `r`. -/
def memcpy_to (s : fast_string) (r : Region) (d : Nat) (src : List Nat) (o n : Nat) :
    Except Error fast_string := do
  let b ← s.block r
  let b ← memcpy b d src o n
  pure (s.set_block r b)

/-- A copy `memcpy(p + d, p + o, n)` between two places of region `r`. -/
def memcpy_within (s : fast_string) (r : Region) (d o n : Nat) : Except Error fast_string := do
  let b ← s.block r
  s.memcpy_to r d b o n

/-- The store `p[k] = v` through a pointer `p` into region `r`. -/
def store (s : fast_string) (r : Region) (k v : Nat) : Except Error fast_string := do
  let b ← s.block r
  let b ← poke b k v
  pure (s.set_block r b)

/-- The load `p[k]` through a pointer `p` into region `r`. -/
def load (s : fast_string) (r : Region) (k : Nat) : Except Error Nat := do
  let b ← s.block r
  peek b k

/-- The constructor `fast_string(const char* init)`.  `sso` is the indeterminate
initial content of the inline array of the new object. -/
def of_cstr (sso : List Nat) (junk : Nat → Nat) (init : List Nat) : Except Error fast_string := do
  -- member initialisers: m_Data = 0, m_Capacity = 32, m_Length = 0, m_Hash = 0
  let s : fast_string :=
    { m_SSOBuffer := sso, m_Data := none, m_Capacity := _default_sso_size,
      m_Length := 0, m_Hash := 0 }
  let s := { s with m_Length := strlen init }
  let (s, data_ptr) :=
    if s.m_Length > _default_sso_size - 1 then
      let s := { s with m_Capacity := s.m_Length + 1 }
      let s := { s with m_Data := some (malloc junk s.m_Capacity) }
      (s, Region.heap)
    else
      (s, Region.sso)
  let s ← s.memcpy_to data_ptr 0 (c_string init) 0 s.m_Length
  s.store data_ptr s.m_Length 0

/-- The reallocation sequence of `push_back`, `insert` and `replace`, where
`new_capacity` is the value the caller gives `m_Capacity` (`m_Capacity + 1` in
`push_back`, `m_Length + len + 1` in `insert`, `m_Capacity + (replacement_len -
substr_len)` in `replace`):
```
bool should_copy_sso_buffer = (m_Capacity == _default_sso_size);
m_Capacity = new_capacity;
m_Data = (char*)realloc(m_Data, m_Capacity);
if (should_copy_sso_buffer) memcpy(m_Data, m_SSOBuffer, _default_sso_size);
``` -/
def grow (junk : Nat → Nat) (s : fast_string) (new_capacity : Nat) : Except Error fast_string := do
  let should_copy_sso_buffer := s.m_Capacity == _default_sso_size
  let s := { s with m_Capacity := new_capacity }
  let s := { s with m_Data := some (realloc junk s.m_Data s.m_Capacity) }
  if should_copy_sso_buffer then
    s.memcpy_to .heap 0 s.m_SSOBuffer 0 _default_sso_size
  else
    pure s

/-- The member `push_back(char c)`. -/
def push_back (junk : Nat → Nat) (s : fast_string) (c : Nat) : Except Error fast_string := do
  let s ← if s.m_Length + 1 ≥ s.m_Capacity then grow junk s (s.m_Capacity + 1) else pure s
  let data_ptr := s.c_str
  let s ← s.store data_ptr s.m_Length c
  let s := { s with m_Length := s.m_Length + 1 }
  s.store data_ptr s.m_Length 0

/-- The member `append(const fast_string& fs)`. -/
def append_fs (junk : Nat → Nat) (s fs : fast_string) : Except Error fast_string := do
  let s ←
    if s.m_Length + fs.m_Length < s.m_Capacity then do
      let data_ptr := s.c_str
      let src ← fs.block fs.c_str
      s.memcpy_to data_ptr s.m_Length src 0 (fs.m_Length + 1)
    else do
      let should_copy_sso_buffer := s.m_Capacity == _default_sso_size
      let s := { s with m_Data := some (realloc junk s.m_Data (s.m_Length + fs.m_Length + 1)) }
      let s ←
        if should_copy_sso_buffer then
          s.memcpy_to .heap 0 s.m_SSOBuffer 0 _default_sso_size
        else
          pure s
      let src ← fs.block fs.c_str
      let s ← s.memcpy_to .heap s.m_Length src 0 (fs.m_Length + 1)
      pure { s with m_Capacity := s.m_Length + fs.m_Length + 1 }
  pure { s with m_Length := s.m_Length + fs.m_Length }

/-- The member `append(const char* str)`. -/
def append_cstr (junk : Nat → Nat) (s : fast_string) (str : List Nat) :
    Except Error fast_string := do
  let len := strlen str
  let s ←
    if s.m_Length + len < s.m_Capacity then do
      let data_ptr := s.c_str
      s.memcpy_to data_ptr s.m_Length (c_string str) 0 (len + 1)
    else do
      let should_copy_sso_buffer := s.m_Capacity == _default_sso_size
      let s := { s with m_Data := some (realloc junk s.m_Data (s.m_Length + len + 1)) }
      let s ←
        if should_copy_sso_buffer then
          s.memcpy_to .heap 0 s.m_SSOBuffer 0 _default_sso_size
        else
          pure s
      let s ← s.memcpy_to .heap s.m_Length (c_string str) 0 (len + 1)
      pure { s with m_Capacity := s.m_Length + len + 1 }
  pure { s with m_Length := s.m_Length + len }

/-- The member `substr(size_t index, size_t count)`; the returned reference is
the object itself. -/
def substr (s : fast_string) (index count : Nat) : Except Error fast_string := do
  if index > s.m_Length then throw Error.index_out_of_range
  let data_ptr := s.c_str
  let available_count :=
    if sub64 count index < s.m_Length then count else s.m_Length - index
  let s ← s.memcpy_within data_ptr 0 index available_count
  let s := { s with m_Length := available_count }
  s.store data_ptr s.m_Length 0

/-- The member `operator[](size_t index)`. -/
def op_index (s : fast_string) (index : Nat) : Except Error Nat := do
  if index > s.m_Length then throw Error.index_out_of_range
  s.load s.c_str index

/-- The inner loop of `find`, `for (c = ...; c < len; c++)`, with `todo` iterations
left: `true` when no compared pair differs.  `text k` is the load `data_ptr[k]`
and `pat c` the load `substr[c]`. -/
def find_inner (text pat : Nat → Except Error Nat) (i c : Nat) : Nat → Except Error Bool
  | 0 => pure true
  | todo + 1 => do
    let a ← text (i + c)
    let b ← pat c
    if a != b then pure false else find_inner text pat i (c + 1) todo

/-- The outer loop of `find`, `for (i = ...; i < m_Length; i++)`, with `todo`
iterations left. -/
def find_outer (text pat : Nat → Except Error Nat) (len i : Nat) : Nat → Except Error Nat
  | 0 => pure invalid
  | todo + 1 => do
    let a ← text i
    let b ← pat 0
    if a == b then
      let found ← find_inner text pat i 0 len
      if found then pure i else find_outer text pat len (i + 1) todo
    else
      find_outer text pat len (i + 1) todo

/-- The member `find(const fast_string& substr)`. -/
def find_fs (s substr : fast_string) : Except Error Nat :=
  let data_ptr := s.c_str
  find_outer (s.load data_ptr) substr.op_index substr.m_Length 0 s.m_Length

/-- The member `find(const char* substr)`. -/
def find_cstr (s : fast_string) (substr : List Nat) : Except Error Nat :=
  let data_ptr := s.c_str
  let len := strlen substr
  find_outer (s.load data_ptr) (peek (c_string substr)) len 0 s.m_Length

/-- The body the four `replace` overloads share once `find` has returned `index`;
`replacement` is the block the replacement characters are copied from.
```
if (m_Length - substr_len + replacement_len > m_Capacity) { ... }
char* data_ptr = (char*)c_str();
memcpy(data_ptr + index + replacement_len, data_ptr + index + substr_len,
       m_Length - (index + substr_len));
memcpy(data_ptr + index, replacement, replacement_len);
m_Length += ((int64_t)replacement_len - (int64_t)substr_len);
data_ptr[m_Length] = 0;
``` -/
def replace_at (junk : Nat → Nat) (s : fast_string) (index substr_len replacement_len : Nat)
    (replacement : List Nat) : Except Error fast_string := do
  let s ←
    if add64 (sub64 s.m_Length substr_len) replacement_len > s.m_Capacity then
      grow junk s (add64 s.m_Capacity (sub64 replacement_len substr_len))
    else
      pure s
  let data_ptr := s.c_str
  let s ← s.memcpy_within data_ptr (index + replacement_len) (index + substr_len)
    (sub64 s.m_Length (index + substr_len))
  let s ← s.memcpy_to data_ptr index replacement 0 replacement_len
  let s := { s with m_Length := add64 s.m_Length (sub64 replacement_len substr_len) }
  s.store data_ptr s.m_Length 0

/-- The member `replace(const fast_string& substr, const fast_string& replacement)`. -/
def replace_fs_fs (junk : Nat → Nat) (s substr replacement : fast_string) :
    Except Error fast_string := do
  let index ← s.find_fs substr
  if index != invalid then
    let src ← replacement.block replacement.c_str
    replace_at junk s index substr.m_Length replacement.m_Length src
  else
    pure s

/-- The member `replace(const fast_string& substr, const char* replacement)`. -/
def replace_fs_cstr (junk : Nat → Nat) (s substr : fast_string) (replacement : List Nat) :
    Except Error fast_string := do
  let replacement_len := strlen replacement
  let index ← s.find_fs substr
  if index != invalid then
    replace_at junk s index substr.m_Length replacement_len (c_string replacement)
  else
    pure s

/-- The member `replace(const char* substr, const fast_string& replacement)`. -/
def replace_cstr_fs (junk : Nat → Nat) (s : fast_string) (substr : List Nat)
    (replacement : fast_string) : Except Error fast_string := do
  let substr_len := strlen substr
  let index ← s.find_cstr substr
  if index != invalid then
    let src ← replacement.block replacement.c_str
    replace_at junk s index substr_len replacement.m_Length src
  else
    pure s

/-- The member `replace(const char* substr, const char* replacement)`. -/
def replace_cstr_cstr (junk : Nat → Nat) (s : fast_string) (substr replacement : List Nat) :
    Except Error fast_string := do
  let substr_len := strlen substr
  let replacement_len := strlen replacement
  let index ← s.find_cstr substr
  if index != invalid then
    replace_at junk s index substr_len replacement_len (c_string replacement)
  else
    pure s

/-- The member `erase(const fast_string& substr)`: `replace(substr, "")`. -/
def erase_fs (junk : Nat → Nat) (s substr : fast_string) : Except Error fast_string :=
  replace_fs_cstr junk s substr []

/-- The member `erase(const char* substr)`: `replace(substr, "")`. -/
def erase_cstr (junk : Nat → Nat) (s : fast_string) (substr : List Nat) :
    Except Error fast_string :=
  replace_cstr_cstr junk s substr []

/-- The member `erase(size_t index, size_t count)`. -/
def erase (s : fast_string) (index count : Nat) : Except Error fast_string := do
  if index > s.m_Length then throw Error.index_out_of_range
  let data_ptr := s.c_str
  let available_count := if count < s.m_Length - index then count else s.m_Length - index
  let s ← s.memcpy_within data_ptr index (index + available_count)
    (s.m_Length - (index + available_count))
  let s := { s with m_Length := s.m_Length - available_count }
  s.store data_ptr s.m_Length 0

/-- The member `insert(size_t index, const fast_string& fs)`. -/
def insert_fs (junk : Nat → Nat) (s : fast_string) (index : Nat) (fs : fast_string) :
    Except Error fast_string := do
  if index > s.m_Length then throw Error.index_out_of_range
  let s ←
    if s.m_Length + fs.m_Length ≥ s.m_Capacity then
      grow junk s (s.m_Length + fs.m_Length + 1)
    else
      pure s
  let data_ptr := s.c_str
  let s ← s.memcpy_within data_ptr (index + fs.m_Length) index (s.m_Length - index)
  let src ← fs.block fs.c_str
  let s ← s.memcpy_to data_ptr index src 0 fs.m_Length
  let s := { s with m_Length := s.m_Length + fs.m_Length }
  s.store data_ptr s.m_Length 0

/-- The member `insert(size_t index, const char* str)`. -/
def insert_cstr (junk : Nat → Nat) (s : fast_string) (index : Nat) (str : List Nat) :
    Except Error fast_string := do
  if index > s.m_Length then throw Error.index_out_of_range
  let len := strlen str
  let s ←
    if s.m_Length + len ≥ s.m_Capacity then grow junk s (s.m_Length + len + 1) else pure s
  let data_ptr := s.c_str
  let s ← s.memcpy_within data_ptr (index + len) index (s.m_Length - index)
  let s ← s.memcpy_to data_ptr index (c_string str) 0 len
  let s := { s with m_Length := s.m_Length + len }
  s.store data_ptr s.m_Length 0

/-- The structural invariant of the buffers the constructors from content build and
the mutators keep: the inline array has its 32 bytes, the capacity is at least 32
and exceeds the length, and when the capacity exceeds 32 the heap block exists and
has exactly `m_Capacity` bytes. -/
def wf (s : fast_string) : Prop :=
  s.m_SSOBuffer.length = _default_sso_size ∧ _default_sso_size ≤ s.m_Capacity ∧
    s.m_Length < s.m_Capacity ∧
    (_default_sso_size < s.m_Capacity → s.m_Data.map List.length = some s.m_Capacity)

instance (s : fast_string) : Decidable s.wf := by
  unfold wf; infer_instance

end fast_string

/-- The bytes of an ASCII string literal. -/
def bytes (lit : String) : List Nat := lit.toList.map Char.toNat

/-- The content `Y` with the bytes `[i, j)` replaced by `X`. -/
def splice (Y : List Nat) (i j : Nat) (X : List Nat) : List Nat := Y.take i ++ X ++ Y.drop j

namespace fast_string

/-- The stores of an in-place edit of the block behind `c_str()`, as `insert` and
`replace` perform them: move `cnt` bytes from offset `o` to offset `d`, copy `len`
bytes of `src` to offset `i`, update the length and terminate. -/
def edit (s : fast_string) (d o cnt i : Nat) (src : List Nat) (len : Nat)
    (new_length : Nat → Nat) : Except Error fast_string := do
  let data_ptr := s.c_str
  let s ← s.memcpy_within data_ptr d o cnt
  let s ← s.memcpy_to data_ptr i src 0 len
  let s := { s with m_Length := new_length s.m_Length }
  s.store data_ptr s.m_Length 0

/-- The body the two `insert` overloads share: `len` bytes of `src` are inserted. -/
def insert_core (junk : Nat → Nat) (s : fast_string) (index len : Nat) (src : List Nat) :
    Except Error fast_string := do
  if index > s.m_Length then throw Error.index_out_of_range
  let s ←
    if s.m_Length + len ≥ s.m_Capacity then grow junk s (s.m_Length + len + 1) else pure s
  s.edit (index + len) index (s.m_Length - index) index src len (fun l => l + len)

/-- The body the two `append` overloads share: `len + 1` bytes of `src` are appended. -/
def append_core (junk : Nat → Nat) (s : fast_string) (len : Nat) (src : List Nat) :
    Except Error fast_string := do
  let s ←
    if s.m_Length + len < s.m_Capacity then do
      let data_ptr := s.c_str
      s.memcpy_to data_ptr s.m_Length src 0 (len + 1)
    else do
      let should_copy_sso_buffer := s.m_Capacity == _default_sso_size
      let s := { s with m_Data := some (realloc junk s.m_Data (s.m_Length + len + 1)) }
      let s ←
        if should_copy_sso_buffer then
          s.memcpy_to .heap 0 s.m_SSOBuffer 0 _default_sso_size
        else
          pure s
      let s ← s.memcpy_to .heap s.m_Length src 0 (len + 1)
      pure { s with m_Capacity := s.m_Length + len + 1 }
  pure { s with m_Length := s.m_Length + len }

end fast_string

namespace fast_string

/-- The buffer `fast_string("Hello World!")` with every fresh byte `0xCC`. -/
def hello_world : fast_string :=
  { m_SSOBuffer := bytes "Hello World!" ++ 0 :: List.replicate 19 204, m_Data := none,
    m_Capacity := 32, m_Length := 12, m_Hash := 0 }

end fast_string

namespace fast_string

/-- The constructor `fast_string(const fast_string& other)`.  `sso` is the
indeterminate initial content of the inline array of the new object. -/
def of_copy (sso : List Nat) (junk : Nat → Nat) (other : fast_string) :
    Except Error fast_string := do
  -- member initialisers: m_Data = 0, m_Capacity = 32, m_Length = 0, m_Hash = 0
  let s : fast_string :=
    { m_SSOBuffer := sso, m_Data := none, m_Capacity := _default_sso_size,
      m_Length := 0, m_Hash := 0 }
  let s := { s with m_Capacity := other.m_Capacity }
  let s := { s with m_Length := other.m_Length }
  let s := { s with m_Hash := other.m_Hash }
  if s.m_Capacity > _default_sso_size then
    let s := { s with m_Data := some (malloc junk s.m_Capacity) }
    let src ← other.block .heap
    s.memcpy_to .heap 0 src 0 s.m_Capacity
  else
    s.memcpy_to .sso 0 other.m_SSOBuffer 0 _default_sso_size

/-- One round of the loop of `generate_hash`:
`m_Hash = ((m_Hash << 5) + m_Hash) + c` in `uint64_t`, where `int c = *ptr++` reads a
plain `char`.  Plain `char` is signed on the platforms the sources are written for, so
a byte `b` of `0x80` or more is the negative `int` `b - 256`, and the conversion to
`uint64_t` in the addition makes it `2 ^ 64 + b - 256`. -/
def hash_step (hash c : Nat) : Nat :=
  ((hash * 2 ^ 5 % 2 ^ 64 + hash) % 2 ^ 64 + (if c < 128 then c else c + 2 ^ 64 - 256)) % 2 ^ 64

/-- The loop `while ((c = *ptr++)) m_Hash = ...` of `generate_hash` over the bytes
behind `ptr`; it ends at the first zero byte, and reads past the block when the
block has none. -/
def hash_loop (hash : Nat) : List Nat → Except Error Nat
  | [] => .error .undefined
  | c :: rest => if c != 0 then hash_loop (hash_step hash c) rest else pure hash

/-- The member `generate_hash()`; the loop starts at `m_Data`. -/
def generate_hash (s : fast_string) : Except Error fast_string := do
  let s := { s with m_Hash := 0x3B6C }
  let ptr ← s.block .heap
  let hash ← hash_loop s.m_Hash ptr
  pure { s with m_Hash := hash }

/-- The accessor `get_hash()`. -/
def get_hash (s : fast_string) : Nat := s.m_Hash

/-- The member `reserve(size_t bytes)`. -/
def reserve (junk : Nat → Nat) (s : fast_string) (bytes : Nat) : Except Error fast_string := do
  let s := { s with m_Capacity := add64 s.m_Capacity bytes }
  pure { s with m_Data := some (realloc junk s.m_Data s.m_Capacity) }

/-- The member `swap(fast_string& fs)`: the pair of the object and of `fs` after the
call.  `junk` is the indeterminate initial content of the local array
`this_ssobuffer`. -/
def swap (junk : Nat → Nat) (s fs : fast_string) : Except Error (fast_string × fast_string) := do
  let this_data := s.m_Data
  let this_hash := s.m_Hash
  let this_capacity := s.m_Capacity
  let this_length := s.m_Length
  let this_ssobuffer := malloc junk _default_sso_size
  let this_ssobuffer ← memcpy this_ssobuffer 0 s.m_SSOBuffer 0 _default_sso_size
  let s := { s with m_Data := fs.m_Data }
  let s := { s with m_Hash := fs.m_Hash }
  let s := { s with m_Capacity := fs.m_Capacity }
  let s := { s with m_Length := fs.m_Length }
  let s ← s.memcpy_to .sso 0 fs.m_SSOBuffer 0 _default_sso_size
  let fs := { fs with m_Data := this_data }
  let fs := { fs with m_Hash := this_hash }
  let fs := { fs with m_Capacity := this_capacity }
  let fs := { fs with m_Length := this_length }
  let fs ← fs.memcpy_to .sso 0 this_ssobuffer 0 _default_sso_size
  pure (s, fs)

/-- The member `pop_back()`. -/
def pop_back (s : fast_string) : Except Error fast_string := do
  let data_ptr := s.c_str
  let s := { s with m_Length := sub64 s.m_Length 1 }
  s.store data_ptr s.m_Length 0

/-- The function `strcmp(a, b)` on the bytes behind two pointers: the difference of
the first two bytes that differ, 0 when the strings agree up to their terminator. -/
def strcmp : List Nat → List Nat → Except Error Int
  | x :: a, y :: b =>
    if x != y then pure ((x : Int) - (y : Int)) else if x == 0 then pure 0 else strcmp a b
  | _, _ => .error .undefined

/-- The member `equal(const fast_string& fs)`. -/
def equal (s fs : fast_string) : Except Error Bool := do
  let this_data_ptr := s.c_str
  let fs_data_ptr := fs.c_str
  if s.m_Length != fs.m_Length then
    pure false
  else
    let x ← s.load this_data_ptr 0
    let y ← fs.load fs_data_ptr 0
    if x != y then
      pure false
    else if s.m_Hash != 0 && fs.m_Hash != 0 && s.m_Hash != fs.m_Hash then
      pure false
    else
      let a ← s.block this_data_ptr
      let b ← fs.block fs_data_ptr
      let r ← strcmp a b
      pure (r == 0)

/-- The member `operator==(fast_string& rhs)`. -/
def op_eq (s rhs : fast_string) : Except Error Bool := s.equal rhs

/-- The member `operator!=(fast_string& rhs)`. -/
def op_ne (s rhs : fast_string) : Except Error Bool := do
  let r ← s.equal rhs
  pure (!r)

/-- The member `operator=(const fast_string& fs)` for `this != &fs`. -/
def assign_fs (junk : Nat → Nat) (s fs : fast_string) : Except Error fast_string := do
  let s :=
    if fs.m_Capacity > s.m_Capacity then
      let s := { s with m_Data := some (realloc junk s.m_Data fs.m_Capacity) }
      { s with m_Capacity := fs.m_Capacity }
    else
      s
  let data_ptr := s.c_str
  let s := { s with m_Length := fs.m_Length }
  let src ← fs.block fs.c_str
  s.memcpy_to data_ptr 0 src 0 fs.m_Capacity

/-- The member `operator=(const char* str)`. -/
def assign_cstr (junk : Nat → Nat) (s : fast_string) (str : List Nat) :
    Except Error fast_string := do
  let len := strlen str
  let capacity := len + 1
  let s :=
    if capacity > s.m_Capacity then
      let s := { s with m_Data := some (realloc junk s.m_Data capacity) }
      { s with m_Capacity := capacity }
    else
      s
  let data_ptr := s.c_str
  let s := { s with m_Length := len }
  let s ← s.memcpy_to data_ptr 0 (c_string str) 0 len
  s.store data_ptr s.m_Length 0

/-- The blocks of the object have the sizes their declarations and allocations give
them: the inline array has 32 bytes, and when `c_str()` is the heap pointer the heap
block has `m_Capacity` bytes. -/
def allocated (s : fast_string) : Prop :=
  s.m_SSOBuffer.length = _default_sso_size ∧
    (_default_sso_size < s.m_Capacity → s.m_Data.map List.length = some s.m_Capacity)

instance (s : fast_string) : Decidable s.allocated := by
  unfold allocated; infer_instance

end fast_string

namespace fast_string

/-- A result that is not the index-out-of-range exception. -/
def no_throw {α : Type} (r : Except Error α) : Prop := r ≠ .error .index_out_of_range

end fast_string

namespace fast_string

/-- The two stores of `push_back` behind `c_str()`: the character over the
terminator, and the new terminator after it. -/
def push_tail (s : fast_string) (c : Nat) : Except Error fast_string := do
  let data_ptr := s.c_str
  let s ← s.store data_ptr s.m_Length c
  let s := { s with m_Length := s.m_Length + 1 }
  s.store data_ptr s.m_Length 0

end fast_string

namespace fast_string

/-- The hash of a content: `0x3B6C` folded with `hash_step` over its bytes, the value
the loop of `generate_hash` reaches at the terminator. -/
def hash_of (Y : List Nat) : Nat := Y.foldl hash_step 0x3B6C

end fast_string

namespace fast_string

/-- The buffer `fast_string(40 times 'a')`: content in a heap block of 41 bytes, every
byte of the inline array `0xCC`. -/
def heap_aaa : fast_string :=
  { m_SSOBuffer := List.replicate 32 204, m_Data := some (List.replicate 40 97 ++ [0]),
    m_Capacity := 41, m_Length := 40, m_Hash := 0 }

end fast_string

/-! ## Objects with addresses

The definitions above give every object its own heap block as a value, so two
objects cannot share one.  To state that the copy constructor shares nothing, the
constructor is given a second time over a heap with addresses: the heap is the
list of the blocks `malloc` has handed out, and the address of a block is its
index. -/

/-- A `fast_string` object whose `m_Data` is an address into a heap, or null. -/
structure object where
  m_SSOBuffer : List Nat
  m_Data : Option Nat
  m_Capacity : Nat
  m_Length : Nat
  m_Hash : Nat
deriving DecidableEq, Repr

namespace object

/-- The object with the block its `m_Data` points to. -/
def value (heap : List (List Nat)) (o : object) : fast_string :=
  { m_SSOBuffer := o.m_SSOBuffer, m_Data := o.m_Data.bind (fun p => heap[p]?),
    m_Capacity := o.m_Capacity, m_Length := o.m_Length, m_Hash := o.m_Hash }

/-- The heap pointer of the object is null or the address of a block of the heap. -/
def valid (heap : List (List Nat)) (o : object) : Prop :=
  ∀ p, o.m_Data = some p → p < heap.length

instance (heap : List (List Nat)) (o : object) : Decidable (o.valid heap) := by
  unfold valid
  cases o.m_Data with
  | none => exact isTrue (fun p h => by cases h)
  | some q =>
    exact decidable_of_iff (q < heap.length)
      ⟨fun h p hp => by injection hp with hp; subst hp; exact h, fun h => h q rfl⟩

/-- The constructor `fast_string(const fast_string& other)` over a heap with addresses:
the heap and the new object after the call.  `malloc` returns the address of a new
block at the end of the heap. -/
def of_copy (heap : List (List Nat)) (sso : List Nat) (junk : Nat → Nat) (other : object) :
    Except Error (List (List Nat) × object) := do
  let o : object :=
    { m_SSOBuffer := sso, m_Data := none, m_Capacity := _default_sso_size,
      m_Length := 0, m_Hash := 0 }
  let o := { o with m_Capacity := other.m_Capacity }
  let o := { o with m_Length := other.m_Length }
  let o := { o with m_Hash := other.m_Hash }
  if o.m_Capacity > _default_sso_size then
    let p := heap.length
    let heap := heap ++ [malloc junk o.m_Capacity]
    let o := { o with m_Data := some p }
    let src ← (other.value heap).block .heap
    let dst ← (o.value heap).block .heap
    let dst ← memcpy dst 0 src 0 o.m_Capacity
    pure (heap.set p dst, o)
  else
    let dst ← memcpy o.m_SSOBuffer 0 other.m_SSOBuffer 0 _default_sso_size
    pure (heap, { o with m_SSOBuffer := dst })

end object

namespace object

/-- A heap with one block, the 41 bytes of `fast_string(40 times 'a')`. -/
def heap_one : List (List Nat) := [List.replicate 40 97 ++ [0]]

/-- The object of `fast_string(40 times 'a')` with its block at address 0 of `heap_one`
and the hash field set to 9. -/
def aaa_at_zero : object :=
  { m_SSOBuffer := List.replicate 32 204, m_Data := some 0, m_Capacity := 41,
    m_Length := 40, m_Hash := 9 }

end object

namespace fast_string

/-- The constructor `fast_string(size_t size)`, with the member initialiser
`m_Capacity(size)`.  `sso` is the indeterminate initial content of the inline array of
the new object. -/
def of_size (sso : List Nat) (junk : Nat → Nat) (size : Nat) : Except Error fast_string := do
  -- member initialisers: m_Capacity(size), m_Data = 0, m_Length = 0, m_Hash = 0
  let s : fast_string :=
    { m_SSOBuffer := sso, m_Data := none, m_Capacity := size, m_Length := 0, m_Hash := 0 }
  let (s, data_ptr) :=
    if size > _default_sso_size then
      let s := { s with m_Data := some (malloc junk s.m_Capacity) }
      (s, Region.heap)
    else
      (s, Region.sso)
  let s ← s.store data_ptr 0 0
  pure { s with m_Length := 0 }

end fast_string

namespace fast_string

/-- The property `P` holds of the object after the call `x`: of the state the call
returns, when it returns one. -/
def after (x : Except Error fast_string) (P : fast_string → Prop) : Prop :=
  ∀ r, x = .ok r → P r

end fast_string

namespace fast_string

/-- The capacity of `r` is not below the capacity of `s`, and `c_str()` of `r` is the
heap pointer when `c_str()` of `s` is. -/
def not_shrunk (s r : fast_string) : Prop :=
  s.m_Capacity ≤ r.m_Capacity ∧ (s.c_str = .heap → r.c_str = .heap)

instance (s r : fast_string) : Decidable (s.not_shrunk r) := by
  unfold not_shrunk; infer_instance

end fast_string

/-! ## The in-place shifts with `memcpy` as the C standard defines it

`insert` and `erase(size_t, size_t)` shift the tail of the content inside its block with
`memcpy`, not `memmove`.  The definitions above take such a call as a block move.  The
C standard leaves it undefined when the two ranges have a byte in common; the two
members are given a second time with that reading, with the suffix `_std`. -/

/-- The ranges `[d, d + n)` and `[o, o + n)` of one block have a byte in common. -/
def overlap (d o n : Nat) : Prop := d < o + n ∧ o < d + n

instance (d o n : Nat) : Decidable (overlap d o n) := by
  unfold overlap; infer_instance

namespace fast_string

/-- The call `memcpy(p + d, p + o, n)` between two places of region `r` as the C standard
defines it: undefined when the two ranges overlap. -/
def memcpy_within_std (s : fast_string) (r : Region) (d o n : Nat) : Except Error fast_string :=
  if overlap d o n then .error .undefined else s.memcpy_within r d o n

/-- The member `erase(size_t index, size_t count)`, with `memcpy` undefined on overlapping
ranges. -/
def erase_std (s : fast_string) (index count : Nat) : Except Error fast_string := do
  if index > s.m_Length then throw Error.index_out_of_range
  let data_ptr := s.c_str
  let available_count := if count < s.m_Length - index then count else s.m_Length - index
  let s ← s.memcpy_within_std data_ptr index (index + available_count)
    (s.m_Length - (index + available_count))
  let s := { s with m_Length := s.m_Length - available_count }
  s.store data_ptr s.m_Length 0

/-- The member `insert(size_t index, const fast_string& fs)`, with `memcpy` undefined on
overlapping ranges. -/
def insert_fs_std (junk : Nat → Nat) (s : fast_string) (index : Nat) (fs : fast_string) :
    Except Error fast_string := do
  if index > s.m_Length then throw Error.index_out_of_range
  let s ←
    if s.m_Length + fs.m_Length ≥ s.m_Capacity then
      grow junk s (s.m_Length + fs.m_Length + 1)
    else
      pure s
  let data_ptr := s.c_str
  let s ← s.memcpy_within_std data_ptr (index + fs.m_Length) index (s.m_Length - index)
  let src ← fs.block fs.c_str
  let s ← s.memcpy_to data_ptr index src 0 fs.m_Length
  let s := { s with m_Length := s.m_Length + fs.m_Length }
  s.store data_ptr s.m_Length 0

/-- The member `insert(size_t index, const char* str)`, with `memcpy` undefined on
overlapping ranges. -/
def insert_cstr_std (junk : Nat → Nat) (s : fast_string) (index : Nat) (str : List Nat) :
    Except Error fast_string := do
  if index > s.m_Length then throw Error.index_out_of_range
  let len := strlen str
  let s ←
    if s.m_Length + len ≥ s.m_Capacity then grow junk s (s.m_Length + len + 1) else pure s
  let data_ptr := s.c_str
  let s ← s.memcpy_within_std data_ptr (index + len) index (s.m_Length - index)
  let s ← s.memcpy_to data_ptr index (c_string str) 0 len
  let s := { s with m_Length := s.m_Length + len }
  s.store data_ptr s.m_Length 0

end fast_string

/-! ## Member functions as statements on the object

The definitions above give each member as a function from the object before the call
to the object after it, so a call that throws returns no object.  To state what a
throwing call leaves behind, the members with an index check are given a second time as
sequences of statements on the object `*this`: the state is the object, each store
changes it, and an exception or an undefined access ends the call with the object as
the statements before it have left it.  Nothing is rolled back. -/

/-- A computation inside a member function: it runs on the object, changes it, and ends
with a value, with an exception or in an undefined access. -/
@[reducible] def member (α : Type) : Type := ExceptT Error (StateM fast_string) α

namespace member

/-- The outcome of a call on the object `s`, and the object after the call. -/
def call {α : Type} (m : member α) (s : fast_string) : Except Error α × fast_string :=
  (m.run.run s)

/-- A statement that stores into the object: `f` gives the object after the statement,
or fails when the access is undefined. -/
def step (f : fast_string → Except Error fast_string) : member Unit := do
  match f (← get) with
  | .ok s => set s
  | .error e => throw e

/-- The member `substr(size_t index, size_t count)`, statement by statement. -/
def substr (index count : Nat) : member Unit := do
  if index > (← get).m_Length then throw Error.index_out_of_range
  let data_ptr := (← get).c_str
  let length := (← get).m_Length
  let available_count := if sub64 count index < length then count else length - index
  step (fun s => s.memcpy_within data_ptr 0 index available_count)
  modify (fun s => { s with m_Length := available_count })
  step (fun s => s.store data_ptr s.m_Length 0)

/-- The member `erase(size_t index, size_t count)`, statement by statement. -/
def erase (index count : Nat) : member Unit := do
  if index > (← get).m_Length then throw Error.index_out_of_range
  let data_ptr := (← get).c_str
  let length := (← get).m_Length
  let available_count := if count < length - index then count else length - index
  step (fun s => s.memcpy_within data_ptr index (index + available_count)
    (s.m_Length - (index + available_count)))
  modify (fun s => { s with m_Length := s.m_Length - available_count })
  step (fun s => s.store data_ptr s.m_Length 0)

/-- The member `insert(size_t index, const fast_string& fs)`, statement by statement. -/
def insert_fs (junk : Nat → Nat) (index : Nat) (fs : fast_string) : member Unit := do
  if index > (← get).m_Length then throw Error.index_out_of_range
  if (← get).m_Length + fs.m_Length ≥ (← get).m_Capacity then
    step (fun s => fast_string.grow junk s (s.m_Length + fs.m_Length + 1))
  let data_ptr := (← get).c_str
  step (fun s => s.memcpy_within data_ptr (index + fs.m_Length) index (s.m_Length - index))
  step (fun s => do
    let src ← fs.block fs.c_str
    s.memcpy_to data_ptr index src 0 fs.m_Length)
  modify (fun s => { s with m_Length := s.m_Length + fs.m_Length })
  step (fun s => s.store data_ptr s.m_Length 0)

/-- The member `insert(size_t index, const char* str)`, statement by statement. -/
def insert_cstr (junk : Nat → Nat) (index : Nat) (str : List Nat) : member Unit := do
  if index > (← get).m_Length then throw Error.index_out_of_range
  let len := strlen str
  if (← get).m_Length + len ≥ (← get).m_Capacity then
    step (fun s => fast_string.grow junk s (s.m_Length + len + 1))
  let data_ptr := (← get).c_str
  step (fun s => s.memcpy_within data_ptr (index + len) index (s.m_Length - index))
  step (fun s => s.memcpy_to data_ptr index (c_string str) 0 len)
  modify (fun s => { s with m_Length := s.m_Length + len })
  step (fun s => s.store data_ptr s.m_Length 0)

end member

/-! ## Lemmas on the memory primitives -/

theorem takeWhile_zero_free {C : List Nat} (h : zero_free C) :
    C.takeWhile (fun b => b != 0) = C := by
  induction C with
  | nil => rfl
  | cons a t ih =>
    have ha : a ≠ 0 := h a (List.mem_cons_self a t)
    have ht : zero_free t := fun b hb => h b (List.mem_cons_of_mem a hb)
    simp [List.takeWhile_cons, ha, ih ht]

theorem strlen_zero_free {C : List Nat} (h : zero_free C) : strlen C = C.length := by
  simp [strlen, takeWhile_zero_free h]

theorem c_string_zero_free {C : List Nat} (h : zero_free C) : c_string C = C ++ [0] := by
  simp [c_string, takeWhile_zero_free h]

theorem length_malloc (junk : Nat → Nat) (n : Nat) : (malloc junk n).length = n := by
  simp [malloc]

theorem length_realloc (junk : Nat → Nat) (p : Option (List Nat)) (n : Nat) :
    (realloc junk p n).length = n := by
  cases p with
  | none => simp [realloc, malloc]
  | some old => simp [realloc]; omega

theorem realloc_getElem? (junk : Nat → Nat) (old : List Nat) (n k : Nat)
    (hk : k < n) (hk2 : k < old.length) : (realloc junk (some old) n)[k]? = old[k]? := by
  simp [realloc, List.getElem?_append, List.getElem?_take, hk, hk2]

theorem memcpy_ok {dst src : List Nat} {d o n : Nat}
    (h1 : d + n ≤ dst.length) (h2 : o + n ≤ src.length) :
    memcpy dst d src o n = .ok (dst.take d ++ (src.drop o).take n ++ dst.drop (d + n)) := by
  simp [memcpy, h1, h2]

theorem memcpy_length {dst src r : List Nat} {d o n : Nat}
    (h : memcpy dst d src o n = .ok r) : r.length = dst.length := by
  unfold memcpy at h
  split at h
  · rename_i hb
    injection h with h
    subst h
    simp
    omega
  · cases h

theorem memcpy_getElem? {dst src r : List Nat} {d o n : Nat}
    (h : memcpy dst d src o n = .ok r) (k : Nat) :
    r[k]? = if d ≤ k ∧ k < d + n then src[o + (k - d)]? else dst[k]? := by
  unfold memcpy at h
  split at h
  · rename_i hb
    injection h with h
    subst h
    have l1 : (dst.take d).length = d := by simp; omega
    have l2 : ((src.drop o).take n).length = n := by simp; omega
    by_cases h1 : k < d
    · have hc : ¬ (d ≤ k ∧ k < d + n) := by omega
      rw [if_neg hc, List.append_assoc, List.getElem?_append_left (by omega),
        List.getElem?_take_of_lt h1]
    · by_cases h2 : k < d + n
      · have hc : (d ≤ k ∧ k < d + n) := by omega
        rw [if_pos hc, List.getElem?_append_left (by simp; omega),
          List.getElem?_append_right (by omega), l1,
          List.getElem?_take_of_lt (by omega), List.getElem?_drop]
      · have hc : ¬ (d ≤ k ∧ k < d + n) := by omega
        rw [if_neg hc, List.getElem?_append_right (by simp; omega), List.getElem?_drop]
        congr 1
        simp
        omega
  · cases h

theorem poke_ok {blk : List Nat} {k : Nat} (v : Nat) (h : k < blk.length) :
    poke blk k v = .ok (blk.set k v) := by
  simp [poke, h]

theorem poke_length {blk r : List Nat} {k v : Nat} (h : poke blk k v = .ok r) :
    r.length = blk.length := by
  unfold poke at h
  split at h
  · injection h with h; subst h; simp
  · cases h

theorem poke_getElem? {blk r : List Nat} {k v : Nat} (h : poke blk k v = .ok r) (j : Nat) :
    r[j]? = if j = k then some v else blk[j]? := by
  unfold poke at h
  split at h
  · rename_i hk
    injection h with h; subst h
    by_cases hj : j = k
    · subst hj; simp [hk]
    · have : k ≠ j := fun e => hj e.symm
      simp [hj, List.getElem?_set_ne this]
  · cases h



theorem memcpy_zero (b src : List Nat) (d o : Nat) (hd : d ≤ b.length) (ho : o ≤ src.length) :
    memcpy b d src o 0 = .ok b := by
  rw [memcpy_ok (by omega) (by omega)]
  simp

theorem length_splice {Y X : List Nat} {i j : Nat} (hi : i ≤ j) (hj : j ≤ Y.length) :
    (splice Y i j X).length = i + X.length + (Y.length - j) := by
  simp [splice]; omega

theorem splice_getElem? {Y X : List Nat} {i j : Nat} (hi : i ≤ j) (hj : j ≤ Y.length) (k : Nat) :
    (splice Y i j X)[k]? =
      if k < i then Y[k]? else if k < i + X.length then X[k - i]? else Y[j + (k - i - X.length)]? := by
  have l1 : (Y.take i).length = i := by simp; omega
  unfold splice
  by_cases h1 : k < i
  · rw [if_pos h1, List.append_assoc, List.getElem?_append_left (by omega),
      List.getElem?_take_of_lt h1]
  · rw [if_neg h1]
    by_cases h2 : k < i + X.length
    · rw [if_pos h2, List.getElem?_append_left (by simp; omega),
        List.getElem?_append_right (by omega), l1]
    · rw [if_neg h2, List.getElem?_append_right (by simp; omega), List.getElem?_drop]
      congr 1
      simp
      omega

/-- The three stores every in-place edit performs on the block `b` behind `c_str()`:
move the tail `Y[j..)` to offset `i + |X|`, write `X` at offset `i`, terminate. -/
theorem splice_block {b src Y X : List Nat} {i j : Nat}
    (hY : ∀ k, k < Y.length → b[k]? = Y[k]?) (hX : ∀ k, k < X.length → src[k]? = X[k]?)
    (hsrc : X.length ≤ src.length) (hi : i ≤ j) (hj : j ≤ Y.length)
    (hYb : Y.length ≤ b.length) (hfit : i + X.length + (Y.length - j) < b.length) :
    ∃ b1 b2 b3, memcpy b (i + X.length) b j (Y.length - j) = .ok b1 ∧
      memcpy b1 i src 0 X.length = .ok b2 ∧
      poke b2 (i + X.length + (Y.length - j)) 0 = .ok b3 ∧
      b3.length = b.length ∧
      (∀ k, k < (splice Y i j X).length → b3[k]? = (splice Y i j X)[k]?) ∧
      b3[(splice Y i j X).length]? = some 0 := by
  obtain ⟨b1, h1⟩ : ∃ b1, memcpy b (i + X.length) b j (Y.length - j) = .ok b1 :=
    ⟨_, memcpy_ok (by omega) (by omega)⟩
  have l1 := memcpy_length h1
  obtain ⟨b2, h2⟩ : ∃ b2, memcpy b1 i src 0 X.length = .ok b2 :=
    ⟨_, memcpy_ok (by omega) (by omega)⟩
  have l2 := memcpy_length h2
  obtain ⟨b3, h3⟩ : ∃ b3, poke b2 (i + X.length + (Y.length - j)) 0 = .ok b3 :=
    ⟨_, poke_ok 0 (by omega)⟩
  have l3 := poke_length h3
  refine ⟨b1, b2, b3, h1, h2, h3, by omega, ?_, ?_⟩
  · intro k hk
    rw [length_splice hi hj] at hk
    rw [splice_getElem? hi hj, poke_getElem? h3, if_neg (by omega), memcpy_getElem? h2]
    by_cases c1 : k < i
    · rw [if_neg (by omega), if_pos c1, memcpy_getElem? h1, if_neg (by omega), hY k (by omega)]
    · rw [if_neg c1]
      by_cases c2 : k < i + X.length
      · rw [if_pos (by omega), if_pos c2, hX _ (by omega)]
        congr 1
        omega
      · rw [if_neg (by omega), if_neg c2, memcpy_getElem? h1, if_pos (by omega),
          hY _ (by omega)]
        congr 1
        omega
  · rw [length_splice hi hj, poke_getElem? h3, if_pos rfl]

namespace fast_string

/-! ## Lemmas on the object -/

@[simp] theorem c_str_set_block (s : fast_string) (r : Region) (b : List Nat) :
    (s.set_block r b).c_str = s.c_str := by
  cases r <;> rfl

@[simp] theorem m_Capacity_set_block (s : fast_string) (r : Region) (b : List Nat) :
    (s.set_block r b).m_Capacity = s.m_Capacity := by
  cases r <;> rfl

@[simp] theorem m_Length_set_block (s : fast_string) (r : Region) (b : List Nat) :
    (s.set_block r b).m_Length = s.m_Length := by
  cases r <;> rfl

@[simp] theorem m_Hash_set_block (s : fast_string) (r : Region) (b : List Nat) :
    (s.set_block r b).m_Hash = s.m_Hash := by
  cases r <;> rfl

@[simp] theorem block_set_block (s : fast_string) (r : Region) (b : List Nat) :
    (s.set_block r b).block r = .ok b := by
  cases r <;> rfl

@[simp] theorem set_block_set_block (s : fast_string) (r : Region) (b b' : List Nat) :
    (s.set_block r b).set_block r b' = s.set_block r b' := by
  cases r <;> rfl

theorem memcpy_to_ok {s : fast_string} {r : Region} {b b' src : List Nat} {d o n : Nat}
    (hb : s.block r = .ok b) (hm : memcpy b d src o n = .ok b') :
    s.memcpy_to r d src o n = .ok (s.set_block r b') := by
  simp [memcpy_to, hb, hm, bind, Except.bind, pure, Except.pure]

theorem memcpy_within_ok {s : fast_string} {r : Region} {b b' : List Nat} {d o n : Nat}
    (hb : s.block r = .ok b) (hm : memcpy b d b o n = .ok b') :
    s.memcpy_within r d o n = .ok (s.set_block r b') := by
  simp [memcpy_within, memcpy_to, hb, hm, bind, Except.bind, pure, Except.pure]

theorem store_ok {s : fast_string} {r : Region} {b b' : List Nat} {k v : Nat}
    (hb : s.block r = .ok b) (hp : poke b k v = .ok b') :
    s.store r k v = .ok (s.set_block r b') := by
  simp [store, hb, hp, bind, Except.bind, pure, Except.pure]

theorem holds_intro {s : fast_string} {Y b : List Nat} (hlen : s.m_Length = Y.length)
    (hb : s.block s.c_str = .ok b) (hc : ∀ k, k < Y.length → b[k]? = Y[k]?)
    (ht : b[Y.length]? = some 0) : s.holds Y := by
  refine ⟨hlen, ?_⟩
  simp only [c_str_view, hb, hlen]
  congr 1
  apply List.ext_getElem?
  intro k
  rcases Nat.lt_trichotomy k Y.length with h | h | h
  · rw [List.getElem?_take_of_lt (by omega), hc k h, List.getElem?_append_left h]
  · subst h
    rw [List.getElem?_take_of_lt (by omega), ht, List.getElem?_append_right (le_refl _)]
    simp
  · rw [List.getElem?_eq_none (by simp; omega), List.getElem?_eq_none (by simp; omega)]

theorem holds_elim {s : fast_string} {Y : List Nat} (h : s.holds Y) :
    ∃ b, s.block s.c_str = .ok b ∧ (∀ k, k < Y.length → b[k]? = Y[k]?) ∧
      b[Y.length]? = some 0 ∧ Y.length < b.length ∧ s.m_Length = Y.length := by
  obtain ⟨hlen, hv⟩ := h
  unfold c_str_view at hv
  split at hv
  · rename_i b hb
    rw [hlen] at hv
    injection hv with hv
    have hk : ∀ k, k < Y.length + 1 → b[k]? = (Y ++ [0])[k]? := by
      intro k hk
      rw [← hv, List.getElem?_take_of_lt hk]
    refine ⟨b, hb, ?_, ?_, ?_, hlen⟩
    · intro k hk'
      rw [hk k (by omega), List.getElem?_append_left hk']
    · rw [hk _ (by omega), List.getElem?_append_right (le_refl _)]
      simp
    · have := congrArg List.length hv
      simp at this
      omega
  · cases hv

/-- Two contents held by one buffer are the same. -/
theorem holds_unique {s : fast_string} {Y Z : List Nat} (h1 : s.holds Y) (h2 : s.holds Z) :
    Y = Z := by
  have e := h1.2.symm.trans h2.2
  injection e with e
  exact List.append_cancel_right e

theorem wf_block {s : fast_string} (h : s.wf) :
    ∃ b, s.block s.c_str = .ok b ∧ b.length = s.m_Capacity := by
  obtain ⟨h1, h2, _, h4⟩ := h
  unfold c_str
  by_cases hc : s.m_Capacity > _default_sso_size
  · rw [if_pos hc]
    have h5 := h4 hc
    cases hd : s.m_Data with
    | none => rw [hd] at h5; cases h5
    | some b =>
      rw [hd] at h5
      simp at h5
      exact ⟨b, by simp [block, hd], h5⟩
  · rw [if_neg hc]
    exact ⟨s.m_SSOBuffer, rfl, by omega⟩

/-- Writing a block of the same size behind `c_str()` and choosing a length below
the capacity keeps the structural invariant. -/
theorem wf_edit {s : fast_string} {b b' : List Nat} {n : Nat} (h : s.wf)
    (hb : s.block s.c_str = .ok b) (hl : b'.length = b.length) (hn : n < s.m_Capacity) :
    ({ s.set_block s.c_str b' with m_Length := n } : fast_string).wf := by
  obtain ⟨b0, hb0, hb0l⟩ := wf_block h
  rw [hb] at hb0
  injection hb0 with hb0
  subst hb0
  obtain ⟨h1, h2, h3, h4⟩ := h
  unfold c_str at hb ⊢
  by_cases hc : s.m_Capacity > _default_sso_size
  · rw [if_pos hc] at hb ⊢
    refine ⟨h1, h2, hn, fun _ => ?_⟩
    simp [set_block, hl, hb0l]
  · rw [if_neg hc] at hb ⊢
    simp only [block] at hb
    injection hb with hb
    refine ⟨?_, h2, hn, fun hc' => absurd hc' hc⟩
    show b'.length = _
    rw [hl, ← hb, h1]

/-- The state-level form of `splice_block`: the stores of an in-place edit, run on the
block behind `c_str()` of a buffer holding `Y`, leave a buffer holding `splice Y i j X`. -/
theorem edit_spec {s : fast_string} {S Y X : List Nat} {i j : Nat} (h : s.holds Y)
    (hX : ∀ k, k < X.length → S[k]? = X[k]?) (hsrc : X.length ≤ S.length)
    (hi : i ≤ j) (hj : j ≤ Y.length)
    (hfit : ∀ b, s.block s.c_str = .ok b → i + X.length + (Y.length - j) < b.length) :
    ∃ b b1 b2 b3, s.block s.c_str = .ok b ∧
      memcpy b (i + X.length) b j (Y.length - j) = .ok b1 ∧
      memcpy b1 i S 0 X.length = .ok b2 ∧
      poke b2 (i + X.length + (Y.length - j)) 0 = .ok b3 ∧
      b1.length = b.length ∧ b2.length = b.length ∧ b3.length = b.length ∧
      ∀ n, n = i + X.length + (Y.length - j) →
        ({ s.set_block s.c_str b3 with m_Length := n } : fast_string).holds (splice Y i j X) := by
  obtain ⟨b, hb, hY, -, hYb, -⟩ := holds_elim h
  obtain ⟨b1, b2, b3, h1, h2, h3, hl, hc, ht⟩ :=
    splice_block hY hX hsrc hi hj (by omega) (hfit b hb)
  have l1 := memcpy_length h1
  have l2 := memcpy_length h2
  refine ⟨b, b1, b2, b3, hb, h1, h2, h3, l1, by omega, hl, ?_⟩
  intro n hn
  subst hn
  have hb3 : ({ s.set_block s.c_str b3 with m_Length := i + X.length + (Y.length - j) }
      : fast_string).block s.c_str = .ok b3 := by
    cases s.c_str <;> rfl
  have hcs : ({ s.set_block s.c_str b3 with m_Length := i + X.length + (Y.length - j) }
      : fast_string).c_str = s.c_str := by
    show (if (s.set_block s.c_str b3).m_Capacity > _ then _ else _) = _
    rw [m_Capacity_set_block]
    rfl
  refine holds_intro ?_ (by rw [hcs]; exact hb3) hc ht
  rw [length_splice hi hj]

theorem store_length_ok {s : fast_string} {r : Region} {b b' : List Nat} {n v : Nat}
    (hb : s.block r = .ok b) (hp : poke b n v = .ok b') :
    ({ s with m_Length := n } : fast_string).store r n v
      = .ok { s.set_block r b' with m_Length := n } := by
  have hb' : ({ s with m_Length := n } : fast_string).block r = .ok b := by
    cases r <;> exact hb
  rw [store_ok hb' hp]
  cases r <;> rfl

theorem c_str_edit (s : fast_string) (b : List Nat) (n : Nat) :
    ({ s.set_block s.c_str b with m_Length := n } : fast_string).c_str = s.c_str := by
  show (if (s.set_block s.c_str b).m_Capacity > _ then _ else _) = _
  rw [m_Capacity_set_block]
  rfl

theorem block_edit (s : fast_string) (b : List Nat) (n : Nat) :
    ({ s.set_block s.c_str b with m_Length := n } : fast_string).block
      ({ s.set_block s.c_str b with m_Length := n } : fast_string).c_str = .ok b := by
  rw [c_str_edit]
  cases s.c_str <;> rfl

end fast_string

namespace fast_string

theorem sso_length_edit {s : fast_string} {b b' : List Nat} {n : Nat}
    (hb : s.block s.c_str = .ok b) (hl : b'.length = b.length) :
    ({ s.set_block s.c_str b' with m_Length := n } : fast_string).m_SSOBuffer.length
      = s.m_SSOBuffer.length := by
  cases hr : s.c_str with
  | sso =>
    rw [hr] at hb
    simp only [block] at hb
    injection hb with hb
    show b'.length = _
    rw [hl, hb]
  | heap => rfl

theorem block_unique {s : fast_string} {r : Region} {b b' : List Nat}
    (h : s.block r = .ok b) (h' : s.block r = .ok b') : b = b' := by
  rw [h] at h'
  injection h'

theorem erase_spec {s : fast_string} {Y : List Nat} (i c : Nat) (h : s.holds Y)
    (hi : i ≤ Y.length) :
    ∃ s', s.erase i c = .ok s' ∧ s'.holds (Y.take i ++ Y.drop (i + min c (Y.length - i))) ∧
      s'.m_Capacity = s.m_Capacity ∧ s'.m_Hash = s.m_Hash ∧ (s.wf → s'.wf) ∧
      (∀ b, s.block s.c_str = .ok b →
        ∃ b', s'.block s'.c_str = .ok b' ∧ b'.length = b.length) ∧
      s'.m_SSOBuffer.length = s.m_SSOBuffer.length := by
  have hlen := h.1
  have he : (if c < Y.length - i then c else Y.length - i) = min c (Y.length - i) := by
    split <;> omega
  generalize min c (Y.length - i) = e at he ⊢
  have hle : e ≤ Y.length - i := by rw [← he]; split <;> omega
  obtain ⟨b0, hb0, -, -, hlt, -⟩ := holds_elim h
  obtain ⟨b, b1, b2, b3, hb, h1, h2, h3, l1, l2, l3, hh⟩ :=
    edit_spec (S := []) (X := []) (i := i) (j := i + e) h (by simp) (by simp) (by omega)
      (by omega) (by
        intro b hb
        have := block_unique hb hb0
        subst this
        simp only [List.length_nil]
        omega)
  have hbb := block_unique hb hb0
  subst hbb
  have hz : b2 = b1 := by
    have hz : memcpy b1 i [] 0 0 = .ok b1 := memcpy_zero _ _ _ _ (by omega) (by simp)
    simp only [List.length_nil] at h2
    rw [hz] at h2
    injection h2 with h2
    exact h2.symm
  subst hz
  simp only [List.length_nil, Nat.add_zero] at h1 h3
  have hn : Y.length - e = i + (Y.length - (i + e)) := by omega
  unfold erase
  simp only [hlen, he, if_neg (not_lt.mpr hi)]
  rw [memcpy_within_ok hb h1]
  simp only [bind, Except.bind, pure, Except.pure, m_Length_set_block, hlen, hn]
  refine ⟨_, store_length_ok (block_set_block _ _ _) h3, ?_, ?_, ?_, ?_, ?_, ?_⟩
  · have := hh _ rfl
    simpa [splice] using this
  · simp
  · simp
  · intro hw
    rw [set_block_set_block]
    exact wf_edit hw hb l3 (by have := hw.2.2.1; omega)
  · intro b' hb'
    have := block_unique hb hb'
    subst this
    rw [set_block_set_block]
    exact ⟨b3, block_edit _ _ _, l3⟩
  · rw [set_block_set_block]
    exact sso_length_edit hb l3

end fast_string


namespace fast_string

theorem of_cstr_spec (sso : List Nat) (junk : Nat → Nat) {C : List Nat}
    (hsso : sso.length = 32) (hC : zero_free C) :
    ∃ s, of_cstr sso junk C = .ok s ∧ s.holds C ∧ s.wf ∧ s.m_Hash = 0 ∧
      (C.length ≤ 31 → s.m_Capacity = 32 ∧ s.m_Data = none) ∧
      (31 < C.length → s.m_Capacity = C.length + 1 ∧
        ∃ b, s.m_Data = some b ∧ b.length = C.length + 1) := by
  by_cases hl : C.length ≤ 31
  · have hif : ¬ (C.length > _default_sso_size - 1) := by simp [_default_sso_size]; omega
    obtain ⟨b1, hb1⟩ : ∃ b1, memcpy sso 0 (C ++ [0]) 0 C.length = .ok b1 :=
      ⟨_, memcpy_ok (by omega) (by simp)⟩
    obtain ⟨b2, hb2⟩ : ∃ b2, poke b1 C.length 0 = .ok b2 :=
      ⟨_, poke_ok 0 (by rw [memcpy_length hb1]; omega)⟩
    have l2 : b2.length = 32 := by rw [poke_length hb2, memcpy_length hb1, hsso]
    simp only [of_cstr, strlen_zero_free hC, c_string_zero_free hC, if_neg hif, memcpy_to,
      store, block, set_block, bind, Except.bind, hb1, hb2, pure, Except.pure]
    refine ⟨_, rfl, ?_, ?_, rfl, fun _ => ⟨rfl, rfl⟩, fun h => absurd h (by omega)⟩
    · apply holds_intro (b := b2) rfl
      · simp [c_str, block, _default_sso_size]
      · intro k hk
        rw [poke_getElem? hb2, if_neg (by omega), memcpy_getElem? hb1,
          if_pos (by omega), List.getElem?_append_left (by omega)]
        simp
      · rw [poke_getElem? hb2, if_pos rfl]
    · refine ⟨l2, le_refl _, ?_, fun h => absurd h (lt_irrefl _)⟩
      show C.length < 32
      omega
  · have hif : C.length > _default_sso_size - 1 := by simp [_default_sso_size]; omega
    obtain ⟨b1, hb1⟩ : ∃ b1, memcpy (malloc junk (C.length + 1)) 0 (C ++ [0]) 0 C.length
        = .ok b1 := ⟨_, memcpy_ok (by rw [length_malloc]; omega) (by simp)⟩
    have l1 := memcpy_length hb1
    rw [length_malloc] at l1
    obtain ⟨b2, hb2⟩ : ∃ b2, poke b1 C.length 0 = .ok b2 := ⟨_, poke_ok 0 (by omega)⟩
    have l2 : b2.length = C.length + 1 := by rw [poke_length hb2, l1]
    simp only [of_cstr, strlen_zero_free hC, c_string_zero_free hC, if_pos hif, memcpy_to,
      store, block, set_block, bind, Except.bind, hb1, hb2, pure, Except.pure]
    refine ⟨_, rfl, ?_, ?_, rfl, fun h => absurd h hl, fun _ => ⟨rfl, b2, rfl, l2⟩⟩
    · apply holds_intro (b := b2) rfl
      · have : C.length + 1 > _default_sso_size := by simp [_default_sso_size]; omega
        simp [c_str, block, this]
      · intro k hk
        rw [poke_getElem? hb2, if_neg (by omega), memcpy_getElem? hb1,
          if_pos (by omega), List.getElem?_append_left (by omega)]
        simp
      · rw [poke_getElem? hb2, if_pos rfl]
    · refine ⟨hsso, ?_, ?_, fun _ => ?_⟩
      · show 32 ≤ C.length + 1
        omega
      · show C.length < C.length + 1
        omega
      · show Option.map List.length (some b2) = some (C.length + 1)
        simp [l2]

end fast_string

namespace fast_string

theorem grow_spec (junk : Nat → Nat) {s : fast_string} {Y : List Nat} {N : Nat}
    (hw : s.wf) (h : s.holds Y) (hc : s.m_Capacity < N) :
    ∃ s', grow junk s N = .ok s' ∧ s'.holds Y ∧ s'.wf ∧ s'.m_Capacity = N ∧
      s'.m_Hash = s.m_Hash := by
  obtain ⟨b, hb, hY, ht, hlt, hlen⟩ := holds_elim h
  obtain ⟨b', hb', hbl⟩ := wf_block hw
  have hbb := block_unique hb' hb
  subst hbb
  obtain ⟨w1, w2, w3, w4⟩ := hw
  have hnew : N > _default_sso_size := by omega
  by_cases hcap : s.m_Capacity = _default_sso_size
  · have hcs : s.c_str = .sso := by simp [c_str, hcap]
    rw [hcs] at hb
    simp only [block] at hb
    injection hb with hb
    subst hb
    obtain ⟨b1, hb1⟩ : ∃ b1, memcpy (realloc junk s.m_Data N) 0 s.m_SSOBuffer 0
        _default_sso_size = .ok b1 :=
      ⟨_, memcpy_ok (by rw [length_realloc]; omega) (by omega)⟩
    have l1 := memcpy_length hb1
    rw [length_realloc] at l1
    simp only [grow, hcap, beq_self_eq_true, if_true, memcpy_to, block, set_block, bind,
      Except.bind, hb1, pure, Except.pure]
    refine ⟨_, rfl, ?_, ?_, rfl, rfl⟩
    · refine holds_intro (b := b1) ?_ ?_ ?_ ?_
      · exact hlen
      · simp [c_str, block, hnew]
      · intro k hk
        rw [memcpy_getElem? hb1, if_pos (by omega), ← hY k hk]
        simp
      · rw [memcpy_getElem? hb1, if_pos (by omega), ← ht]
        simp
    · refine ⟨w1, ?_, ?_, fun _ => ?_⟩
      · show _default_sso_size ≤ N
        omega
      · show s.m_Length < N
        omega
      · show Option.map List.length (some b1) = some N
        simp [l1]
  · have hgt : s.m_Capacity > _default_sso_size := by omega
    have hcs : s.c_str = .heap := by simp [c_str, hgt]
    rw [hcs] at hb
    cases hd : s.m_Data with
    | none => simp [block, hd] at hb
    | some b0 =>
      simp only [block, hd] at hb
      injection hb with hb
      subst hb
      have hne : (s.m_Capacity == _default_sso_size) = false := by simp [hcap]
      simp only [grow, hne, hd, pure, Except.pure]
      refine ⟨_, rfl, ?_, ?_, rfl, rfl⟩
      · refine holds_intro (b := realloc junk (some b0) N) ?_ ?_ ?_ ?_
        · exact hlen
        · simp [c_str, block, hnew]
        · intro k hk
          rw [realloc_getElem? _ _ _ _ (by omega) (by omega), hY k hk]
        · rw [realloc_getElem? _ _ _ _ (by omega) (by omega), ht]
      · refine ⟨w1, ?_, ?_, fun _ => ?_⟩
        · show _default_sso_size ≤ N
          omega
        · show s.m_Length < N
          omega
        · show Option.map List.length (some (realloc junk (some b0) N)) = some N
          simp [length_realloc]

end fast_string

namespace fast_string

theorem insert_cstr_eq (junk : Nat → Nat) (s : fast_string) (i : Nat) (str : List Nat) :
    insert_cstr junk s i str = insert_core junk s i (strlen str) (c_string str) := rfl

theorem insert_fs_eq (junk : Nat → Nat) (s : fast_string) (i : Nat) {fs : fast_string}
    {src : List Nat} (hsrc : fs.block fs.c_str = .ok src) :
    insert_fs junk s i fs = insert_core junk s i fs.m_Length src := by
  unfold insert_fs insert_core edit
  simp only [hsrc, bind, Except.bind]

theorem append_cstr_eq (junk : Nat → Nat) (s : fast_string) (str : List Nat) :
    append_cstr junk s str = append_core junk s (strlen str) (c_string str) := rfl

theorem append_fs_eq (junk : Nat → Nat) (s : fast_string) {fs : fast_string}
    {src : List Nat} (hsrc : fs.block fs.c_str = .ok src) :
    append_fs junk s fs = append_core junk s fs.m_Length src := by
  unfold append_fs append_core
  simp only [hsrc, bind, Except.bind]

theorem replace_at_eq (junk : Nat → Nat) (s : fast_string) (index sl rl : Nat) (src : List Nat) :
    replace_at junk s index sl rl src = (do
      let s ←
        if add64 (sub64 s.m_Length sl) rl > s.m_Capacity then
          grow junk s (add64 s.m_Capacity (sub64 rl sl))
        else
          pure s
      s.edit (index + rl) (index + sl) (sub64 s.m_Length (index + sl)) index src rl
        (fun l => add64 l (sub64 rl sl))) := rfl

end fast_string


namespace fast_string

theorem edit_state_spec {s : fast_string} {src Y X : List Nat} {i j : Nat} (f : Nat → Nat)
    (h : s.holds Y) (hX : ∀ k, k < X.length → src[k]? = X[k]?) (hsrc : X.length ≤ src.length)
    (hi : i ≤ j) (hj : j ≤ Y.length) (hf : f Y.length = i + X.length + (Y.length - j))
    (hfit : ∀ b, s.block s.c_str = .ok b → i + X.length + (Y.length - j) < b.length) :
    ∃ s', s.edit (i + X.length) j (Y.length - j) i src X.length f = .ok s' ∧
      s'.holds (splice Y i j X) ∧ s'.m_Capacity = s.m_Capacity ∧ s'.m_Hash = s.m_Hash ∧
      (s.wf → i + X.length + (Y.length - j) < s.m_Capacity → s'.wf) ∧
      ∀ b, s.block s.c_str = .ok b → ∃ b', s'.block s'.c_str = .ok b' ∧ b'.length = b.length := by
  obtain ⟨b, b1, b2, b3, hb, h1, h2, h3, l1, l2, l3, hh⟩ := edit_spec h hX hsrc hi hj hfit
  unfold edit
  dsimp only
  rw [memcpy_within_ok hb h1]
  simp only [bind, Except.bind]
  rw [memcpy_to_ok (block_set_block _ _ _) h2]
  simp only [set_block_set_block, m_Length_set_block, h.1, hf]
  refine ⟨_, store_length_ok (block_set_block _ _ _) h3, ?_, ?_, ?_, ?_, ?_⟩
  · rw [set_block_set_block]
    exact hh _ rfl
  · simp
  · simp
  · intro hw hn
    rw [set_block_set_block]
    exact wf_edit hw hb l3 hn
  · intro b' hb'
    have := block_unique hb hb'
    subst this
    rw [set_block_set_block]
    exact ⟨b3, block_edit _ _ _, l3⟩

/-- An insertion that fits the capacity is done in place. -/
theorem insert_core_inplace (junk : Nat → Nat) {s : fast_string} {src Y X : List Nat} {i : Nat}
    (h : s.holds Y) (hX : ∀ k, k < X.length → src[k]? = X[k]?)
    (hsrc : X.length ≤ src.length) (hi : i ≤ Y.length) (hcap : Y.length + X.length < s.m_Capacity)
    (hfit : ∀ b, s.block s.c_str = .ok b → Y.length + X.length < b.length) :
    ∃ s', insert_core junk s i X.length src = .ok s' ∧ s'.holds (splice Y i i X) ∧
      s'.m_Hash = s.m_Hash ∧ s'.m_Capacity = s.m_Capacity ∧
      (s.wf → s'.wf) := by
  have hlen := h.1
  unfold insert_core
  simp only [hlen, if_neg (not_lt.mpr hi)]
  obtain ⟨s2, e2, hh2, hc2, hash2, hw2, -⟩ :=
    edit_state_spec (i := i) (j := i) (fun l => l + X.length) h hX hsrc (le_refl _) hi
      (by show Y.length + X.length = _; omega) (by
        intro b hb
        have := hfit b hb
        omega)
  have hg : ¬ (Y.length + X.length ≥ s.m_Capacity) := by omega
  simp only [if_neg hg, bind, Except.bind, pure, Except.pure, hlen, e2]
  exact ⟨s2, rfl, hh2, hash2, hc2, fun hw => hw2 hw (by omega)⟩

theorem insert_core_spec (junk : Nat → Nat) {s : fast_string} {src Y X : List Nat} {i : Nat}
    (hw : s.wf) (h : s.holds Y) (hX : ∀ k, k < X.length → src[k]? = X[k]?)
    (hsrc : X.length ≤ src.length) (hi : i ≤ Y.length) :
    ∃ s', insert_core junk s i X.length src = .ok s' ∧ s'.holds (splice Y i i X) ∧ s'.wf ∧
      s'.m_Hash = s.m_Hash ∧
      s'.m_Capacity =
        if Y.length + X.length ≥ s.m_Capacity then Y.length + X.length + 1 else s.m_Capacity := by
  have hlen := h.1
  unfold insert_core
  simp only [hlen, if_neg (not_lt.mpr hi)]
  by_cases hg : Y.length + X.length ≥ s.m_Capacity
  · obtain ⟨s1, e1, hh1, hw1, hc1, hash1⟩ :=
      grow_spec junk (N := Y.length + X.length + 1) hw h (by omega)
    obtain ⟨b1, hb1, hbl1⟩ := wf_block hw1
    obtain ⟨s2, e2, hh2, hc2, hash2, hw2, -⟩ :=
      edit_state_spec (i := i) (j := i) (fun l => l + X.length) hh1 hX hsrc (le_refl _) hi
        (by show Y.length + X.length = _; omega) (by
          intro b hb
          have := block_unique hb hb1
          subst this
          omega)
    simp only [if_pos hg, e1, bind, Except.bind, pure, Except.pure, hh1.1, e2]
    refine ⟨s2, rfl, hh2, hw2 hw1 (by omega), by rw [hash2, hash1], ?_⟩
    rw [hc2, hc1]
  · obtain ⟨b1, hb1, hbl1⟩ := wf_block hw
    obtain ⟨s2, e2, hh2, hc2, hash2, hw2, -⟩ :=
      edit_state_spec (i := i) (j := i) (fun l => l + X.length) h hX hsrc (le_refl _) hi
        (by show Y.length + X.length = _; omega) (by
          intro b hb
          have := block_unique hb hb1
          subst this
          omega)
    simp only [if_neg hg, bind, Except.bind, pure, Except.pure, hlen, e2]
    exact ⟨s2, rfl, hh2, hw2 hw (by omega), hash2, hc2⟩

end fast_string

namespace fast_string

theorem append_getElem? {A B src b1 : List Nat} {g : Nat → Option Nat}
    (hA : ∀ k, k < A.length → g k = A[k]?)
    (hB : ∀ k, k < B.length → src[k]? = B[k]?)
    (h1 : ∀ k, b1[k]? = if A.length ≤ k ∧ k < A.length + (B.length + 1)
      then src[0 + (k - A.length)]? else g k)
    (k : Nat) (hk : k < (A ++ B).length) : b1[k]? = (A ++ B)[k]? := by
  rw [List.length_append] at hk
  rw [h1]
  by_cases c : k < A.length
  · rw [if_neg (by omega), hA k c, List.getElem?_append_left c]
  · rw [if_pos (by omega), List.getElem?_append_right (by omega), hB _ (by omega)]
    congr 1
    omega

theorem append_core_spec (junk : Nat → Nat) {s : fast_string} {src A B : List Nat}
    (hw : s.wf) (h : s.holds A) (hB : ∀ k, k < B.length → src[k]? = B[k]?)
    (hB0 : src[B.length]? = some 0) (hsrc : B.length < src.length) :
    ∃ s', append_core junk s B.length src = .ok s' ∧ s'.holds (A ++ B) ∧ s'.wf ∧
      s'.m_Hash = s.m_Hash ∧
      s'.m_Capacity =
        if A.length + B.length < s.m_Capacity then s.m_Capacity else A.length + B.length + 1 := by
  obtain ⟨b, hb, hY, ht, hlt, hlen⟩ := holds_elim h
  obtain ⟨b', hb', hbl⟩ := wf_block hw
  have hbb := block_unique hb' hb
  subst hbb
  unfold append_core
  simp only [hlen]
  by_cases hg : A.length + B.length < s.m_Capacity
  · obtain ⟨b1, h1⟩ : ∃ b1, memcpy b' A.length src 0 (B.length + 1) = .ok b1 :=
      ⟨_, memcpy_ok (by omega) (by omega)⟩
    have l1 := memcpy_length h1
    simp only [if_pos hg, memcpy_to_ok hb h1, bind, Except.bind, pure, Except.pure,
      m_Length_set_block, hlen]
    have hb3 : ({ s.set_block s.c_str b1 with m_Length := A.length + B.length }
        : fast_string).block s.c_str = .ok b1 := by
      cases s.c_str <;> rfl
    have hcs : ({ s.set_block s.c_str b1 with m_Length := A.length + B.length }
        : fast_string).c_str = s.c_str := by
      show (if (s.set_block s.c_str b1).m_Capacity > _ then _ else _) = _
      rw [m_Capacity_set_block]
      rfl
    refine ⟨_, rfl, ?_, ?_, ?_, ?_⟩
    · refine holds_intro (b := b1) ?_ (by rw [hcs]; exact hb3) ?_ ?_
      · simp
      · exact append_getElem? hY hB (memcpy_getElem? h1)
      · rw [memcpy_getElem? h1, List.length_append, if_pos (by omega), ← hB0]
        congr 1
        omega
    · exact wf_edit hw hb l1 hg
    · simp
    · simp
  · have hnew : A.length + B.length + 1 > _default_sso_size := by have := hw.2.1; omega
    obtain ⟨w1, w2, w3, w4⟩ := hw
    simp only [if_neg hg]
    by_cases hcap : s.m_Capacity = _default_sso_size
    · have hcs : s.c_str = .sso := by simp [c_str, hcap]
      rw [hcs] at hb
      simp only [block] at hb
      injection hb with hb
      subst hb
      obtain ⟨b1, hb1⟩ : ∃ b1, memcpy (realloc junk s.m_Data (A.length + B.length + 1)) 0
          s.m_SSOBuffer 0 _default_sso_size = .ok b1 :=
        ⟨_, memcpy_ok (by rw [length_realloc]; omega) (by omega)⟩
      have l1 := memcpy_length hb1
      rw [length_realloc] at l1
      obtain ⟨b2, hb2⟩ : ∃ b2, memcpy b1 A.length src 0 (B.length + 1) = .ok b2 :=
        ⟨_, memcpy_ok (by omega) (by omega)⟩
      have l2 := memcpy_length hb2
      simp only [hcap, beq_self_eq_true, if_true, memcpy_to, block, set_block, bind,
        Except.bind, hb1, hb2, hlen, pure, Except.pure]
      refine ⟨_, rfl, ?_, ?_, rfl, rfl⟩
      · refine holds_intro (b := b2) ?_ ?_ ?_ ?_
        · simp
        · simp [c_str, block, hnew]
        · refine append_getElem? (g := fun k => b1[k]?) ?_ hB (memcpy_getElem? hb2)
          intro k hk
          show b1[k]? = _
          rw [memcpy_getElem? hb1, if_pos (by omega), ← hY k hk]
          simp
        · rw [memcpy_getElem? hb2, List.length_append, if_pos (by omega), ← hB0]
          congr 1
          omega
      · refine ⟨w1, ?_, ?_, fun _ => ?_⟩
        · show _default_sso_size ≤ A.length + B.length + 1
          omega
        · show A.length + B.length < A.length + B.length + 1
          omega
        · show Option.map List.length (some b2) = some (A.length + B.length + 1)
          simp [l2, l1]
    · have hgt : s.m_Capacity > _default_sso_size := by omega
      have hcs : s.c_str = .heap := by simp [c_str, hgt]
      rw [hcs] at hb
      cases hd : s.m_Data with
      | none => simp [block, hd] at hb
      | some b0 =>
        simp only [block, hd] at hb
        injection hb with hb
        subst hb
        have hne : (s.m_Capacity == _default_sso_size) = false := by simp [hcap]
        obtain ⟨b2, hb2⟩ : ∃ b2, memcpy (realloc junk (some b0) (A.length + B.length + 1))
            A.length src 0 (B.length + 1) = .ok b2 :=
          ⟨_, memcpy_ok (by rw [length_realloc]; omega) (by omega)⟩
        have l2 := memcpy_length hb2
        rw [length_realloc] at l2
        simp only [hne, hd, memcpy_to, block, set_block, bind, Except.bind, hb2, hlen, pure,
          Except.pure]
        refine ⟨_, rfl, ?_, ?_, rfl, rfl⟩
        · refine holds_intro (b := b2) ?_ ?_ ?_ ?_
          · simp
          · simp [c_str, block, hnew]
          · refine append_getElem?
              (g := fun k => (realloc junk (some b0) (A.length + B.length + 1))[k]?) ?_ hB
              (memcpy_getElem? hb2)
            intro k hk
            show (realloc junk (some b0) (A.length + B.length + 1))[k]? = _
            rw [realloc_getElem? _ _ _ _ (by omega) (by omega), hY k hk]
          · rw [memcpy_getElem? hb2, List.length_append, if_pos (by omega), ← hB0]
            congr 1
            omega
        · refine ⟨w1, ?_, ?_, fun _ => ?_⟩
          · show _default_sso_size ≤ A.length + B.length + 1
            omega
          · show A.length + B.length < A.length + B.length + 1
            omega
          · show Option.map List.length (some b2) = some (A.length + B.length + 1)
            simp [l2]

end fast_string


theorem c_string_src {X : List Nat} (hX : zero_free X) :
    (∀ k, k < X.length → (c_string X)[k]? = X[k]?) ∧ (c_string X)[X.length]? = some 0 ∧
      X.length < (c_string X).length := by
  rw [c_string_zero_free hX]
  refine ⟨fun k hk => List.getElem?_append_left hk, ?_, by simp⟩
  rw [List.getElem?_append_right (le_refl _)]
  simp

theorem splice_insert (Y X : List Nat) (i : Nat) :
    splice Y i i X = Y.take i ++ X ++ Y.drop i := rfl

theorem splice_erase_insert (Y : List Nat) (i e : Nat) (hi : i ≤ Y.length) :
    splice (Y.take i ++ Y.drop (i + e)) i i ((Y.drop i).take e) = Y := by
  have l1 : (Y.take i).length = i := by simp; omega
  unfold splice
  rw [List.take_append_of_le_length (by omega), List.drop_append_of_le_length (by omega),
    List.take_of_length_le (by omega), List.drop_of_length_le (l := Y.take i) (by omega),
    List.nil_append, List.append_assoc, ← List.drop_drop, List.take_append_drop,
    List.take_append_drop]

namespace fast_string

/-! ## Construction from content -/

/-- C1. For every zero-free byte sequence `C`, `fast_string(const char*)` returns, and
the buffer it builds has content `C` (followed by the terminator) and length `|C|`.
If `|C| ≤ 31` the content is in the inline array, nothing is allocated and the
capacity is 32; if `|C| > 31` the content is in a heap block of exactly `|C| + 1`
bytes and the capacity is `|C| + 1`. -/
theorem of_cstr_roundtrip (sso : List Nat) (junk : Nat → Nat) (C : List Nat)
    (hsso : sso.length = 32) (hC : zero_free C) :
    ∃ s, of_cstr sso junk C = .ok s ∧ s.holds C ∧ s.m_Length = C.length ∧
      (C.length ≤ 31 → s.c_str = .sso ∧ s.m_Capacity = 32 ∧ s.m_Data = none) ∧
      (31 < C.length → s.c_str = .heap ∧ s.m_Capacity = C.length + 1 ∧
        s.m_Data.map List.length = some (C.length + 1)) := by
  obtain ⟨s, e, h, -, -, h1, h2⟩ := of_cstr_spec sso junk hsso hC
  refine ⟨s, e, h, h.1, ?_, ?_⟩
  · intro hl
    obtain ⟨c1, c2⟩ := h1 hl
    exact ⟨by simp [c_str, c1, _default_sso_size], c1, c2⟩
  · intro hl
    obtain ⟨c1, b, c2, c3⟩ := h2 hl
    refine ⟨?_, c1, by simp [c2, c3]⟩
    have : C.length + 1 > _default_sso_size := by simp [_default_sso_size]; omega
    simp [c_str, c1, this]

theorem of_cstr_roundtrip_witness :
    ∃ s, of_cstr (List.replicate 32 204) (fun _ => 205) (bytes "Hello World!") = .ok s ∧
      s.holds (bytes "Hello World!") ∧ s.m_Length = (bytes "Hello World!").length ∧
      ((bytes "Hello World!").length ≤ 31 →
        s.c_str = .sso ∧ s.m_Capacity = 32 ∧ s.m_Data = none) ∧
      (31 < (bytes "Hello World!").length →
        s.c_str = .heap ∧ s.m_Capacity = (bytes "Hello World!").length + 1 ∧
        s.m_Data.map List.length = some ((bytes "Hello World!").length + 1)) :=
  of_cstr_roundtrip (List.replicate 32 204) (fun _ => 205) (bytes "Hello World!")
    (by decide) (by decide)

end fast_string


namespace fast_string

/-! ## append, insert, erase -/

/-- C2. For all zero-free `A` and `B`, the buffer built from `A` and then extended by
`append(B)` (with `B` passed as `const char*`, or as a `fast_string` built from `B`)
has the same content, terminator and length as the buffer built from `A ++ B`:
both hold `A ++ B`.  The statement covers the append done in place and the one that
reallocates, including the move from the inline array to the heap. -/
theorem append_of_cstr (sso sso' sso'' : List Nat) (junk junk' junk'' : Nat → Nat)
    (A B : List Nat) (hsso : sso.length = 32) (hsso' : sso'.length = 32)
    (hsso'' : sso''.length = 32) (hA : zero_free A) (hB : zero_free B) :
    ∃ a b ab, of_cstr sso junk A = .ok a ∧ of_cstr sso' junk' B = .ok b ∧
      of_cstr sso'' junk'' (A ++ B) = .ok ab ∧ ab.holds (A ++ B) ∧
      (∃ r, a.append_cstr junk' B = .ok r ∧ r.holds (A ++ B) ∧
        r.c_str_view = ab.c_str_view ∧ r.m_Length = ab.m_Length) ∧
      (∃ r, a.append_fs junk' b = .ok r ∧ r.holds (A ++ B) ∧
        r.c_str_view = ab.c_str_view ∧ r.m_Length = ab.m_Length) := by
  have hAB : zero_free (A ++ B) := by
    intro x hx
    rcases List.mem_append.mp hx with h | h
    · exact hA x h
    · exact hB x h
  obtain ⟨a, ea, ha, wa, -⟩ := of_cstr_spec sso junk hsso hA
  obtain ⟨b, eb, hb, wb, -⟩ := of_cstr_spec sso' junk' hsso' hB
  obtain ⟨ab, eab, hab, -⟩ := of_cstr_spec sso'' junk'' hsso'' hAB
  refine ⟨a, b, ab, ea, eb, eab, hab, ?_, ?_⟩
  · obtain ⟨c1, c2, c3⟩ := c_string_src hB
    obtain ⟨r, er, hr, -⟩ := append_core_spec junk' wa ha c1 c2 c3
    rw [← strlen_zero_free hB, ← append_cstr_eq] at er
    exact ⟨r, er, hr, hr.2.trans hab.2.symm, hr.1.trans hab.1.symm⟩
  · obtain ⟨src, hsrc, c1, c2, c3, c4⟩ := holds_elim hb
    obtain ⟨r, er, hr, -⟩ := append_core_spec junk' wa ha c1 c2 c3
    rw [← c4, ← append_fs_eq junk' a hsrc] at er
    exact ⟨r, er, hr, hr.2.trans hab.2.symm, hr.1.trans hab.1.symm⟩

theorem append_of_cstr_witness :
    ∃ a b ab, of_cstr (List.replicate 32 204) (fun _ => 205) (bytes "Hello World!") = .ok a ∧
      of_cstr (List.replicate 32 204) (fun _ => 205) (bytes "Nice World! Nice World!") = .ok b ∧
      of_cstr (List.replicate 32 204) (fun _ => 205)
        (bytes "Hello World!" ++ bytes "Nice World! Nice World!") = .ok ab ∧
      ab.holds (bytes "Hello World!" ++ bytes "Nice World! Nice World!") ∧
      (∃ r, a.append_cstr (fun _ => 205) (bytes "Nice World! Nice World!") = .ok r ∧
        r.holds (bytes "Hello World!" ++ bytes "Nice World! Nice World!") ∧
        r.c_str_view = ab.c_str_view ∧ r.m_Length = ab.m_Length) ∧
      (∃ r, a.append_fs (fun _ => 205) b = .ok r ∧
        r.holds (bytes "Hello World!" ++ bytes "Nice World! Nice World!") ∧
        r.c_str_view = ab.c_str_view ∧ r.m_Length = ab.m_Length) :=
  append_of_cstr (List.replicate 32 204) (List.replicate 32 204) (List.replicate 32 204)
    (fun _ => 205) (fun _ => 205) (fun _ => 205) (bytes "Hello World!")
    (bytes "Nice World! Nice World!") (by decide) (by decide) (by decide) (by decide)
    (by decide)

/-- `insert` with a `memcpy` that moves the bytes as a block.  For every buffer built
from zero-free content `Y`, every index `i ≤ |Y|` and every zero-free `X`,
`insert(i, X)` then returns and leaves content `Y[0..i) ++ X ++ Y[i..)` of length
`|Y| + |X|`; `insert(0, X)` leaves `X ++ Y` and `insert(length, X)` leaves `Y ++ X`.
For `memcpy` as the C standard defines it see `insert_cstr_std_cases`. -/
theorem insert_of_cstr (sso : List Nat) (junk junk' : Nat → Nat) (Y X : List Nat) (i : Nat)
    (hsso : sso.length = 32) (hY : zero_free Y) (hX : zero_free X) (hi : i ≤ Y.length) :
    ∃ s r, of_cstr sso junk Y = .ok s ∧ s.insert_cstr junk' i X = .ok r ∧
      r.holds (Y.take i ++ X ++ Y.drop i) ∧ r.m_Length = Y.length + X.length ∧
      (i = 0 → r.holds (X ++ Y)) ∧ (i = Y.length → r.holds (Y ++ X)) := by
  obtain ⟨s, es, hs, ws, -⟩ := of_cstr_spec sso junk hsso hY
  obtain ⟨c1, -, c3⟩ := c_string_src hX
  obtain ⟨r, er, hr, -⟩ := insert_core_spec junk' (i := i) ws hs c1 (by omega) hi
  rw [← strlen_zero_free hX, ← insert_cstr_eq] at er
  rw [splice_insert] at hr
  refine ⟨s, r, es, er, hr, ?_, ?_, ?_⟩
  · rw [hr.1]
    simp
    omega
  · intro h0
    subst h0
    simpa using hr
  · intro h0
    subst h0
    simpa using hr

theorem insert_of_cstr_witness :
    ∃ s r, of_cstr (List.replicate 32 204) (fun _ => 205) (bytes "Hello") = .ok s ∧
      s.insert_cstr (fun _ => 205) 5 (bytes "World!") = .ok r ∧
      r.holds ((bytes "Hello").take 5 ++ bytes "World!" ++ (bytes "Hello").drop 5) ∧
      r.m_Length = (bytes "Hello").length + (bytes "World!").length ∧
      (5 = 0 → r.holds (bytes "World!" ++ bytes "Hello")) ∧
      (5 = (bytes "Hello").length → r.holds (bytes "Hello" ++ bytes "World!")) :=
  insert_of_cstr (List.replicate 32 204) (fun _ => 205) (fun _ => 205) (bytes "Hello")
    (bytes "World!") 5 (by decide) (by decide) (by decide) (by decide)

end fast_string

namespace fast_string

/-- `erase(size_t, size_t)` with a `memcpy` that moves the bytes as a block.  For every
buffer holding content `Y`, every index `i ≤ |Y|` and every count `c`, `erase(i, c)`
then returns and leaves content `Y[0..i) ++ Y[i+e..)` where `e = min(c, |Y| - i)`; the
length drops by exactly `e` and the capacity is unchanged.  For `memcpy` as the C
standard defines it see `erase_std_cases`. -/
theorem erase_range (s : fast_string) (Y : List Nat) (i c : Nat) (h : s.holds Y)
    (hi : i ≤ Y.length) :
    ∃ r, s.erase i c = .ok r ∧ r.holds (Y.take i ++ Y.drop (i + min c (Y.length - i))) ∧
      r.m_Length = Y.length - min c (Y.length - i) ∧ r.m_Capacity = s.m_Capacity := by
  obtain ⟨r, er, hr, hc, -⟩ := erase_spec i c h hi
  refine ⟨r, er, hr, ?_, hc⟩
  rw [hr.1]
  simp
  omega

theorem erase_range_witness :
    ∃ r, hello_world.erase 4 5 = .ok r ∧
      r.holds ((bytes "Hello World!").take 4 ++
        (bytes "Hello World!").drop (4 + min 5 ((bytes "Hello World!").length - 4))) ∧
      r.m_Length = (bytes "Hello World!").length - min 5 ((bytes "Hello World!").length - 4) ∧
      r.m_Capacity = hello_world.m_Capacity :=
  erase_range hello_world (bytes "Hello World!") 4 5 (by decide) (by decide)

/-- The reallocation sequence on any buffer holding `Y` in a 32-byte inline array: the
content survives unless the buffer leaves the inline array from a capacity below 32. -/
theorem grow_holds (junk : Nat → Nat) {s : fast_string} {Y : List Nat} {N : Nat}
    (hsso : s.m_SSOBuffer.length = _default_sso_size) (h : s.holds Y)
    (hc : s.m_Capacity < N) (hN : Y.length < N)
    (hin : _default_sso_size < N → _default_sso_size ≤ s.m_Capacity) :
    ∃ s', grow junk s N = .ok s' ∧ s'.holds Y ∧ s'.m_Capacity = N ∧ s'.m_Hash = s.m_Hash ∧
      ∃ b, s'.block s'.c_str = .ok b ∧ N ≤ b.length := by
  obtain ⟨b, hb, hY, ht, hlt, hlen⟩ := holds_elim h
  by_cases hcap : s.m_Capacity = _default_sso_size
  · have hnew : N > _default_sso_size := by omega
    have hcs : s.c_str = .sso := by simp [c_str, hcap]
    rw [hcs] at hb
    simp only [block] at hb
    injection hb with hb
    subst hb
    obtain ⟨b1, hb1⟩ : ∃ b1, memcpy (realloc junk s.m_Data N) 0 s.m_SSOBuffer 0
        _default_sso_size = .ok b1 :=
      ⟨_, memcpy_ok (by rw [length_realloc]; omega) (by omega)⟩
    have l1 := memcpy_length hb1
    rw [length_realloc] at l1
    have hgrow : grow junk s N = .ok ⟨s.m_SSOBuffer, some b1, N, s.m_Length, s.m_Hash⟩ := by
      simp only [grow, hcap, beq_self_eq_true, if_true, memcpy_to, block, set_block, bind,
        Except.bind, hb1, pure, Except.pure]
    rw [hgrow]
    have hblk : (⟨s.m_SSOBuffer, some b1, N, s.m_Length, s.m_Hash⟩ : fast_string).block
        (⟨s.m_SSOBuffer, some b1, N, s.m_Length, s.m_Hash⟩ : fast_string).c_str = .ok b1 := by
      simp [c_str, block, hnew]
    refine ⟨_, rfl, ?_, rfl, rfl, b1, hblk, by omega⟩
    refine holds_intro (b := b1) ?_ hblk ?_ ?_
    · exact hlen
    · intro k hk
      rw [memcpy_getElem? hb1, if_pos (by omega), ← hY k hk]
      simp
    · rw [memcpy_getElem? hb1, if_pos (by omega), ← ht]
      simp
  · have hne : (s.m_Capacity == _default_sso_size) = false := by simp [hcap]
    have hgrow : grow junk s N
        = .ok ⟨s.m_SSOBuffer, some (realloc junk s.m_Data N), N, s.m_Length, s.m_Hash⟩ := by
      simp only [grow, hne, pure, Except.pure]
      rfl
    rw [hgrow]
    by_cases hgt : s.m_Capacity > _default_sso_size
    · have hnew : N > _default_sso_size := by omega
      have hcs : s.c_str = .heap := by simp [c_str, hgt]
      rw [hcs] at hb
      cases hd : s.m_Data with
      | none => simp [block, hd] at hb
      | some b0 =>
        simp only [block, hd] at hb
        injection hb with hb
        subst hb
        rw [hd] at hgrow
        have hblk : (⟨s.m_SSOBuffer, some (realloc junk (some b0) N), N, s.m_Length,
            s.m_Hash⟩ : fast_string).block
            (⟨s.m_SSOBuffer, some (realloc junk (some b0) N), N, s.m_Length,
              s.m_Hash⟩ : fast_string).c_str = .ok (realloc junk (some b0) N) := by
          simp [c_str, block, hnew]
        refine ⟨_, rfl, ?_, rfl, rfl, _, hblk, by rw [length_realloc]⟩
        refine holds_intro (b := realloc junk (some b0) N) ?_ hblk ?_ ?_
        · exact hlen
        · intro k hk
          rw [realloc_getElem? _ _ _ _ (by omega) (by omega), hY k hk]
        · rw [realloc_getElem? _ _ _ _ (by omega) (by omega), ht]
    · have hle : N ≤ _default_sso_size := by
        rcases Nat.lt_or_ge _default_sso_size N with h1 | h1
        · have := hin h1
          omega
        · exact h1
      have hcs : s.c_str = .sso := by simp [c_str, hgt]
      rw [hcs] at hb
      simp only [block] at hb
      injection hb with hb
      subst hb
      have hblk : (⟨s.m_SSOBuffer, some (realloc junk s.m_Data N), N, s.m_Length,
          s.m_Hash⟩ : fast_string).block
          (⟨s.m_SSOBuffer, some (realloc junk s.m_Data N), N, s.m_Length,
            s.m_Hash⟩ : fast_string).c_str = .ok s.m_SSOBuffer := by
        have : ¬ (N > _default_sso_size) := by omega
        simp [c_str, block, this]
      refine ⟨_, rfl, ?_, rfl, rfl, _, hblk, by omega⟩
      exact holds_intro (b := s.m_SSOBuffer) hlen hblk hY ht

/-- An insertion into any buffer holding `Y` in a 32-byte inline array, in place or
after the reallocation sequence. -/
theorem insert_core_holds (junk : Nat → Nat) {s : fast_string} {src Y X : List Nat} {i : Nat}
    (hsso : s.m_SSOBuffer.length = _default_sso_size) (h : s.holds Y)
    (hX : ∀ k, k < X.length → src[k]? = X[k]?) (hsrc : X.length ≤ src.length)
    (hi : i ≤ Y.length)
    (hfit : ∀ b, s.block s.c_str = .ok b → Y.length + X.length < s.m_Capacity →
      Y.length + X.length < b.length)
    (hin : _default_sso_size ≤ Y.length + X.length → _default_sso_size ≤ s.m_Capacity) :
    ∃ s', insert_core junk s i X.length src = .ok s' ∧ s'.holds (splice Y i i X) ∧
      s'.m_Hash = s.m_Hash := by
  by_cases hg : Y.length + X.length ≥ s.m_Capacity
  · have hlen := h.1
    obtain ⟨s1, e1, hh1, hc1, hash1, b1, hb1, hbl1⟩ :=
      grow_holds junk (N := Y.length + X.length + 1) hsso h (by omega) (by omega)
        (fun hlt => hin (by omega))
    obtain ⟨s2, e2, hh2, -, hash2, -⟩ :=
      edit_state_spec (i := i) (j := i) (fun l => l + X.length) hh1 hX hsrc (le_refl _) hi
        (by show Y.length + X.length = _; omega) (by
          intro b hb
          have := block_unique hb hb1
          subst this
          omega)
    unfold insert_core
    simp only [hlen, if_neg (not_lt.mpr hi), if_pos hg, e1, bind, Except.bind, pure,
      Except.pure, hh1.1, e2]
    exact ⟨s2, rfl, hh2, by rw [hash2, hash1]⟩
  · obtain ⟨s', e, hh, hash, -⟩ :=
      insert_core_inplace junk (i := i) h hX hsrc hi (by omega)
        (fun b hb => hfit b hb (by omega))
    exact ⟨s', e, hh, hash⟩

/-- `erase` followed by `insert` with a `memcpy` that moves the bytes as a block.  For
every buffer holding content `Y` (in an object whose inline array has its 32 bytes),
every index `i ≤ |Y|` and every count `c`: `erase(i, c)` followed by `insert(i, S)`,
where `S` is the removed slice `Y[i .. i + min(c, |Y| - i))` passed as a `fast_string`
(or as a `const char*` when it is zero-free), then restores content `Y` and length
`|Y|`.  For `memcpy` as the C standard defines it see `erase_std_cases` and
`insert_cstr_std_cases`. -/
theorem erase_insert_restores (junk : Nat → Nat) (s : fast_string) (Y : List Nat) (i c : Nat)
    (h : s.holds Y) (hsso : s.m_SSOBuffer.length = 32) (hi : i ≤ Y.length) :
    ∃ r, s.erase i c = .ok r ∧
      (∀ t : fast_string, t.holds ((Y.drop i).take (min c (Y.length - i))) →
        ∃ r', r.insert_fs junk i t = .ok r' ∧ r'.holds Y ∧ r'.m_Length = Y.length) ∧
      (zero_free ((Y.drop i).take (min c (Y.length - i))) →
        ∃ r', r.insert_cstr junk i ((Y.drop i).take (min c (Y.length - i))) = .ok r' ∧
          r'.holds Y ∧ r'.m_Length = Y.length) := by
  obtain ⟨r, er, hr, hc, -, -, hblk, hrsso⟩ := erase_spec i c h hi
  obtain ⟨b0, hb0, -, -, hlt, hlen⟩ := holds_elim h
  obtain ⟨b1, hb1, hl1⟩ := hblk b0 hb0
  generalize he : min c (Y.length - i) = e at hr ⊢
  have hle : e ≤ Y.length - i := by rw [← he]; exact Nat.min_le_right _ _
  have hS : ((Y.drop i).take e).length = e := by simp; omega
  have hY' : (Y.take i ++ Y.drop (i + e)).length = Y.length - e := by simp; omega
  have hin : _default_sso_size ≤ Y.length → _default_sso_size ≤ s.m_Capacity := by
    intro h32
    by_contra hlow
    have hcs : s.c_str = .sso := by
      have : ¬ (s.m_Capacity > _default_sso_size) := by omega
      simp [c_str, this]
    rw [hcs] at hb0
    simp only [block] at hb0
    injection hb0 with hb0
    rw [← hb0, hsso] at hlt
    simp only [_default_sso_size] at h32
    omega
  have key : ∀ src : List Nat, (∀ k, k < ((Y.drop i).take e).length →
      src[k]? = ((Y.drop i).take e)[k]?) → ((Y.drop i).take e).length ≤ src.length →
      ∃ r', insert_core junk r i ((Y.drop i).take e).length src = .ok r' ∧ r'.holds Y ∧
        r'.m_Length = Y.length := by
    intro src c1 c3
    obtain ⟨r', er', hr', -⟩ :=
      insert_core_holds junk (i := i) (hrsso.trans hsso) hr c1 c3 (by rw [hY']; omega)
        (by
          intro b hb _
          have := block_unique hb hb1
          subst this
          rw [hY', hS]
          omega)
        (by
          rw [hY', hS, hc]
          intro h32
          exact hin (by omega))
    rw [splice_erase_insert Y i e hi] at hr'
    exact ⟨r', er', hr', hr'.1⟩
  refine ⟨r, er, ?_, ?_⟩
  · intro t ht
    obtain ⟨src, hsrc, c1, -, c3, c4⟩ := holds_elim ht
    obtain ⟨r', er', hr'⟩ := key src c1 (by omega)
    rw [← c4, ← insert_fs_eq junk r i hsrc] at er'
    exact ⟨r', er', hr'⟩
  · intro hz
    obtain ⟨c1, -, c3⟩ := c_string_src hz
    obtain ⟨r', er', hr'⟩ := key _ c1 (by omega)
    rw [← strlen_zero_free hz, ← insert_cstr_eq] at er'
    exact ⟨r', er', hr'⟩

end fast_string


/-! ## find -/

/-- The pattern `P` occurs in `Y` at index `i`, read position by position. -/
theorem prefix_drop_iff (Y P : List Nat) (i : Nat) :
    P <+: Y.drop i ↔ ∀ k, k < P.length → Y[i + k]? = P[k]? := by
  constructor
  · rintro ⟨t, ht⟩ k hk
    rw [← List.getElem?_drop, ← ht, List.getElem?_append_left hk]
  · intro h
    rw [List.prefix_iff_eq_take]
    apply List.ext_getElem?
    intro k
    by_cases hk : k < P.length
    · rw [List.getElem?_take_of_lt hk, List.getElem?_drop, h k hk]
    · rw [List.getElem?_eq_none (by omega), List.getElem?_eq_none (by simp; omega)]

namespace fast_string

theorem find_inner_spec {text pat : Nat → Except Error Nat} {Y P : List Nat} {i : Nat}
    (htext : ∀ k, k ≤ Y.length → ∃ v, text k = .ok v ∧ (Y ++ [0])[k]? = some v)
    (hpat : ∀ c, c < P.length → ∃ v, pat c = .ok v ∧ P[c]? = some v)
    (hP : zero_free P) (hi : i ≤ Y.length) :
    ∀ todo c, c + todo = P.length → (∀ k, k < c → Y[i + k]? = P[k]?) →
      ∃ r, find_inner text pat i c todo = .ok r ∧ (r = true ↔ P <+: Y.drop i) := by
  intro todo
  induction todo with
  | zero =>
    intro c hc hm
    refine ⟨true, rfl, ?_⟩
    simp only [true_iff]
    rw [prefix_drop_iff]
    intro k hk
    exact hm k (by omega)
  | succ n ih =>
    intro c hc hm
    have hle : i + c ≤ Y.length := by
      rcases Nat.eq_zero_or_pos c with h0 | h0
      · omega
      · have h1 := hm (c - 1) (by omega)
        have h2 : (c - 1) < P.length := by omega
        rw [List.getElem?_eq_getElem h2] at h1
        have := (List.getElem?_eq_some_iff.mp h1).1
        omega
    obtain ⟨a, ea, ha⟩ := htext (i + c) hle
    obtain ⟨b, eb, hb⟩ := hpat c (by omega)
    have hb0 : b ≠ 0 := by
      obtain ⟨hlt, hv⟩ := List.getElem?_eq_some_iff.mp hb
      rw [← hv]
      exact hP _ (List.getElem_mem hlt)
    simp only [find_inner, ea, eb, bind, Except.bind, pure, Except.pure]
    by_cases hab : a = b
    · subst hab
      have hlt : i + c < Y.length := by
        rcases Nat.lt_or_ge (i + c) Y.length with h | h
        · exact h
        · have : i + c = Y.length := by omega
          rw [this, List.getElem?_append_right (le_refl _)] at ha
          simp at ha
          exact absurd ha.symm hb0
      rw [List.getElem?_append_left hlt] at ha
      simp only [bne_self_eq_false, Bool.false_eq_true, if_false]
      apply ih (c + 1) (by omega)
      intro k hk
      rcases Nat.lt_or_ge k c with h | h
      · exact hm k h
      · have : k = c := by omega
        subst this
        rw [ha, hb]
    · have hne : (a != b) = true := by simp [hab]
      simp only [hne, if_true]
      refine ⟨false, rfl, ?_⟩
      simp only [Bool.false_eq_true, false_iff]
      rw [prefix_drop_iff]
      intro hall
      have h1 := hall c (by omega)
      rw [hb] at h1
      have hlt := (List.getElem?_eq_some_iff.mp h1).1
      rw [List.getElem?_append_left hlt, h1] at ha
      injection ha with ha
      exact hab ha.symm

end fast_string

namespace fast_string

theorem find_outer_spec {text pat : Nat → Except Error Nat} {Y P : List Nat}
    (htext : ∀ k, k ≤ Y.length → ∃ v, text k = .ok v ∧ (Y ++ [0])[k]? = some v)
    (hpat : ∀ c, c < P.length → ∃ v, pat c = .ok v ∧ P[c]? = some v)
    (hP : zero_free P) (hne : P ≠ []) :
    ∀ todo i, i + todo = Y.length → (∀ j, j < i → ¬ P <+: Y.drop j) →
      ∃ r, find_outer text pat P.length i todo = .ok r ∧
        ((r = invalid ∧ ∀ j, ¬ P <+: Y.drop j) ∨
          (r < Y.length ∧ P <+: Y.drop r ∧ ∀ j, j < r → ¬ P <+: Y.drop j)) := by
  have hpos : 0 < P.length := List.length_pos.mpr hne
  intro todo
  induction todo with
  | zero =>
    intro i hi hno
    refine ⟨invalid, rfl, Or.inl ⟨rfl, ?_⟩⟩
    intro j hj
    rcases Nat.lt_or_ge j i with h | h
    · exact hno j h hj
    · rw [List.drop_of_length_le (by omega)] at hj
      exact hne (List.prefix_nil.mp hj)
  | succ n ih =>
    intro i hi hno
    obtain ⟨a, ea, ha⟩ := htext i (by omega)
    obtain ⟨b, eb, hb⟩ := hpat 0 hpos
    rw [List.getElem?_append_left (by omega)] at ha
    have hnext : ¬ P <+: Y.drop i → ∀ j, j < i + 1 → ¬ P <+: Y.drop j := by
      intro hni j hj
      rcases Nat.lt_or_ge j i with h | h
      · exact hno j h
      · have : j = i := by omega
        subst this
        exact hni
    simp only [find_outer, ea, eb, bind, Except.bind, pure, Except.pure]
    by_cases hab : a = b
    · subst hab
      obtain ⟨r, er, hr⟩ :=
        find_inner_spec htext hpat hP (i := i) (by omega) P.length 0 (by omega)
          (fun k hk => absurd hk (Nat.not_lt_zero k))
      simp only [beq_self_eq_true, if_true, er]
      cases r with
      | true =>
        simp only [if_true]
        exact ⟨i, rfl, Or.inr ⟨by omega, hr.mp rfl, hno⟩⟩
      | false =>
        simp only [Bool.false_eq_true, if_false]
        exact ih (i + 1) (by omega) (hnext (fun h => by simpa using hr.mpr h))
    · have hne' : (a == b) = false := by simp [hab]
      simp only [hne', Bool.false_eq_true, if_false]
      apply ih (i + 1) (by omega) (hnext _)
      intro hpre
      have h0 := (prefix_drop_iff Y P i).mp hpre 0 hpos
      rw [Nat.add_zero, ha, hb] at h0
      injection h0 with h0
      exact hab h0

/-- With an empty pattern `find` compares each content byte with the terminator of the
pattern, so on zero-free content it finds nothing. -/
theorem find_outer_empty {text pat : Nat → Except Error Nat} {Y : List Nat}
    (htext : ∀ k, k ≤ Y.length → ∃ v, text k = .ok v ∧ (Y ++ [0])[k]? = some v)
    (hpat : pat 0 = .ok 0) (hY : zero_free Y) :
    ∀ todo i, i + todo = Y.length → find_outer text pat 0 i todo = .ok invalid := by
  intro todo
  induction todo with
  | zero => intro i _; rfl
  | succ n ih =>
    intro i hi
    obtain ⟨a, ea, ha⟩ := htext i (by omega)
    rw [List.getElem?_append_left (by omega)] at ha
    have ha0 : a ≠ 0 := by
      obtain ⟨hlt, hv⟩ := List.getElem?_eq_some_iff.mp ha
      rw [← hv]
      exact hY _ (List.getElem_mem hlt)
    have hne' : (a == 0) = false := by simp [ha0]
    simp only [find_outer, ea, hpat, bind, Except.bind, hne', Bool.false_eq_true, if_false]
    exact ih (i + 1) (by omega)

/-- The loads `data_ptr[k]` of `find` on a buffer holding `Y`. -/
theorem load_holds {s : fast_string} {Y : List Nat} (h : s.holds Y) :
    ∀ k, k ≤ Y.length → ∃ v, s.load s.c_str k = .ok v ∧ (Y ++ [0])[k]? = some v := by
  obtain ⟨b, hb, hY, ht, hlt, -⟩ := holds_elim h
  intro k hk
  have hkb : k < b.length := by omega
  refine ⟨b[k], ?_, ?_⟩
  · simp [load, hb, peek, bind, Except.bind, List.getElem?_eq_getElem hkb]
  · rcases Nat.lt_or_ge k Y.length with h1 | h1
    · rw [List.getElem?_append_left h1, ← hY k h1, List.getElem?_eq_getElem hkb]
    · have : k = Y.length := by omega
      subst this
      rw [List.getElem?_append_right (le_refl _), ← List.getElem?_eq_getElem hkb, ht]
      simp

/-- The loads `substr[c]` of `find(const char*)`. -/
theorem peek_c_string {P : List Nat} (hP : zero_free P) :
    (∀ c, c < P.length → ∃ v, peek (c_string P) c = .ok v ∧ P[c]? = some v) ∧
      peek (c_string P) P.length = .ok 0 := by
  rw [c_string_zero_free hP]
  constructor
  · intro c hc
    refine ⟨P[c], ?_, List.getElem?_eq_getElem hc⟩
    simp [peek, List.getElem?_append_left hc, List.getElem?_eq_getElem hc]
  · simp [peek, List.getElem?_append_right (le_refl _)]

/-- The loads `substr[c]` of `find(const fast_string&)`. -/
theorem op_index_holds {t : fast_string} {P : List Nat} (h : t.holds P) :
    (∀ c, c < P.length → ∃ v, t.op_index c = .ok v ∧ P[c]? = some v) ∧
      t.op_index P.length = .ok 0 := by
  have hl := load_holds h
  have hlen := h.1
  constructor
  · intro c hc
    obtain ⟨v, ev, hv⟩ := hl c (by omega)
    rw [List.getElem?_append_left hc] at hv
    refine ⟨v, ?_, hv⟩
    unfold op_index
    simp only [hlen, if_neg (by omega : ¬ c > P.length)]
    simpa [bind, Except.bind, pure, Except.pure] using ev
  · obtain ⟨v, ev, hv⟩ := hl P.length (le_refl _)
    rw [List.getElem?_append_right (le_refl _)] at hv
    simp at hv
    subst hv
    unfold op_index
    simp only [hlen, if_neg (lt_irrefl _)]
    simpa [bind, Except.bind, pure, Except.pure] using ev

end fast_string

namespace fast_string

theorem find_cstr_spec {s : fast_string} {Y P : List Nat} (h : s.holds Y) (hP : zero_free P)
    (hne : P ≠ []) :
    ∃ r, s.find_cstr P = .ok r ∧
      ((r = invalid ∧ ∀ j, ¬ P <+: Y.drop j) ∨
        (r < Y.length ∧ P <+: Y.drop r ∧ ∀ j, j < r → ¬ P <+: Y.drop j)) := by
  unfold find_cstr
  rw [strlen_zero_free hP, h.1]
  exact find_outer_spec (load_holds h) (peek_c_string hP).1 hP hne Y.length 0 (by omega)
    (fun j hj => absurd hj (Nat.not_lt_zero j))

theorem find_fs_spec {s t : fast_string} {Y P : List Nat} (h : s.holds Y) (ht : t.holds P)
    (hP : zero_free P) (hne : P ≠ []) :
    ∃ r, s.find_fs t = .ok r ∧
      ((r = invalid ∧ ∀ j, ¬ P <+: Y.drop j) ∨
        (r < Y.length ∧ P <+: Y.drop r ∧ ∀ j, j < r → ¬ P <+: Y.drop j)) := by
  unfold find_fs
  rw [ht.1, h.1]
  exact find_outer_spec (load_holds h) (op_index_holds ht).1 hP hne Y.length 0 (by omega)
    (fun j hj => absurd hj (Nat.not_lt_zero j))

/-- C7. For every buffer holding content `Y` of a length below `2 ^ 64` and every
non-empty zero-free pattern `P`, `find(P)` returns; the result is
`fast_string::invalid` exactly when `P` occurs nowhere in `Y`, and when `P` occurs the
result is an index where it occurs and no occurrence starts before it. -/
theorem find_cstr_first (s : fast_string) (Y P : List Nat) (h : s.holds Y) (hP : zero_free P)
    (hne : P ≠ []) (hsz : Y.length < 2 ^ 64) :
    ∃ r, s.find_cstr P = .ok r ∧ (r = invalid ↔ ∀ i, ¬ P <+: Y.drop i) ∧
      (∀ i, P <+: Y.drop i → P <+: Y.drop r ∧ r ≤ i) := by
  obtain ⟨r, er, hr⟩ := find_cstr_spec h hP hne
  refine ⟨r, er, ?_, ?_⟩
  · rcases hr with ⟨h1, h2⟩ | ⟨h1, h2, -⟩
    · exact ⟨fun _ => h2, fun _ => h1⟩
    · constructor
      · intro hinv
        rw [hinv] at h1
        simp only [invalid] at h1
        omega
      · intro hno
        exact absurd h2 (hno r)
  · intro i hi
    rcases hr with ⟨-, h2⟩ | ⟨-, h2, h3⟩
    · exact absurd hi (h2 i)
    · refine ⟨h2, ?_⟩
      rcases Nat.lt_or_ge i r with hlt | hge
      · exact absurd hi (h3 i hlt)
      · exact hge

theorem find_cstr_first_witness :
    ∃ r, hello_world.find_cstr (bytes "World!") = .ok r ∧
      (r = invalid ↔ ∀ i, ¬ bytes "World!" <+: (bytes "Hello World!").drop i) ∧
      (∀ i, bytes "World!" <+: (bytes "Hello World!").drop i →
        bytes "World!" <+: (bytes "Hello World!").drop r ∧ r ≤ i) :=
  find_cstr_first hello_world (bytes "Hello World!") (bytes "World!") (by decide) (by decide)
    (by decide) (by decide)

/-- The two searches of `test7` and of the specification, on `fast_string("Hello World!")`:
`find("World!")` is 6 and `find("xyz")` is `fast_string::invalid`. -/
theorem find_cstr_hello_world :
    (of_cstr (List.replicate 32 204) (fun _ => 205) (bytes "Hello World!")).bind
        (fun s => s.find_cstr (bytes "World!")) = .ok 6 ∧
      (of_cstr (List.replicate 32 204) (fun _ => 205) (bytes "Hello World!")).bind
        (fun s => s.find_cstr (bytes "xyz")) = .ok invalid := by
  decide

/-- C8, as the code has it.  On a buffer whose content has no zero byte (the empty
buffer included), `find` with an empty pattern, passed as `const char*` or as an empty
`fast_string`, returns `fast_string::invalid`. -/
theorem find_empty_pattern (s : fast_string) (Y : List Nat) (h : s.holds Y)
    (hY : zero_free Y) :
    s.find_cstr [] = .ok invalid ∧ ∀ t : fast_string, t.holds [] → s.find_fs t = .ok invalid := by
  constructor
  · unfold find_cstr
    have hz : zero_free ([] : List Nat) := fun _ hb => absurd hb (List.not_mem_nil _)
    rw [strlen_zero_free hz, h.1]
    exact find_outer_empty (load_holds h) (peek_c_string hz).2 hY Y.length 0 (by omega)
  · intro t ht
    unfold find_fs
    rw [ht.1, h.1]
    exact find_outer_empty (load_holds h) (op_index_holds ht).2 hY Y.length 0 (by omega)

theorem find_empty_pattern_witness :
    hello_world.find_cstr [] = .ok invalid ∧
      ∀ t : fast_string, t.holds [] → hello_world.find_fs t = .ok invalid :=
  find_empty_pattern hello_world (bytes "Hello World!") (by decide) (by decide)

/-- C8, as stated, fails.  After `fast_string s("a"); s.push_back(0);` the content is
the two bytes `'a', 0`, and `s.find("")` returns index 1, not `fast_string::invalid`. -/
theorem find_empty_pattern_zero_byte :
    ((of_cstr (List.replicate 32 204) (fun _ => 205) (bytes "a")).bind
        (fun s => s.push_back (fun _ => 205) 0)).map (fun s => (s.m_Length, s.c_str_view))
      = .ok (2, some [97, 0, 0]) ∧
    ((of_cstr (List.replicate 32 204) (fun _ => 205) (bytes "a")).bind
        (fun s => s.push_back (fun _ => 205) 0)).bind (fun s => s.find_cstr []) = .ok 1 ∧
    ((of_cstr (List.replicate 32 204) (fun _ => 205) (bytes "a")).bind
        (fun s => s.push_back (fun _ => 205) 0)).bind (fun s => s.find_cstr [])
      ≠ .ok invalid := by
  decide

end fast_string

namespace fast_string

/-! ## substr and replace -/

theorem sub64_of_le {a b : Nat} (hb : b ≤ a) (ha : a < 2 ^ 64) : sub64 a b = a - b := by
  unfold sub64
  omega

theorem add64_sub64 {a r p : Nat} (hp : p ≤ a) (hr : r < 2 ^ 64) (hp' : p < 2 ^ 64)
    (h : a - p + r < 2 ^ 64) : add64 a (sub64 r p) = a - p + r := by
  unfold add64 sub64
  omega

/-- The shared body of `replace` on a buffer that holds `Y`, with the pattern `P`
at index `i`: when the new length differs from the capacity, `P` is replaced by `R`. -/
theorem replace_at_spec (junk : Nat → Nat) {s : fast_string} {src Y R : List Nat} {i p : Nat}
    (hw : s.wf) (h : s.holds Y) (hR : ∀ k, k < R.length → src[k]? = R[k]?)
    (hsrc : R.length ≤ src.length) (hocc : i + p ≤ Y.length)
    (hsz : s.m_Capacity + R.length < 2 ^ 64)
    (hneq : Y.length - p + R.length ≠ s.m_Capacity) :
    ∃ s', replace_at junk s i p R.length src = .ok s' ∧ s'.holds (splice Y i (i + p) R) ∧
      s'.wf ∧ s'.m_Hash = s.m_Hash ∧ s'.m_Length = Y.length - p + R.length := by
  have hlen := h.1
  have hcap := hw.2.2.1
  have e1 : sub64 Y.length p = Y.length - p := sub64_of_le (by omega) (by omega)
  have e2 : add64 (Y.length - p) R.length = Y.length - p + R.length := by
    unfold add64
    omega
  have e3 : sub64 Y.length (i + p) = Y.length - (i + p) := sub64_of_le hocc (by omega)
  have e4 : add64 Y.length (sub64 R.length p) = i + R.length + (Y.length - (i + p)) := by
    rw [add64_sub64 (by omega) (by omega) (by omega) (by omega)]
    omega
  rw [replace_at_eq]
  simp only [hlen, e1, e2]
  by_cases hg : Y.length - p + R.length > s.m_Capacity
  · have e5 : add64 s.m_Capacity (sub64 R.length p) = s.m_Capacity + (R.length - p) := by
      unfold add64 sub64
      omega
    obtain ⟨s1, g1, hh1, hw1, hc1, hash1⟩ :=
      grow_spec junk (N := s.m_Capacity + (R.length - p)) hw h (by omega)
    obtain ⟨b1, hb1, hbl1⟩ := wf_block hw1
    obtain ⟨s2, g2, hh2, hc2, hash2, hw2, -⟩ :=
      edit_state_spec (i := i) (j := i + p) (fun l => add64 l (sub64 R.length p)) hh1 hR hsrc
        (by omega) hocc e4 (by
          intro b hb
          have := block_unique hb hb1
          subst this
          omega)
    simp only [if_pos hg, e5, g1, bind, Except.bind, hh1.1, e3, g2]
    refine ⟨s2, rfl, hh2, hw2 hw1 (by omega), by rw [hash2, hash1], ?_⟩
    rw [hh2.1, length_splice (by omega) hocc]
    omega
  · obtain ⟨b1, hb1, hbl1⟩ := wf_block hw
    obtain ⟨s2, g2, hh2, hc2, hash2, hw2, -⟩ :=
      edit_state_spec (i := i) (j := i + p) (fun l => add64 l (sub64 R.length p)) h hR hsrc
        (by omega) hocc e4 (by
          intro b hb
          have := block_unique hb hb1
          subst this
          omega)
    simp only [if_neg hg, bind, Except.bind, pure, Except.pure, hlen, e3, g2]
    refine ⟨s2, rfl, hh2, hw2 hw (by omega), hash2, ?_⟩
    rw [hh2.1, length_splice (by omega) hocc]
    omega

/-- What `replace(const char*, const char*)` does whenever the new length differs from
the capacity: on a buffer that satisfies the structural invariant and holds `Y`, with a
non-empty zero-free pattern `P` whose first occurrence is at index `i`, it leaves
`Y[0..i) ++ R ++ Y[i+|P|..)` of length `|Y| - |P| + |R|`. -/
theorem replace_cstr_cstr_spec (junk : Nat → Nat) (s : fast_string) (Y P R : List Nat) (i : Nat)
    (hw : s.wf) (h : s.holds Y) (hP : zero_free P) (hne : P ≠ []) (hR : zero_free R)
    (hocc : P <+: Y.drop i) (hfirst : ∀ j, j < i → ¬ P <+: Y.drop j)
    (hsz : s.m_Capacity + R.length < 2 ^ 64)
    (hneq : Y.length - P.length + R.length ≠ s.m_Capacity) :
    ∃ r, s.replace_cstr_cstr junk P R = .ok r ∧
      r.holds (Y.take i ++ R ++ Y.drop (i + P.length)) ∧
      r.m_Length = Y.length - P.length + R.length ∧ r.wf ∧ r.m_Hash = s.m_Hash := by
  have hcap := hw.2.2.1
  have hlen := h.1
  obtain ⟨f, ef, hf⟩ := find_cstr_spec h hP hne
  have hfi : f = i ∧ i < Y.length := by
    rcases hf with ⟨-, h2⟩ | ⟨h1, h2, h3⟩
    · exact absurd hocc (h2 i)
    · have : f = i := by
        rcases Nat.lt_trichotomy f i with c | c | c
        · exact absurd h2 (hfirst f c)
        · exact c
        · exact absurd hocc (h3 i c)
      exact ⟨this, this ▸ h1⟩
  obtain ⟨hfi, hilt⟩ := hfi
  subst hfi
  have hinv : (f != invalid) = true := by
    have : f ≠ invalid := by
      simp only [invalid]
      omega
    simp [this]
  have hbound : f + P.length ≤ Y.length := by
    obtain ⟨t, ht⟩ := hocc
    have := congrArg List.length ht
    simp at this
    omega
  obtain ⟨c1, -, c3⟩ := c_string_src hR
  obtain ⟨r, er, hr, hwr, hashr, hlr⟩ :=
    replace_at_spec junk (i := f) (p := P.length) hw h c1 (by omega) hbound hsz hneq
  refine ⟨r, ?_, hr, hlr, hwr, hashr⟩
  unfold replace_cstr_cstr
  simp only [ef, bind, Except.bind, hinv, if_true, strlen_zero_free hP, strlen_zero_free hR]
  exact er

/-- C6 on the code.  `fast_string("Hello World!").substr(4, 13)` returns with length
13 and the 13 bytes `"o World!"`, the old terminator and four bytes from behind it,
although only `min(13, 12 - 4) = 8` characters follow index 4: the code tests
`count - index < m_Length` (here `9 < 12`) and then takes `count` itself. -/
theorem substr_count_past_end :
    ((of_cstr (List.replicate 32 204) (fun _ => 205) (bytes "Hello World!")).bind
        (fun s => s.substr 4 13)).map (fun s => (s.m_Length, s.c_str_view))
      = .ok (13, some (bytes "o World!" ++ [0, 204, 204, 204, 204, 0])) ∧
    min 13 ((bytes "Hello World!").length - 4) = 8 := by
  decide

/-- C9 on the code.  On `fast_string(31 times 'a')`, whose capacity is 32,
`replace("a", "bb")` reaches length 32.  The growth test
`m_Length - substr_len + replacement_len > m_Capacity` is `32 > 32`, so nothing is
reallocated, and the terminator is stored at offset 32 of the 32-byte inline array.
The same happens on the heap: with 32 times `'a'` (capacity 33) the terminator is
stored at offset 33 of the 33-byte block. -/
theorem replace_one_longer_overruns :
    (of_cstr (List.replicate 32 204) (fun _ => 205) (List.replicate 31 97)).bind
        (fun s => s.replace_cstr_cstr (fun _ => 205) (bytes "a") (bytes "bb"))
      = .error .undefined ∧
    (of_cstr (List.replicate 32 204) (fun _ => 205) (List.replicate 32 97)).bind
        (fun s => s.replace_cstr_cstr (fun _ => 205) (bytes "a") (bytes "bb"))
      = .error .undefined := by
  decide

/-- The replacement of `test` in the specification:
`fast_string("Hello World!").replace("World!", "Nice!")` leaves `"Hello Nice!"`, length 11. -/
theorem replace_hello_world :
    ((of_cstr (List.replicate 32 204) (fun _ => 205) (bytes "Hello World!")).bind
        (fun s => s.replace_cstr_cstr (fun _ => 205) (bytes "World!") (bytes "Nice!"))).map
        (fun s => (s.m_Length, s.c_str_view))
      = .ok (11, some (bytes "Hello Nice!" ++ [0])) := by
  decide

/-- C10, as the code has it.  On a buffer holding `Y`, for a zero-free pattern `P`
that occurs nowhere in `Y`, every overload of `replace` and of `erase(pattern)` returns
the buffer as it was: inline array, heap block, capacity, length and hash.  And
`erase(P)` is `replace(P, "")` on every buffer and pattern, so when `P` occurs the two
agree. -/
theorem replace_absent_pattern (junk : Nat → Nat) (s : fast_string) (Y P : List Nat)
    (h : s.holds Y) (hP : zero_free P) (hno : ∀ i, ¬ P <+: Y.drop i) :
    (∀ R : List Nat, s.replace_cstr_cstr junk P R = .ok s) ∧
    (∀ R : fast_string, s.replace_cstr_fs junk P R = .ok s) ∧
    s.erase_cstr junk P = .ok s ∧
    (∀ p : fast_string, p.holds P →
      (∀ R : fast_string, s.replace_fs_fs junk p R = .ok s) ∧
      (∀ R : List Nat, s.replace_fs_cstr junk p R = .ok s) ∧
      s.erase_fs junk p = .ok s) ∧
    (∀ (x : fast_string) (Q : List Nat),
      x.erase_cstr junk Q = x.replace_cstr_cstr junk Q []) ∧
    (∀ x q : fast_string, x.erase_fs junk q = x.replace_fs_cstr junk q []) := by
  have hne : P ≠ [] := by
    intro h0
    subst h0
    exact hno 0 List.nil_prefix
  have hc : s.find_cstr P = .ok invalid := by
    obtain ⟨r, er, hr⟩ := find_cstr_spec h hP hne
    rcases hr with ⟨h1, -⟩ | ⟨-, h2, -⟩
    · rw [er, h1]
    · exact absurd h2 (hno r)
  have hf : ∀ p : fast_string, p.holds P → s.find_fs p = .ok invalid := by
    intro p hp
    obtain ⟨r, er, hr⟩ := find_fs_spec h hp hP hne
    rcases hr with ⟨h1, -⟩ | ⟨-, h2, -⟩
    · rw [er, h1]
    · exact absurd h2 (hno r)
  have e1 : ∀ R : List Nat, s.replace_cstr_cstr junk P R = .ok s := by
    intro R
    simp [replace_cstr_cstr, hc, bind, Except.bind, pure, Except.pure]
  have e2 : ∀ p : fast_string, p.holds P → ∀ R : List Nat,
      s.replace_fs_cstr junk p R = .ok s := by
    intro p hp R
    simp [replace_fs_cstr, hf p hp, bind, Except.bind, pure, Except.pure]
  refine ⟨e1, ?_, e1 [], ?_, fun _ _ => rfl, fun _ _ => rfl⟩
  · intro R
    simp [replace_cstr_fs, hc, bind, Except.bind, pure, Except.pure]
  · intro p hp
    refine ⟨?_, e2 p hp, e2 p hp []⟩
    intro R
    simp [replace_fs_fs, hf p hp, bind, Except.bind, pure, Except.pure]

end fast_string

namespace fast_string

theorem erase_insert_restores_witness :
    ∃ r, hello_world.erase 4 5 = .ok r ∧
      (∀ t : fast_string,
        t.holds (((bytes "Hello World!").drop 4).take (min 5 ((bytes "Hello World!").length - 4))) →
        ∃ r', r.insert_fs (fun _ => 205) 4 t = .ok r' ∧ r'.holds (bytes "Hello World!") ∧
          r'.m_Length = (bytes "Hello World!").length) ∧
      (zero_free (((bytes "Hello World!").drop 4).take
          (min 5 ((bytes "Hello World!").length - 4))) →
        ∃ r', r.insert_cstr (fun _ => 205) 4
            (((bytes "Hello World!").drop 4).take (min 5 ((bytes "Hello World!").length - 4)))
            = .ok r' ∧
          r'.holds (bytes "Hello World!") ∧ r'.m_Length = (bytes "Hello World!").length) :=
  erase_insert_restores (fun _ => 205) hello_world (bytes "Hello World!") 4 5 (by decide)
    (by decide) (by decide)

theorem xyz_absent : ∀ i, ¬ bytes "xyz" <+: (bytes "Hello World!").drop i := by
  intro i
  rcases Nat.lt_or_ge i 12 with h | h
  · interval_cases i <;> decide
  · rw [List.drop_of_length_le (by simpa [bytes] using h)]
    decide

theorem replace_absent_pattern_witness :
    (∀ R : List Nat, hello_world.replace_cstr_cstr (fun _ => 205) (bytes "xyz") R
      = .ok hello_world) ∧
    (∀ R : fast_string, hello_world.replace_cstr_fs (fun _ => 205) (bytes "xyz") R
      = .ok hello_world) ∧
    hello_world.erase_cstr (fun _ => 205) (bytes "xyz") = .ok hello_world ∧
    (∀ p : fast_string, p.holds (bytes "xyz") →
      (∀ R : fast_string, hello_world.replace_fs_fs (fun _ => 205) p R = .ok hello_world) ∧
      (∀ R : List Nat, hello_world.replace_fs_cstr (fun _ => 205) p R = .ok hello_world) ∧
      hello_world.erase_fs (fun _ => 205) p = .ok hello_world) ∧
    (∀ (x : fast_string) (Q : List Nat),
      x.erase_cstr (fun _ => 205) Q = x.replace_cstr_cstr (fun _ => 205) Q []) ∧
    (∀ x q : fast_string, x.erase_fs (fun _ => 205) q = x.replace_fs_cstr (fun _ => 205) q []) :=
  replace_absent_pattern (fun _ => 205) hello_world (bytes "Hello World!") (bytes "xyz")
    (by decide) (by decide) xyz_absent

/-- C10, as stated, fails for a pattern with a zero byte.  After
`fast_string s("a"), p("a"); p.push_back(0);` the pattern `p` holds the two bytes
`'a', 0`, which occur nowhere in the one-byte content of `s`.  Yet `s.find(p)` is 0,
because the zero byte is compared with, and equals, the terminator of `s`; and
`s.erase(p)` then computes the length `1 - 2`, takes the reallocation branch with the
capacity `32 - 2` and copies the 32-byte inline array into the 30-byte block. -/
theorem erase_pattern_zero_byte :
    ((of_cstr (List.replicate 32 204) (fun _ => 205) (bytes "a")).bind
        (fun p => p.push_back (fun _ => 205) 0)).map (fun p => (p.m_Length, p.c_str_view))
      = .ok (2, some [97, 0, 0]) ∧
    ¬ [97, 0] <:+: bytes "a" ∧
    (of_cstr (List.replicate 32 204) (fun _ => 205) (bytes "a")).bind
        (fun s => ((of_cstr (List.replicate 32 204) (fun _ => 205) (bytes "a")).bind
          (fun p => p.push_back (fun _ => 205) 0)).bind (fun p => s.find_fs p))
      = .ok 0 ∧
    (of_cstr (List.replicate 32 204) (fun _ => 205) (bytes "a")).bind
        (fun s => ((of_cstr (List.replicate 32 204) (fun _ => 205) (bytes "a")).bind
          (fun p => p.push_back (fun _ => 205) 0)).bind
            (fun p => s.erase_fs (fun _ => 205) p))
      = .error .undefined := by
  decide

end fast_string


namespace fast_string

/-! ## operator[] and the index checks -/

/-- `operator[]` on a buffer that holds content `Y` followed by its terminator behind
`c_str()`: for every index `k`, `operator[](k)` returns the `k`-th content byte when
`k < length`, the terminator byte 0 when `k = length`, and throws the
index-out-of-range error when `k > length`.  Whether a buffer reached through the
members holds its content is a property of those members. -/
theorem op_index_cases (s : fast_string) (Y : List Nat) (k : Nat) (h : s.holds Y) :
    (k < Y.length → ∃ v, s.op_index k = .ok v ∧ Y[k]? = some v) ∧
    (k = Y.length → s.op_index k = .ok 0) ∧
    (k > Y.length → s.op_index k = .error .index_out_of_range) := by
  refine ⟨fun hk => (op_index_holds h).1 k hk, ?_, ?_⟩
  · intro hk
    subst hk
    exact (op_index_holds h).2
  · intro hk
    unfold op_index
    rw [h.1, if_pos hk]
    rfl

theorem op_index_cases_witness :
    (4 < (bytes "Hello World!").length →
      ∃ v, hello_world.op_index 4 = .ok v ∧ (bytes "Hello World!")[4]? = some v) ∧
    (4 = (bytes "Hello World!").length → hello_world.op_index 4 = .ok 0) ∧
    (4 > (bytes "Hello World!").length →
      hello_world.op_index 4 = .error .index_out_of_range) :=
  op_index_cases hello_world (bytes "Hello World!") 4 (by decide)

/-- The three cases of `operator[]` on `fast_string("Hello World!")`: index 4 is `'o'`,
index 12 is the terminator, index 13 throws. -/
theorem op_index_hello_world :
    hello_world.op_index 4 = .ok 111 ∧ hello_world.op_index 12 = .ok 0 ∧
      hello_world.op_index 13 = .error .index_out_of_range := by
  decide

theorem no_throw_bind {α β : Type} {r : Except Error α} {f : α → Except Error β}
    (hr : no_throw r) (hf : ∀ a, no_throw (f a)) : no_throw (r >>= f) := by
  cases r with
  | error e =>
    intro h
    injection h with h
    subst h
    exact hr rfl
  | ok a => exact hf a

theorem no_throw_ok {α : Type} (a : α) : no_throw (Except.ok a : Except Error α) := by
  intro h; cases h

theorem no_throw_pure {α : Type} (a : α) : no_throw (pure a : Except Error α) := by
  intro h; cases h

theorem no_throw_undefined {α : Type} : no_throw (Except.error Error.undefined : Except Error α) := by
  intro h; cases h

theorem no_throw_memcpy (dst : List Nat) (d : Nat) (src : List Nat) (o n : Nat) :
    no_throw (memcpy dst d src o n) := by
  unfold memcpy
  split
  · exact no_throw_ok _
  · exact no_throw_undefined

theorem no_throw_poke (blk : List Nat) (k v : Nat) : no_throw (poke blk k v) := by
  unfold poke
  split
  · exact no_throw_ok _
  · exact no_throw_undefined

theorem no_throw_block (s : fast_string) (r : Region) : no_throw (s.block r) := by
  cases r with
  | sso => exact no_throw_ok _
  | heap =>
    unfold block
    cases s.m_Data with
    | none => exact no_throw_undefined
    | some b => exact no_throw_ok _

theorem no_throw_memcpy_to (s : fast_string) (r : Region) (d : Nat) (src : List Nat)
    (o n : Nat) : no_throw (s.memcpy_to r d src o n) := by
  unfold memcpy_to
  exact no_throw_bind (no_throw_block s r) fun b =>
    no_throw_bind (no_throw_memcpy b d src o n) fun _ => no_throw_pure _

theorem no_throw_memcpy_within (s : fast_string) (r : Region) (d o n : Nat) :
    no_throw (s.memcpy_within r d o n) := by
  unfold memcpy_within
  exact no_throw_bind (no_throw_block s r) fun b => no_throw_memcpy_to s r d b o n

theorem no_throw_store (s : fast_string) (r : Region) (k v : Nat) :
    no_throw (s.store r k v) := by
  unfold store
  exact no_throw_bind (no_throw_block s r) fun b =>
    no_throw_bind (no_throw_poke b k v) fun _ => no_throw_pure _

theorem no_throw_grow (junk : Nat → Nat) (s : fast_string) (n : Nat) :
    no_throw (grow junk s n) := by
  unfold grow
  dsimp only
  split
  · exact no_throw_memcpy_to _ _ _ _ _ _
  · exact no_throw_pure _

theorem no_throw_edit (s : fast_string) (d o cnt i : Nat) (src : List Nat) (len : Nat)
    (f : Nat → Nat) : no_throw (s.edit d o cnt i src len f) := by
  unfold edit
  exact no_throw_bind (no_throw_memcpy_within _ _ _ _ _) fun _ =>
    no_throw_bind (no_throw_memcpy_to _ _ _ _ _ _) fun _ => no_throw_store _ _ _ _

end fast_string

namespace fast_string

theorem no_throw_insert_core (junk : Nat → Nat) (s : fast_string) (index len : Nat)
    (src : List Nat) (h : ¬ index > s.m_Length) :
    no_throw (insert_core junk s index len src) := by
  unfold insert_core
  simp only [if_neg h]
  repeat' first
    | exact no_throw_pure _
    | exact no_throw_grow _ _ _
    | exact no_throw_edit _ _ _ _ _ _ _ _
    | exact no_throw_memcpy_within _ _ _ _ _
    | exact no_throw_memcpy_to _ _ _ _ _ _
    | exact no_throw_store _ _ _ _
    | exact no_throw_block _ _
    | refine no_throw_bind ?_ (fun _ => ?_)
    | split

/-- When the index check throws: `substr(index, count)`, `erase(index, count)` and both
overloads of `insert(index, content)` return the index-out-of-range error if and only
if `index > length`.  What a throwing call leaves in the object is stated on the
statement-level model, see `member.call`. -/
theorem index_out_of_range_iff (junk : Nat → Nat) (s fs : fast_string) (index count : Nat)
    (str : List Nat) :
    (s.substr index count = .error .index_out_of_range ↔ index > s.m_Length) ∧
    (s.erase index count = .error .index_out_of_range ↔ index > s.m_Length) ∧
    (s.insert_cstr junk index str = .error .index_out_of_range ↔ index > s.m_Length) ∧
    (s.insert_fs junk index fs = .error .index_out_of_range ↔ index > s.m_Length) := by
  refine ⟨⟨?_, ?_⟩, ⟨?_, ?_⟩, ⟨?_, ?_⟩, ⟨?_, ?_⟩⟩
  · intro he
    by_contra hle
    revert he
    show no_throw (s.substr index count)
    unfold substr
    simp only [if_neg hle]
    repeat' first
      | exact no_throw_pure _
      | exact no_throw_grow _ _ _
      | exact no_throw_edit _ _ _ _ _ _ _ _
      | exact no_throw_memcpy_within _ _ _ _ _
      | exact no_throw_memcpy_to _ _ _ _ _ _
      | exact no_throw_store _ _ _ _
      | exact no_throw_block _ _
      | refine no_throw_bind ?_ (fun _ => ?_)
  · intro hgt
    unfold substr
    rw [if_pos hgt]
    rfl
  · intro he
    by_contra hle
    revert he
    show no_throw (s.erase index count)
    unfold erase
    simp only [if_neg hle]
    repeat' first
      | exact no_throw_pure _
      | exact no_throw_grow _ _ _
      | exact no_throw_edit _ _ _ _ _ _ _ _
      | exact no_throw_memcpy_within _ _ _ _ _
      | exact no_throw_memcpy_to _ _ _ _ _ _
      | exact no_throw_store _ _ _ _
      | exact no_throw_block _ _
      | refine no_throw_bind ?_ (fun _ => ?_)
  · intro hgt
    unfold erase
    rw [if_pos hgt]
    rfl
  · intro he
    by_contra hle
    revert he
    rw [insert_cstr_eq]
    exact no_throw_insert_core junk s index _ _ hle
  · intro hgt
    unfold insert_cstr
    rw [if_pos hgt]
    rfl
  · intro he
    by_contra hle
    revert he
    show no_throw (s.insert_fs junk index fs)
    unfold insert_fs
    simp only [if_neg hle]
    repeat' first
      | exact no_throw_pure _
      | exact no_throw_grow _ _ _
      | exact no_throw_edit _ _ _ _ _ _ _ _
      | exact no_throw_memcpy_within _ _ _ _ _
      | exact no_throw_memcpy_to _ _ _ _ _ _
      | exact no_throw_store _ _ _ _
      | exact no_throw_block _ _
      | refine no_throw_bind ?_ (fun _ => ?_)
      | split
  · intro hgt
    unfold insert_fs
    rw [if_pos hgt]
    rfl

end fast_string


namespace fast_string

/-! ## swap, push_back, pop_back, reserve -/

theorem memcpy_whole {dst src : List Nat} {n : Nat} (hd : dst.length = n) (hs : src.length = n) :
    memcpy dst 0 src 0 n = .ok src := by
  rw [memcpy_ok (by omega) (by omega)]
  simp [← hs, List.drop_of_length_le (Nat.le_of_eq (hd.trans hs.symm))]

/-- C15. For all buffers `a` and `b` (objects whose inline arrays have their 32 bytes),
`a.swap(b)` returns with `a` in exactly the previous state of `b` and `b` in exactly the
previous state of `a`: inline bytes, heap block, capacity, length and hash.  Swapping
twice restores both. -/
theorem swap_exchanges (junk junk' : Nat → Nat) (a b : fast_string)
    (ha : a.m_SSOBuffer.length = 32) (hb : b.m_SSOBuffer.length = 32) :
    a.swap junk b = .ok (b, a) ∧
      (a.swap junk b).bind (fun p => p.1.swap junk' p.2) = .ok (a, b) := by
  have key : ∀ (j : Nat → Nat) (x y : fast_string), x.m_SSOBuffer.length = 32 →
      y.m_SSOBuffer.length = 32 → x.swap j y = .ok (y, x) := by
    intro j x y hx hy
    have h1 : memcpy (malloc j _default_sso_size) 0 x.m_SSOBuffer 0 _default_sso_size
        = .ok x.m_SSOBuffer := memcpy_whole (length_malloc _ _) hx
    have h2 : memcpy x.m_SSOBuffer 0 y.m_SSOBuffer 0 _default_sso_size = .ok y.m_SSOBuffer :=
      memcpy_whole hx hy
    have h3 : memcpy y.m_SSOBuffer 0 x.m_SSOBuffer 0 _default_sso_size = .ok x.m_SSOBuffer :=
      memcpy_whole hy hx
    simp only [swap, memcpy_to, block, set_block, bind, Except.bind, pure, Except.pure, h1, h2,
      h3]
  rw [key junk a b ha hb]
  exact ⟨rfl, key junk' b a hb ha⟩

theorem swap_exchanges_witness :
    hello_world.swap (fun _ => 205) { hello_world with m_Length := 5, m_Hash := 7 }
        = .ok ({ hello_world with m_Length := 5, m_Hash := 7 }, hello_world) ∧
      (hello_world.swap (fun _ => 205) { hello_world with m_Length := 5, m_Hash := 7 }).bind
          (fun p => p.1.swap (fun _ => 205) p.2)
        = .ok (hello_world, { hello_world with m_Length := 5, m_Hash := 7 }) :=
  swap_exchanges (fun _ => 205) (fun _ => 205) hello_world
    { hello_world with m_Length := 5, m_Hash := 7 } (by decide) (by decide)

theorem push_back_eq (junk : Nat → Nat) (s : fast_string) (c : Nat) :
    s.push_back junk c =
      if s.m_Length + 1 ≥ s.m_Capacity then
        grow junk s (s.m_Capacity + 1) >>= fun y => y.push_tail c
      else
        s.push_tail c := rfl

/-- The two stores of `push_back` on a buffer that holds `Y` and has room for one more
character and the terminator. -/
theorem push_tail_spec {s : fast_string} {Y : List Nat} (c : Nat) (hw : s.wf) (h : s.holds Y)
    (hfit : Y.length + 1 < s.m_Capacity) :
    ∃ s', s.push_tail c = .ok s' ∧ s'.holds (Y ++ [c]) ∧ s'.wf ∧ s'.m_Hash = s.m_Hash ∧
      s'.m_Capacity = s.m_Capacity := by
  obtain ⟨b, hb, hY, ht, hlt, hlen⟩ := holds_elim h
  obtain ⟨b', hb', hbl⟩ := wf_block hw
  have hbb := block_unique hb' hb
  subst hbb
  obtain ⟨b1, p1⟩ : ∃ b1, poke b' Y.length c = .ok b1 := ⟨_, poke_ok c (by omega)⟩
  have l1 := poke_length p1
  obtain ⟨b2, p2⟩ : ∃ b2, poke b1 (Y.length + 1) 0 = .ok b2 := ⟨_, poke_ok 0 (by omega)⟩
  have l2 := poke_length p2
  unfold push_tail
  simp only [bind, Except.bind, hlen, store_ok hb p1, m_Length_set_block]
  refine ⟨_, store_length_ok (block_set_block _ _ _) p2, ?_, ?_, ?_, ?_⟩
  · rw [set_block_set_block]
    refine holds_intro (b := b2) ?_ (block_edit _ _ _) ?_ ?_
    · simp
    · intro k hk
      rw [List.length_append, List.length_singleton] at hk
      rw [poke_getElem? p2, if_neg (by omega), poke_getElem? p1]
      by_cases hkY : k = Y.length
      · subst hkY
        rw [if_pos rfl, List.getElem?_append_right (le_refl _)]
        simp
      · rw [if_neg hkY, hY k (by omega), List.getElem?_append_left (by omega)]
    · rw [List.length_append, List.length_singleton, poke_getElem? p2, if_pos rfl]
  · rw [set_block_set_block]
    exact wf_edit hw hb (by omega) hfit
  · simp
  · simp

/-- What `push_back` does on a buffer that satisfies the structural invariant. -/
theorem push_back_spec (junk : Nat → Nat) {s : fast_string} {Y : List Nat} (c : Nat)
    (hw : s.wf) (h : s.holds Y) :
    ∃ s', s.push_back junk c = .ok s' ∧ s'.holds (Y ++ [c]) ∧ s'.wf ∧ s'.m_Hash = s.m_Hash ∧
      s'.m_Capacity = if Y.length + 1 ≥ s.m_Capacity then s.m_Capacity + 1 else s.m_Capacity := by
  have hlen := h.1
  have hcap := hw.2.2.1
  rw [push_back_eq, hlen]
  by_cases hg : Y.length + 1 ≥ s.m_Capacity
  · obtain ⟨s1, e1, hh1, hw1, hc1, hash1⟩ :=
      grow_spec junk (N := s.m_Capacity + 1) hw h (by omega)
    obtain ⟨s', e', hh', hw', hash', hc'⟩ := push_tail_spec c hw1 hh1 (by omega)
    rw [if_pos hg, if_pos hg, e1]
    exact ⟨s', e', hh', hw', by rw [hash', hash1], by rw [hc', hc1]⟩
  · obtain ⟨s', e', hh', hw', hash', hc'⟩ := push_tail_spec c hw h (by omega)
    rw [if_neg hg, if_neg hg]
    exact ⟨s', e', hh', hw', hash', hc'⟩

/-- C18. For every buffer built from zero-free content `Y` and every byte `c` (zero
or not), `push_back(c)` returns and leaves content `Y ++ [c]` of length `|Y| + 1`.  The
capacity grows by exactly 1 when `length + 1 >= capacity` beforehand and is unchanged
otherwise; at `|Y| = 31` the buffer moves from the inline array to a heap block of
33 bytes, and the content is there. -/
theorem push_back_of_cstr (sso : List Nat) (junk junk' : Nat → Nat) (Y : List Nat) (c : Nat)
    (hsso : sso.length = 32) (hY : zero_free Y) :
    ∃ s r, of_cstr sso junk Y = .ok s ∧ s.push_back junk' c = .ok r ∧
      r.holds (Y ++ [c]) ∧ r.m_Length = Y.length + 1 ∧
      (s.m_Length + 1 ≥ s.m_Capacity → r.m_Capacity = s.m_Capacity + 1) ∧
      (s.m_Length + 1 < s.m_Capacity → r.m_Capacity = s.m_Capacity) ∧
      (Y.length = 31 → s.c_str = .sso ∧ r.c_str = .heap ∧ r.m_Capacity = 33) := by
  obtain ⟨s, es, hs, ws, -, hin, -⟩ := of_cstr_spec sso junk hsso hY
  obtain ⟨r, er, hr, wr, -, hcap⟩ := push_back_spec junk' c ws hs
  refine ⟨s, r, es, er, hr, ?_, ?_, ?_, ?_⟩
  · rw [hr.1]
    simp
  · intro hg
    rw [hs.1] at hg
    rw [hcap, if_pos hg]
  · intro hg
    rw [hs.1] at hg
    rw [hcap, if_neg (by omega)]
  · intro h31
    obtain ⟨c1, -⟩ := hin (by omega)
    have hr33 : r.m_Capacity = 33 := by
      rw [hcap, c1, if_pos (by omega)]
    refine ⟨by simp [c_str, c1, _default_sso_size], by simp [c_str, hr33, _default_sso_size],
      hr33⟩

theorem push_back_of_cstr_witness :
    ∃ s r, of_cstr (List.replicate 32 204) (fun _ => 205) (List.replicate 31 97) = .ok s ∧
      s.push_back (fun _ => 205) 99 = .ok r ∧
      r.holds (List.replicate 31 97 ++ [99]) ∧ r.m_Length = (List.replicate 31 97).length + 1 ∧
      (s.m_Length + 1 ≥ s.m_Capacity → r.m_Capacity = s.m_Capacity + 1) ∧
      (s.m_Length + 1 < s.m_Capacity → r.m_Capacity = s.m_Capacity) ∧
      ((List.replicate 31 97).length = 31 →
        s.c_str = .sso ∧ r.c_str = .heap ∧ r.m_Capacity = 33) :=
  push_back_of_cstr (List.replicate 32 204) (fun _ => 205) (fun _ => 205)
    (List.replicate 31 97) 99 (by decide) (by decide)

end fast_string


namespace fast_string

/-- What `pop_back` does on a buffer that holds at least one character. -/
theorem pop_back_spec {s : fast_string} {Y : List Nat} (h : s.holds Y) (hne : Y ≠ [])
    (hsz : Y.length < 2 ^ 64) :
    ∃ s', s.pop_back = .ok s' ∧ s'.holds Y.dropLast ∧ s'.m_Capacity = s.m_Capacity ∧
      s'.m_Hash = s.m_Hash ∧ (s.wf → s'.wf) := by
  obtain ⟨b, hb, hY, ht, hlt, hlen⟩ := holds_elim h
  have hpos : 0 < Y.length := List.length_pos.mpr hne
  have e1 : sub64 Y.length 1 = Y.length - 1 := sub64_of_le (by omega) hsz
  obtain ⟨b1, p1⟩ : ∃ b1, poke b (Y.length - 1) 0 = .ok b1 := ⟨_, poke_ok 0 (by omega)⟩
  have l1 := poke_length p1
  unfold pop_back
  simp only [hlen, e1]
  refine ⟨_, store_length_ok hb p1, ?_, ?_, ?_, ?_⟩
  · refine holds_intro (b := b1) ?_ (block_edit _ _ _) ?_ ?_
    · simp
    · intro k hk
      rw [List.length_dropLast] at hk
      rw [poke_getElem? p1, if_neg (by omega), hY k (by omega), List.dropLast_eq_take,
        List.getElem?_take_of_lt (by omega)]
    · rw [List.length_dropLast, poke_getElem? p1, if_pos rfl]
  · simp
  · simp
  · intro hw
    exact wf_edit hw hb l1 (by have := hw.2.2.1; omega)

/-- C17 on the code.  `fast_string s(""); s.pop_back();` does not leave the buffer
empty: `pop_back` has no test of the length, `m_Length -= 1` wraps to `2^64 - 1`, and
the terminator is stored at `data_ptr[2^64 - 1]`, outside the inline array.  On a buffer
with characters the last one is dropped: `"Hello World!"` becomes `"Hello World"`. -/
theorem pop_back_empty :
    (of_cstr (List.replicate 32 204) (fun _ => 205) []).map
        (fun s => (s.m_Length, s.c_str_view)) = .ok (0, some [0]) ∧
    (of_cstr (List.replicate 32 204) (fun _ => 205) []).bind (fun s => s.pop_back)
      = .error .undefined ∧
    sub64 0 1 = 2 ^ 64 - 1 ∧
    ((of_cstr (List.replicate 32 204) (fun _ => 205) (bytes "Hello World!")).bind
        (fun s => s.pop_back)).map (fun s => (s.m_Length, s.c_str_view))
      = .ok (11, some (bytes "Hello World" ++ [0])) := by
  decide

/-- C20 on the code.  `fast_string s("Hello"); s.reserve(10);` sets the capacity to 42
and `m_Data` to a fresh block of 42 bytes, and copies nothing: `c_str()` is now the
heap pointer, so the six bytes behind it are whatever the allocation holds (here
`0xCD`), not `"Hello"` and its terminator, which are still in the inline array. -/
theorem reserve_inline_loses_content :
    ((of_cstr (List.replicate 32 204) (fun _ => 205) (bytes "Hello")).bind
        (fun s => s.reserve (fun _ => 205) 10)).map
        (fun s => (s.m_Capacity, s.m_Length, s.c_str, s.c_str_view, s.m_SSOBuffer.take 6))
      = .ok (42, 5, Region.heap, some [205, 205, 205, 205, 205, 205],
          bytes "Hello" ++ [0]) := by
  decide

/-- What `reserve` does when the heap block is already behind `c_str()`, or when the
new capacity does not exceed 32: the content stays. -/
theorem reserve_spec (junk : Nat → Nat) {s : fast_string} {Y : List Nat} (n : Nat)
    (hw : s.wf) (h : s.holds Y) (hsz : s.m_Capacity + n < 2 ^ 64)
    (hheap : _default_sso_size < s.m_Capacity ∨ n = 0) :
    ∃ s', s.reserve junk n = .ok s' ∧ s'.holds Y ∧ s'.m_Capacity = s.m_Capacity + n ∧
      s'.m_Hash = s.m_Hash ∧ s'.wf := by
  obtain ⟨b, hb, hY, ht, hlt, hlen⟩ := holds_elim h
  obtain ⟨b', hb', hbl⟩ := wf_block hw
  have hbb := block_unique hb' hb
  subst hbb
  obtain ⟨w1, w2, w3, w4⟩ := hw
  have e1 : add64 s.m_Capacity n = s.m_Capacity + n := by
    unfold add64
    omega
  unfold reserve
  simp only [e1, pure, Except.pure]
  refine ⟨_, rfl, ?_, rfl, rfl, ?_⟩
  · by_cases hgt : _default_sso_size < s.m_Capacity
    · have hcs : s.c_str = .heap := by simp [c_str, hgt]
      rw [hcs] at hb
      cases hd : s.m_Data with
      | none => simp [block, hd] at hb
      | some b0 =>
        simp only [block, hd] at hb
        injection hb with hb
        subst hb
        have hnew : s.m_Capacity + n > _default_sso_size := by omega
        refine holds_intro (b := realloc junk (some b0) (s.m_Capacity + n)) ?_ ?_ ?_ ?_
        · exact hlen
        · simp [c_str, block, hnew]
        · intro k hk
          rw [realloc_getElem? _ _ _ _ (by omega) (by omega), hY k hk]
        · rw [realloc_getElem? _ _ _ _ (by omega) (by omega), ht]
    · have hn : n = 0 := by
        rcases hheap with h1 | h1
        · exact absurd h1 hgt
        · exact h1
      subst hn
      have hcs : s.c_str = .sso := by simp [c_str, hgt]
      rw [hcs] at hb
      simp only [block] at hb
      injection hb with hb
      subst hb
      refine holds_intro (b := s.m_SSOBuffer) ?_ ?_ hY ht
      · exact hlen
      · simp [c_str, block, hgt]
  · refine ⟨w1, ?_, ?_, fun _ => ?_⟩
    · show _default_sso_size ≤ s.m_Capacity + n
      omega
    · show s.m_Length < s.m_Capacity + n
      omega
    · show Option.map List.length (some (realloc junk s.m_Data (s.m_Capacity + n))) = _
      simp [length_realloc]

end fast_string


namespace fast_string

/-! ## equal -/

theorem strcmp_comm (a b : List Nat) :
    (strcmp a b).map (fun r => r == 0) = (strcmp b a).map (fun r => r == 0) := by
  induction a generalizing b with
  | nil => cases b <;> rfl
  | cons x a ih =>
    cases b with
    | nil => rfl
    | cons y b =>
      unfold strcmp
      by_cases hxy : x = y
      · subst hxy
        simp only [bne_self_eq_false, Bool.false_eq_true, if_false]
        by_cases hx : x = 0
        · simp [hx]
        · have : (x == 0) = false := by simp [hx]
          simp only [this, Bool.false_eq_true, if_false]
          exact ih b
      · have h1 : (x != y) = true := by simp [hxy]
        have h2 : (y != x) = true := by simp [Ne.symm hxy]
        simp only [h1, h2, if_true, pure, Except.pure, Except.map]
        have e1 : ((x : Int) - (y : Int) == 0) = false := by
          simp only [beq_eq_false_iff_ne, ne_eq]
          omega
        have e2 : ((y : Int) - (x : Int) == 0) = false := by
          simp only [beq_eq_false_iff_ne, ne_eq]
          omega
        rw [e1, e2]

/-- On two blocks that start with zero-free strings and their terminators, `strcmp`
returns, and returns 0 exactly when the strings are the same. -/
theorem strcmp_strings (Ya Yb ra rb : List Nat) (ha : zero_free Ya) (hb : zero_free Yb) :
    ∃ r, strcmp (Ya ++ 0 :: ra) (Yb ++ 0 :: rb) = .ok r ∧ (r = 0 ↔ Ya = Yb) := by
  induction Ya generalizing Yb with
  | nil =>
    cases Yb with
    | nil => exact ⟨0, by simp [strcmp, pure, Except.pure], by simp⟩
    | cons y Yb =>
      have hy : y ≠ 0 := hb y (List.mem_cons_self _ _)
      have h1 : ((0 : Nat) != y) = true := by simp [Ne.symm hy]
      refine ⟨(0 : Int) - (y : Int), ?_, ?_⟩
      · simp only [List.nil_append, List.cons_append, strcmp, h1, if_true]
        rfl
      · constructor
        · intro h
          omega
        · intro h
          cases h
  | cons x Ya ih =>
    have hx : x ≠ 0 := ha x (List.mem_cons_self _ _)
    have hYa : zero_free Ya := fun v hv => ha v (List.mem_cons_of_mem _ hv)
    cases Yb with
    | nil =>
      have h1 : (x != 0) = true := by simp [hx]
      refine ⟨(x : Int) - (0 : Int), ?_, ?_⟩
      · simp only [List.nil_append, List.cons_append, strcmp, h1, if_true]
        rfl
      · constructor
        · intro h
          omega
        · intro h
          cases h
    | cons y Yb =>
      have hYb : zero_free Yb := fun v hv => hb v (List.mem_cons_of_mem _ hv)
      by_cases hxy : x = y
      · subst hxy
        obtain ⟨r, er, hr⟩ := ih Yb hYa hYb
        have h0 : (x == 0) = false := by simp [hx]
        refine ⟨r, ?_, ?_⟩
        · simp only [List.cons_append, strcmp, bne_self_eq_false, Bool.false_eq_true, if_false,
            h0]
          exact er
        · rw [hr]
          simp
      · have h1 : (x != y) = true := by simp [hxy]
        refine ⟨(x : Int) - (y : Int), ?_, ?_⟩
        · simp only [List.cons_append, strcmp, h1, if_true]
          rfl
        · constructor
          · intro h
            omega
          · intro h
            injection h with h
            exact absurd h hxy

/-- A block compared with itself: 0, as soon as the block has a zero byte. -/
theorem strcmp_self (a : List Nat) (k : Nat) (hk : a[k]? = some 0) : strcmp a a = .ok 0 := by
  induction a generalizing k with
  | nil => simp at hk
  | cons x a ih =>
    unfold strcmp
    simp only [bne_self_eq_false, Bool.false_eq_true, if_false]
    by_cases hx : x = 0
    · simp [hx]
      rfl
    · have h0 : (x == 0) = false := by simp [hx]
      simp only [h0, Bool.false_eq_true, if_false]
      cases k with
      | zero =>
        simp at hk
        exact absurd hk hx
      | succ k =>
        simp at hk
        exact ih k hk

/-- The block of a buffer that holds `Y`, split at the terminator. -/
theorem holds_block {s : fast_string} {Y : List Nat} (h : s.holds Y) :
    ∃ rest, s.block s.c_str = .ok (Y ++ 0 :: rest) := by
  obtain ⟨hlen, hv⟩ := h
  unfold c_str_view at hv
  split at hv
  · rename_i b hb
    rw [hlen] at hv
    injection hv with hv
    refine ⟨b.drop (Y.length + 1), ?_⟩
    rw [hb]
    congr 1
    have := List.take_append_drop (Y.length + 1) b
    rw [hv] at this
    rw [← this]
    simp
  · cases hv

end fast_string

namespace fast_string

theorem load_error {s : fast_string} {r : Region} {k : Nat} {e : Error}
    (h : s.load r k = .error e) : e = .undefined := by
  unfold load at h
  cases hb : s.block r with
  | error e' =>
    rw [hb] at h
    cases r with
    | sso => cases hb
    | heap =>
      unfold block at hb
      cases hd : s.m_Data with
      | none =>
        rw [hd] at hb
        injection hb with hb
        injection h with h
        rw [← h, ← hb]
      | some b0 =>
        rw [hd] at hb
        cases hb
  | ok b =>
    rw [hb] at h
    simp only [bind, Except.bind, peek] at h
    split at h
    · cases h
    · injection h with h
      exact h.symm

theorem load_ok_block {s : fast_string} {r : Region} {k v : Nat}
    (h : s.load r k = .ok v) : ∃ b, s.block r = .ok b := by
  unfold load at h
  cases hb : s.block r with
  | error e' =>
    rw [hb] at h
    cases h
  | ok b => exact ⟨b, rfl⟩

/-- The comparison is symmetric on all buffers, whatever their hashes and blocks. -/
theorem equal_comm (a b : fast_string) : a.equal b = b.equal a := by
  unfold equal
  by_cases hl : a.m_Length = b.m_Length
  · have l1 : (a.m_Length != b.m_Length) = false := by simp [hl]
    have l2 : (b.m_Length != a.m_Length) = false := by simp [hl]
    simp only [l1, l2, Bool.false_eq_true, if_false]
    cases ha : a.load a.c_str 0 with
    | error e1 =>
      have := load_error ha
      subst this
      cases hb : b.load b.c_str 0 with
      | error e2 =>
        have := load_error hb
        subst this
        rfl
      | ok y => rfl
    | ok x =>
      cases hb : b.load b.c_str 0 with
      | error e2 => rfl
      | ok y =>
        obtain ⟨A, hA⟩ := load_ok_block ha
        obtain ⟨B, hB⟩ := load_ok_block hb
        simp only [bind, Except.bind, hA, hB]
        by_cases hxy : x = y
        · subst hxy
          simp only [bne_self_eq_false, Bool.false_eq_true, if_false]
          have hh : (a.m_Hash != 0 && b.m_Hash != 0 && a.m_Hash != b.m_Hash)
              = (b.m_Hash != 0 && a.m_Hash != 0 && b.m_Hash != a.m_Hash) := by
            rw [Bool.and_comm (a.m_Hash != 0) (b.m_Hash != 0)]
            congr 1
            exact Bool.eq_iff_iff.mpr ⟨fun h => by simpa using Ne.symm (by simpa using h),
              fun h => by simpa using Ne.symm (by simpa using h)⟩
          rw [hh]
          split
          · rfl
          · have := strcmp_comm A B
            cases h1 : strcmp A B with
            | error e =>
              rw [h1] at this
              cases h2 : strcmp B A with
              | error e' =>
                rw [h2] at this
                simpa [Except.map] using this
              | ok r' =>
                rw [h2] at this
                simp [Except.map] at this
            | ok r =>
              rw [h1] at this
              cases h2 : strcmp B A with
              | error e' =>
                rw [h2] at this
                simp [Except.map] at this
              | ok r' =>
                rw [h2] at this
                simp only [Except.map] at this
                injection this with this
                simp only [pure, Except.pure]
                rw [this]
        · have h1 : (x != y) = true := by simp [hxy]
          have h2 : (y != x) = true := by simp [Ne.symm hxy]
          simp only [h1, h2, if_true]
  · have l1 : (a.m_Length != b.m_Length) = true := by simp [hl]
    have l2 : (b.m_Length != a.m_Length) = true := by simp [Ne.symm hl]
    simp only [l1, l2, if_true]

/-- The result of `equal` on two buffers with zero-free contents: true exactly when the
contents are the same and the hashes are not both set and different. -/
theorem equal_spec {a b : fast_string} {Ya Yb : List Nat} (ha : a.holds Ya) (hb : b.holds Yb)
    (za : zero_free Ya) (zb : zero_free Yb) :
    ∃ r, a.equal b = .ok r ∧
      (r = true ↔ Ya = Yb ∧ (a.m_Hash = 0 ∨ b.m_Hash = 0 ∨ a.m_Hash = b.m_Hash)) := by
  obtain ⟨ra, hA⟩ := holds_block ha
  obtain ⟨rb, hB⟩ := holds_block hb
  obtain ⟨x, ex, hx⟩ := load_holds ha 0 (Nat.zero_le _)
  obtain ⟨y, ey, hy⟩ := load_holds hb 0 (Nat.zero_le _)
  unfold equal
  by_cases hl : Ya.length = Yb.length
  · have l1 : (a.m_Length != b.m_Length) = false := by simp [ha.1, hb.1, hl]
    simp only [l1, Bool.false_eq_true, if_false, ex, ey, bind, Except.bind, hA, hB]
    by_cases hxy : x = y
    · subst hxy
      simp only [bne_self_eq_false, Bool.false_eq_true, if_false]
      obtain ⟨r, er, hr⟩ := strcmp_strings Ya Yb ra rb za zb
      by_cases hh : a.m_Hash = 0 ∨ b.m_Hash = 0 ∨ a.m_Hash = b.m_Hash
      · have hc : (a.m_Hash != 0 && b.m_Hash != 0 && a.m_Hash != b.m_Hash) = false := by
          rcases hh with h1 | h1 | h1 <;> simp [h1]
        simp only [hc, Bool.false_eq_true, if_false, er, pure, Except.pure]
        refine ⟨_, rfl, ?_⟩
        simp only [beq_iff_eq, hr]
        exact ⟨fun h => ⟨h, hh⟩, fun h => h.1⟩
      · have hc : (a.m_Hash != 0 && b.m_Hash != 0 && a.m_Hash != b.m_Hash) = true := by
          simp only [not_or] at hh
          simp [hh.1, hh.2.1, hh.2.2]
        simp only [hc, if_true, pure, Except.pure]
        exact ⟨false, rfl, by simp [hh]⟩
    · have h1 : (x != y) = true := by simp [hxy]
      simp only [h1, if_true, pure, Except.pure]
      refine ⟨false, rfl, ?_⟩
      simp only [Bool.false_eq_true, false_iff, not_and]
      intro heq
      subst heq
      rw [hx] at hy
      injection hy with hy
      exact absurd hy hxy
  · have l1 : (a.m_Length != b.m_Length) = true := by
      simp only [ha.1, hb.1, bne_iff_ne, ne_eq]
      exact hl
    simp only [l1, if_true, pure, Except.pure]
    refine ⟨false, rfl, ?_⟩
    simp only [Bool.false_eq_true, false_iff, not_and]
    intro heq
    subst heq
    exact absurd rfl hl

theorem equal_self {a : fast_string} {Y : List Nat} (h : a.holds Y) : a.equal a = .ok true := by
  obtain ⟨b, hb, hY, ht, hlt, hlen⟩ := holds_elim h
  obtain ⟨x, ex, -⟩ := load_holds h 0 (Nat.zero_le _)
  unfold equal
  simp only [bne_self_eq_false, Bool.false_eq_true, if_false, ex, bind, Except.bind, hb,
    strcmp_self b Y.length ht, pure, Except.pure, Bool.and_false]
  rfl

end fast_string

namespace fast_string

theorem hash_loop_string (Y rest : List Nat) (hY : zero_free Y) (h0 : Nat) :
    hash_loop h0 (Y ++ 0 :: rest) = .ok (Y.foldl hash_step h0) := by
  induction Y generalizing h0 with
  | nil => rfl
  | cons y Y ih =>
    have hy : y ≠ 0 := hY y (List.mem_cons_self _ _)
    have hy' : (y != 0) = true := by simp [hy]
    simp only [List.cons_append, hash_loop, hy', if_true, List.foldl_cons]
    exact ih (fun v hv => hY v (List.mem_cons_of_mem _ hv)) _

/-- On a buffer whose content is behind the heap pointer, `generate_hash` stores the hash
of the content. -/
theorem generate_hash_heap {s : fast_string} {Y : List Nat} (h : s.holds Y) (hY : zero_free Y)
    (hcap : _default_sso_size < s.m_Capacity) :
    s.generate_hash = .ok { s with m_Hash := hash_of Y } := by
  obtain ⟨rest, hb⟩ := holds_block h
  have hcs : s.c_str = .heap := by simp [c_str, hcap]
  rw [hcs] at hb
  have hb' : ({ s with m_Hash := 0x3B6C } : fast_string).block .heap = .ok (Y ++ 0 :: rest) := hb
  unfold generate_hash
  simp only [hb', bind, Except.bind, hash_loop_string Y rest hY, pure, Except.pure]
  rfl

/-- C11, as the code has it.  For all buffers `a` and `b` whose contents `Ya`, `Yb` have
no zero byte, `a.equal(b)` returns, and is true exactly when the contents are the same
and the cached hashes are not both non-zero and different.  So when one of the hashes
is 0 or the two are the same, and in particular when each hash is 0 or the hash of
the current content of its buffer, `equal` is true exactly when the contents are the
same. -/
theorem equal_content (a b : fast_string) (Ya Yb : List Nat) (ha : a.holds Ya)
    (hb : b.holds Yb) (za : zero_free Ya) (zb : zero_free Yb) :
    ∃ r, a.equal b = .ok r ∧
      (r = true ↔ Ya = Yb ∧ (a.m_Hash = 0 ∨ b.m_Hash = 0 ∨ a.m_Hash = b.m_Hash)) ∧
      ((a.m_Hash = 0 ∨ b.m_Hash = 0 ∨ a.m_Hash = b.m_Hash) → (r = true ↔ Ya = Yb)) ∧
      ((a.m_Hash = 0 ∨ a.m_Hash = hash_of Ya) → (b.m_Hash = 0 ∨ b.m_Hash = hash_of Yb) →
        (r = true ↔ Ya = Yb)) := by
  obtain ⟨r, er, hr⟩ := equal_spec ha hb za zb
  refine ⟨r, er, hr, ?_, ?_⟩
  · intro hh
    rw [hr]
    exact ⟨fun h => h.1, fun h => ⟨h, hh⟩⟩
  · intro h1 h2
    rw [hr]
    refine ⟨fun h => h.1, fun h => ⟨h, ?_⟩⟩
    subst h
    rcases h1 with h1 | h1
    · exact Or.inl h1
    · rcases h2 with h2 | h2
      · exact Or.inr (Or.inl h2)
      · exact Or.inr (Or.inr (h1.trans h2.symm))

theorem equal_content_witness :
    ∃ r, hello_world.equal hello_world = .ok r ∧
      (r = true ↔ bytes "Hello World!" = bytes "Hello World!" ∧
        (hello_world.m_Hash = 0 ∨ hello_world.m_Hash = 0 ∨
          hello_world.m_Hash = hello_world.m_Hash)) ∧
      ((hello_world.m_Hash = 0 ∨ hello_world.m_Hash = 0 ∨
          hello_world.m_Hash = hello_world.m_Hash) →
        (r = true ↔ bytes "Hello World!" = bytes "Hello World!")) ∧
      ((hello_world.m_Hash = 0 ∨ hello_world.m_Hash = hash_of (bytes "Hello World!")) →
        (hello_world.m_Hash = 0 ∨ hello_world.m_Hash = hash_of (bytes "Hello World!")) →
        (r = true ↔ bytes "Hello World!" = bytes "Hello World!")) :=
  equal_content hello_world hello_world (bytes "Hello World!") (bytes "Hello World!")
    (by decide) (by decide) (by decide) (by decide)

set_option maxRecDepth 100000 in
/-- C11, as stated, fails.  First, a stale hash: `a` is built from 32 times `'a'`,
hashed, and then changed by `pop_back(); push_back('b')`; `b` is built from the same 32
bytes that `a` now holds and hashed.  The contents are the same, both hashes are set
and they differ, so `a.equal(b)` is false.  Second, a zero byte: the contents
`'a', 0, 'b'` and `'a', 0, 'c'` differ, and `equal` is true, because `strcmp` stops at
the zero byte. -/
theorem equal_stale_hash :
    (((of_cstr (List.replicate 32 204) (fun _ => 205) (List.replicate 32 97)).bind
          (fun a => a.generate_hash)).bind (fun a => a.pop_back)).bind
        (fun a => (a.push_back (fun _ => 205) 98).bind
          (fun a => ((of_cstr (List.replicate 32 204) (fun _ => 205)
              (List.replicate 31 97 ++ [98])).bind (fun b => b.generate_hash)).bind
            (fun b => (a.equal b).map
              (fun r => (r, a.c_str_view == b.c_str_view, a.m_Length == b.m_Length,
                a.m_Hash, b.m_Hash)))))
      = .ok (false, true, true, 5258126761880974732, 5258126761880974733) ∧
    (((of_cstr (List.replicate 32 204) (fun _ => 205) (bytes "a")).bind
          (fun a => a.push_back (fun _ => 205) 0)).bind
          (fun a => a.push_back (fun _ => 205) 98)).bind
        (fun a => (((of_cstr (List.replicate 32 204) (fun _ => 205) (bytes "a")).bind
            (fun b => b.push_back (fun _ => 205) 0)).bind
            (fun b => b.push_back (fun _ => 205) 99)).bind
          (fun b => (a.equal b).map
            (fun r => (r, a.c_str_view, b.c_str_view))))
      = .ok (true, some [97, 0, 98, 0], some [97, 0, 99, 0]) := by
  decide

/-- C12. `equal` is symmetric: for all buffers `a` and `b`, whatever their hashes and
blocks, `a.equal(b)` and `b.equal(a)` are the same result, and so are `a == b` and
`b == a`, `a != b` and `b != a`.  And `equal` is reflexive: for every buffer `a` that
holds a content, whatever its hash, `a.equal(a)` and `a == a` are true and `a != a` is
false. -/
theorem equal_refl_symm :
    (∀ a b : fast_string, a.equal b = b.equal a ∧ a.op_eq b = b.op_eq a ∧
      a.op_ne b = b.op_ne a) ∧
    (∀ (a : fast_string) (Y : List Nat), a.holds Y →
      a.equal a = .ok true ∧ a.op_eq a = .ok true ∧ a.op_ne a = .ok false) := by
  constructor
  · intro a b
    refine ⟨equal_comm a b, equal_comm a b, ?_⟩
    unfold op_ne
    rw [equal_comm a b]
  · intro a Y h
    refine ⟨equal_self h, equal_self h, ?_⟩
    unfold op_ne
    rw [equal_self h]
    rfl

theorem equal_refl_symm_witness :
    (hello_world.equal { hello_world with m_Hash := 7 }
        = ({ hello_world with m_Hash := 7 } : fast_string).equal hello_world) ∧
      ({ hello_world with m_Hash := 7 } : fast_string).equal { hello_world with m_Hash := 7 }
        = .ok true :=
  ⟨(equal_refl_symm.1 hello_world { hello_world with m_Hash := 7 }).1,
    (equal_refl_symm.2 { hello_world with m_Hash := 7 } (bytes "Hello World!")
      (by decide)).1⟩

end fast_string


namespace fast_string

/-! ## Assignment -/

theorem block_with_length (s : fast_string) (n : Nat) (r : Region) :
    ({ s with m_Length := n } : fast_string).block r = s.block r := by
  cases r <;> rfl

theorem wf_allocated {s : fast_string} (h : s.wf) : s.allocated := ⟨h.1, h.2.2.2⟩

theorem allocated_block {s : fast_string} (h : s.allocated) :
    ∃ b, s.block s.c_str = .ok b ∧ s.m_Capacity ≤ b.length := by
  obtain ⟨h1, h4⟩ := h
  unfold c_str
  by_cases hc : s.m_Capacity > _default_sso_size
  · rw [if_pos hc]
    have h5 := h4 hc
    cases hd : s.m_Data with
    | none => rw [hd] at h5; cases h5
    | some b =>
      rw [hd] at h5
      simp at h5
      exact ⟨b, by simp [block, hd], by omega⟩
  · rw [if_neg hc]
    exact ⟨s.m_SSOBuffer, rfl, by omega⟩

/-- The reallocation step of the two assignment operators keeps the blocks sized. -/
theorem allocated_realloc (junk : Nat → Nat) {s : fast_string} (h : s.allocated) (n : Nat) :
    ({ m_SSOBuffer := s.m_SSOBuffer, m_Data := some (realloc junk s.m_Data n), m_Capacity := n,
       m_Length := s.m_Length, m_Hash := s.m_Hash } : fast_string).allocated :=
  ⟨h.1, fun _ => by simp [length_realloc]⟩

/-- Writing a block of the same size behind `c_str()` keeps the blocks sized. -/
theorem allocated_edit {s : fast_string} {b b' : List Nat} {n : Nat} (h : s.allocated)
    (hb : s.block s.c_str = .ok b) (hl : b'.length = b.length) :
    ({ s.set_block s.c_str b' with m_Length := n } : fast_string).allocated := by
  obtain ⟨h1, h4⟩ := h
  unfold c_str at hb ⊢
  by_cases hc : s.m_Capacity > _default_sso_size
  · rw [if_pos hc] at hb ⊢
    refine ⟨h1, fun _ => ?_⟩
    have h5 := h4 hc
    cases hd : s.m_Data with
    | none => rw [hd] at h5; cases h5
    | some b0 =>
      rw [hd] at h5
      simp only [block, hd] at hb
      injection hb with hb
      subst hb
      simp at h5
      simp [set_block, hl, h5]
  · rw [if_neg hc] at hb ⊢
    simp only [block] at hb
    injection hb with hb
    refine ⟨?_, fun hc' => absurd hc' hc⟩
    show b'.length = _
    rw [hl, ← hb, h1]

/-- The copy step of `operator=(const char*)`. -/
theorem assign_store_spec {s : fast_string} {C : List Nat} (hs : s.allocated)
    (hC : zero_free C) (hn : C.length < s.m_Capacity) :
    ∃ r, (({ s with m_Length := C.length } : fast_string).memcpy_to s.c_str 0 (c_string C) 0
        C.length >>= fun t => t.store s.c_str t.m_Length 0) = .ok r ∧
      r.holds C ∧ r.m_Capacity = s.m_Capacity ∧ r.m_Hash = s.m_Hash ∧ r.allocated := by
  obtain ⟨b, hb, hbl⟩ := allocated_block hs
  obtain ⟨c1, -, c3⟩ := c_string_src hC
  obtain ⟨b1, h1⟩ : ∃ b1, memcpy b 0 (c_string C) 0 C.length = .ok b1 :=
    ⟨_, memcpy_ok (by omega) (by omega)⟩
  have l1 := memcpy_length h1
  obtain ⟨b2, h2⟩ : ∃ b2, poke b1 C.length 0 = .ok b2 := ⟨_, poke_ok 0 (by omega)⟩
  have l2 := poke_length h2
  have hb' : ({ s with m_Length := C.length } : fast_string).block s.c_str = .ok b := by
    rw [block_with_length]
    exact hb
  rw [memcpy_to_ok hb' h1]
  have hres : ({ s with m_Length := C.length } : fast_string).set_block s.c_str b1
      = { s.set_block s.c_str b1 with m_Length := C.length } := by
    cases s.c_str <;> rfl
  rw [hres]
  simp only [bind, Except.bind]
  refine ⟨_, store_length_ok (block_set_block _ _ _) h2, ?_, by simp, by simp, ?_⟩
  · rw [set_block_set_block]
    refine holds_intro (b := b2) rfl (block_edit _ _ _) ?_ ?_
    · intro k hk
      rw [poke_getElem? h2, if_neg (by omega), memcpy_getElem? h1, if_pos (by omega),
        ← c1 k hk]
      simp
    · rw [poke_getElem? h2, if_pos rfl]
  · rw [set_block_set_block]
    exact allocated_edit hs hb (by omega)

theorem assign_cstr_spec (junk : Nat → Nat) {a : fast_string} {C : List Nat}
    (ha : a.allocated) (hC : zero_free C) :
    ∃ r, a.assign_cstr junk C = .ok r ∧ r.holds C ∧
      r.m_Capacity = max a.m_Capacity (C.length + 1) ∧ r.m_Hash = a.m_Hash ∧ r.allocated := by
  unfold assign_cstr
  simp only [strlen_zero_free hC]
  by_cases hg : C.length + 1 > a.m_Capacity
  · simp only [if_pos hg]
    obtain ⟨r, er, hr, hc, hh, hal⟩ :=
      assign_store_spec (allocated_realloc junk ha (C.length + 1)) hC (Nat.lt_succ_self _)
    refine ⟨r, er, hr, ?_, hh, hal⟩
    rw [hc]
    show C.length + 1 = _
    omega
  · simp only [if_neg hg]
    obtain ⟨r, er, hr, hc, hh, hal⟩ := assign_store_spec ha hC (by omega)
    refine ⟨r, er, hr, ?_, hh, hal⟩
    rw [hc]
    omega

end fast_string


namespace fast_string

end fast_string


/-! ## The copy constructor -/

namespace fast_string

/-- What the copy constructor builds from a buffer with blocks of their declared sizes:
the same capacity, length and hash, and the same bytes in the whole block behind
`c_str()`. -/
theorem of_copy_spec (sso : List Nat) (junk : Nat → Nat) {x : fast_string}
    (hsso : sso.length = 32) (hx : x.allocated) :
    ∃ r, of_copy sso junk x = .ok r ∧ r.m_Capacity = x.m_Capacity ∧ r.m_Length = x.m_Length ∧
      r.m_Hash = x.m_Hash ∧ r.block r.c_str = x.block x.c_str ∧ r.allocated ∧
      r = (if x.m_Capacity > _default_sso_size then { x with m_SSOBuffer := sso }
        else { x with m_Data := none }) := by
  obtain ⟨h1, h4⟩ := hx
  unfold of_copy
  by_cases hc : x.m_Capacity > _default_sso_size
  · have h5 := h4 hc
    cases hd : x.m_Data with
    | none => rw [hd] at h5; cases h5
    | some b0 =>
      rw [hd] at h5
      simp at h5
      have hm : memcpy (malloc junk x.m_Capacity) 0 b0 0 x.m_Capacity = .ok b0 :=
        memcpy_whole (length_malloc _ _) h5
      simp only [if_pos hc, block, hd, memcpy_to, set_block, bind, Except.bind, hm, pure,
        Except.pure]
      refine ⟨_, rfl, rfl, rfl, rfl, ?_, ⟨hsso, fun _ => by simp [h5]⟩, ?_⟩
      · simp [c_str, hc, block, hd]
      · cases x
        simp only at hd
        subst hd
        rfl
  · have hm : memcpy sso 0 x.m_SSOBuffer 0 _default_sso_size = .ok x.m_SSOBuffer :=
      memcpy_whole hsso h1
    simp only [if_neg hc, block, memcpy_to, set_block, bind, Except.bind, hm, pure,
      Except.pure]
    refine ⟨_, rfl, rfl, rfl, rfl, ?_, ⟨h1, fun h => absurd h hc⟩, rfl⟩
    simp [c_str, hc, block]

end fast_string

namespace object

theorem value_set_ne (heap : List (List Nat)) (o : object) (p : Nat) (w : List Nat)
    (h : o.m_Data ≠ some p) : o.value (heap.set p w) = o.value heap := by
  unfold value
  cases hd : o.m_Data with
  | none => rfl
  | some q =>
    have hne : p ≠ q := by
      intro e
      subst e
      exact h hd
    simp [List.getElem?_set_ne hne]

theorem value_append (heap : List (List Nat)) (o : object) (w : List Nat) (h : o.valid heap) :
    o.value (heap ++ [w]) = o.value heap := by
  unfold value
  cases hd : o.m_Data with
  | none => rfl
  | some q =>
    have hq := h q hd
    simp [List.getElem?_append_left hq]

/-- C16. For every buffer `x` (an object with a valid heap pointer and blocks of their
declared sizes), the copy constructed from `x` has the capacity, length and hash of
`x` and the same bytes as `x` in the whole block behind `c_str()`, so the same
content and terminator.  The copy shares no block with `x`: its heap pointer, when it
has one, is a new address; a store through the heap pointer of the copy, and an
allocation, leave `x` as it was, and a store through the heap pointer of `x`, and an
allocation, leave the copy as it was.  (The inline arrays are members of the two
objects.) -/
theorem copy_independent (heap : List (List Nat)) (sso : List Nat) (junk : Nat → Nat)
    (x : object) (hsso : sso.length = 32) (hv : x.valid heap)
    (hx : (x.value heap).allocated) :
    ∃ heap' y, object.of_copy heap sso junk x = .ok (heap', y) ∧
      fast_string.of_copy sso junk (x.value heap) = .ok (y.value heap') ∧
      y.m_Capacity = x.m_Capacity ∧ y.m_Length = x.m_Length ∧ y.m_Hash = x.m_Hash ∧
      (y.value heap').block (y.value heap').c_str = (x.value heap).block (x.value heap).c_str ∧
      (y.value heap').c_str_view = (x.value heap).c_str_view ∧
      x.value heap' = x.value heap ∧ x.valid heap' ∧ y.valid heap' ∧
      (∀ p, y.m_Data = some p → x.m_Data ≠ some p) ∧
      (∀ p w, y.m_Data = some p → x.value (heap'.set p w) = x.value heap') ∧
      (∀ q w, x.m_Data = some q → y.value (heap'.set q w) = y.value heap') ∧
      (∀ w, x.value (heap' ++ [w]) = x.value heap' ∧ y.value (heap' ++ [w]) = y.value heap') := by
  obtain ⟨r, er, rc, rl, rh, rb, ra, req⟩ := fast_string.of_copy_spec sso junk hsso hx
  have hview : ∀ v : fast_string, v = r → v.c_str_view = (x.value heap).c_str_view := by
    intro v hv'
    subst hv'
    unfold fast_string.c_str_view
    rw [rb, rl]
  obtain ⟨h1, h4⟩ := hx
  by_cases hc : x.m_Capacity > _default_sso_size
  · have h5 := h4 hc
    cases hd : x.m_Data with
    | none =>
      simp [value, hd] at h5
    | some q =>
      have hq : q < heap.length := hv q hd
      have hb0 : heap[q]? = some heap[q] := List.getElem?_eq_getElem hq
      have hlen : (heap[q]).length = x.m_Capacity := by
        simpa [value, hd, hb0] using h5
      have hm : memcpy (malloc junk x.m_Capacity) 0 heap[q] 0 x.m_Capacity = .ok heap[q] :=
        fast_string.memcpy_whole (length_malloc _ _) hlen
      have hsrc : (heap ++ [malloc junk x.m_Capacity])[q]? = some heap[q] := by
        rw [List.getElem?_append_left hq, hb0]
      have hdst : (heap ++ [malloc junk x.m_Capacity])[heap.length]?
          = some (malloc junk x.m_Capacity) := by
        rw [List.getElem?_append_right (le_refl _)]
        simp
      have hset : (heap ++ [malloc junk x.m_Capacity]).set heap.length heap[q]
          = heap ++ [heap[q]] := by
        rw [List.set_append_right _ _ (le_refl _)]
        simp
      have hrun : object.of_copy heap sso junk x
          = .ok (heap ++ [heap[q]], ⟨sso, some heap.length, x.m_Capacity, x.m_Length, x.m_Hash⟩) := by
        unfold object.of_copy
        simp only [if_pos hc, value, hd, Option.bind, hsrc, hdst, fast_string.block, bind,
          Except.bind, hm, pure, Except.pure, hset]
      have hyv : (⟨sso, some heap.length, x.m_Capacity, x.m_Length, x.m_Hash⟩ : object).value
          (heap ++ [heap[q]]) = r := by
        rw [req]
        simp only [value, hd, Option.bind, hb0, hc, if_true]
        rw [List.getElem?_append_right (le_refl _)]
        simp
      have hxv : x.valid (heap ++ [heap[q]]) := by
        intro p hp
        have := hv p hp
        simp
        omega
      have hyvalid : (⟨sso, some heap.length, x.m_Capacity, x.m_Length, x.m_Hash⟩ : object).valid
          (heap ++ [heap[q]]) := by
        intro p hp
        injection hp with hp
        subst hp
        simp
      refine ⟨_, _, hrun, ?_, rfl, rfl, rfl, ?_, ?_, value_append heap x _ hv, hxv, hyvalid,
        ?_, ?_, ?_, ?_⟩
      · rw [hyv]
        exact er
      · rw [hyv]
        exact rb
      · exact hview _ hyv
      · intro p hp
        injection hp with hp
        subst hp
        intro e
        injection e with e
        omega
      · intro p w hp
        injection hp with hp
        subst hp
        apply value_set_ne
        rw [hd]
        intro e
        injection e with e
        omega
      · intro q' w hq'
        injection hq' with hq'
        subst hq'
        apply value_set_ne
        intro e
        injection e with e
        omega
      · intro w
        exact ⟨value_append _ x w hxv, value_append _ _ w hyvalid⟩
  · have hm : memcpy sso 0 x.m_SSOBuffer 0 _default_sso_size = .ok x.m_SSOBuffer :=
      fast_string.memcpy_whole hsso h1
    have hrun : object.of_copy heap sso junk x
        = .ok (heap, ⟨x.m_SSOBuffer, none, x.m_Capacity, x.m_Length, x.m_Hash⟩) := by
      unfold object.of_copy
      simp only [if_neg hc, bind, Except.bind, hm, pure, Except.pure]
    have hyv : ∀ hp : List (List Nat),
        (⟨x.m_SSOBuffer, none, x.m_Capacity, x.m_Length, x.m_Hash⟩ : object).value hp = r := by
      intro hp
      rw [req]
      simp only [value, hc, if_false]
      rfl
    have hyvalid : (⟨x.m_SSOBuffer, none, x.m_Capacity, x.m_Length, x.m_Hash⟩ : object).valid
        heap := by
      intro p hp
      cases hp
    refine ⟨_, _, hrun, ?_, rfl, rfl, rfl, ?_, ?_, rfl, hv, hyvalid, ?_, ?_, ?_, ?_⟩
    · rw [hyv]
      exact er
    · rw [hyv]
      exact rb
    · exact hview _ (hyv _)
    · intro p hp
      cases hp
    · intro p w hp
      cases hp
    · intro q w _
      rw [hyv, hyv]
    · intro w
      exact ⟨value_append _ x w hv, by rw [hyv, hyv]⟩

end object

namespace object

theorem copy_independent_witness :
    ∃ heap' y, object.of_copy heap_one (List.replicate 32 204) (fun _ => 205) aaa_at_zero
        = .ok (heap', y) ∧
      fast_string.of_copy (List.replicate 32 204) (fun _ => 205) (aaa_at_zero.value heap_one)
        = .ok (y.value heap') ∧
      y.m_Capacity = aaa_at_zero.m_Capacity ∧ y.m_Length = aaa_at_zero.m_Length ∧
      y.m_Hash = aaa_at_zero.m_Hash ∧
      (y.value heap').block (y.value heap').c_str
        = (aaa_at_zero.value heap_one).block (aaa_at_zero.value heap_one).c_str ∧
      (y.value heap').c_str_view = (aaa_at_zero.value heap_one).c_str_view ∧
      aaa_at_zero.value heap' = aaa_at_zero.value heap_one ∧ aaa_at_zero.valid heap' ∧
      y.valid heap' ∧
      (∀ p, y.m_Data = some p → aaa_at_zero.m_Data ≠ some p) ∧
      (∀ p w, y.m_Data = some p → aaa_at_zero.value (heap'.set p w) = aaa_at_zero.value heap') ∧
      (∀ q w, aaa_at_zero.m_Data = some q → y.value (heap'.set q w) = y.value heap') ∧
      (∀ w, aaa_at_zero.value (heap' ++ [w]) = aaa_at_zero.value heap' ∧
        y.value (heap' ++ [w]) = y.value heap') :=
  copy_independent heap_one (List.replicate 32 204) (fun _ => 205) aaa_at_zero (by decide)
    (by decide) (by decide)

end object

namespace fast_string

/-! ## The fields after a call -/

theorem bind_ok {α β : Type} {x : Except Error α} {f : α → Except Error β} {r : β}
    (h : x >>= f = .ok r) : ∃ a, x = .ok a ∧ f a = .ok r := by
  cases x with
  | error e => cases h
  | ok a => exact ⟨a, rfl, h⟩

theorem memcpy_to_fields {s r : fast_string} {p : Region} {d o n : Nat} {src : List Nat}
    (h : s.memcpy_to p d src o n = .ok r) :
    r.m_Capacity = s.m_Capacity ∧ r.m_Length = s.m_Length ∧ r.m_Hash = s.m_Hash := by
  unfold memcpy_to at h
  obtain ⟨b, -, h⟩ := bind_ok h
  obtain ⟨b', -, h⟩ := bind_ok h
  cases h
  simp

theorem memcpy_within_fields {s r : fast_string} {p : Region} {d o n : Nat}
    (h : s.memcpy_within p d o n = .ok r) :
    r.m_Capacity = s.m_Capacity ∧ r.m_Length = s.m_Length ∧ r.m_Hash = s.m_Hash := by
  unfold memcpy_within at h
  obtain ⟨b, -, h⟩ := bind_ok h
  exact memcpy_to_fields h

theorem store_fields {s r : fast_string} {p : Region} {k v : Nat}
    (h : s.store p k v = .ok r) :
    r.m_Capacity = s.m_Capacity ∧ r.m_Length = s.m_Length ∧ r.m_Hash = s.m_Hash := by
  unfold store at h
  obtain ⟨b, -, h⟩ := bind_ok h
  obtain ⟨b', -, h⟩ := bind_ok h
  cases h
  simp

theorem grow_fields {junk : Nat → Nat} {s r : fast_string} {N : Nat}
    (h : grow junk s N = .ok r) :
    r.m_Capacity = N ∧ r.m_Length = s.m_Length ∧ r.m_Hash = s.m_Hash := by
  unfold grow at h
  simp only at h
  split at h
  · exact memcpy_to_fields h
  · cases h
    simp

theorem edit_fields {s r : fast_string} {d o cnt i len : Nat} {src : List Nat} {f : Nat → Nat}
    (h : s.edit d o cnt i src len f = .ok r) :
    r.m_Capacity = s.m_Capacity ∧ r.m_Length = f s.m_Length ∧ r.m_Hash = s.m_Hash := by
  unfold edit at h
  obtain ⟨s1, h1, h⟩ := bind_ok h
  obtain ⟨s2, h2, h⟩ := bind_ok h
  obtain ⟨c1, l1, g1⟩ := memcpy_within_fields h1
  obtain ⟨c2, l2, g2⟩ := memcpy_to_fields h2
  obtain ⟨c3, l3, g3⟩ := store_fields h
  simp only at c3 l3 g3
  exact ⟨by rw [c3, c2, c1], by rw [l3, l2, l1], by rw [g3, g2, g1]⟩

end fast_string

namespace fast_string

theorem push_tail_fields {s r : fast_string} {c : Nat} (h : s.push_tail c = .ok r) :
    r.m_Capacity = s.m_Capacity ∧ r.m_Length = s.m_Length + 1 ∧ r.m_Hash = s.m_Hash := by
  unfold push_tail at h
  obtain ⟨s1, h1, h⟩ := bind_ok h
  obtain ⟨c1, l1, g1⟩ := store_fields h1
  obtain ⟨c2, l2, g2⟩ := store_fields h
  simp only at c2 l2 g2
  exact ⟨by rw [c2, c1], by rw [l2, l1], by rw [g2, g1]⟩

/-- The fields after `push_back`. -/
theorem push_back_fields {junk : Nat → Nat} {s r : fast_string} {c : Nat}
    (h : s.push_back junk c = .ok r) :
    r.m_Capacity = (if s.m_Length + 1 ≥ s.m_Capacity then s.m_Capacity + 1 else s.m_Capacity) ∧
      r.m_Length = s.m_Length + 1 ∧ r.m_Hash = s.m_Hash := by
  rw [push_back_eq] at h
  by_cases hg : s.m_Length + 1 ≥ s.m_Capacity
  · rw [if_pos hg] at h ⊢
    obtain ⟨s1, h1, h⟩ := bind_ok h
    obtain ⟨c1, l1, g1⟩ := grow_fields h1
    obtain ⟨c2, l2, g2⟩ := push_tail_fields h
    exact ⟨by rw [c2, c1], by rw [l2, l1], by rw [g2, g1]⟩
  · rw [if_neg hg] at h ⊢
    exact push_tail_fields h

/-- The fields after `pop_back`. -/
theorem pop_back_fields {s r : fast_string} (h : s.pop_back = .ok r) :
    r.m_Capacity = s.m_Capacity ∧ r.m_Length = sub64 s.m_Length 1 ∧ r.m_Hash = s.m_Hash := by
  unfold pop_back at h
  obtain ⟨c1, l1, g1⟩ := store_fields h
  exact ⟨c1, l1, g1⟩

/-- The fields after the body of `append`. -/
theorem append_core_fields {junk : Nat → Nat} {s r : fast_string} {len : Nat} {src : List Nat}
    (h : append_core junk s len src = .ok r) :
    r.m_Capacity =
        (if s.m_Length + len < s.m_Capacity then s.m_Capacity else s.m_Length + len + 1) ∧
      r.m_Length = s.m_Length + len ∧ r.m_Hash = s.m_Hash := by
  unfold append_core at h
  simp only at h
  by_cases hg : s.m_Length + len < s.m_Capacity
  · rw [if_pos hg] at h ⊢
    obtain ⟨s1, h1, h⟩ := bind_ok h
    cases h
    obtain ⟨c1, l1, g1⟩ := memcpy_to_fields h1
    exact ⟨c1, by simp only [l1], g1⟩
  · rw [if_neg hg] at h ⊢
    have key : ∀ s2 : fast_string, s2.m_Length = s.m_Length → s2.m_Hash = s.m_Hash →
        (do
          let s ← s2.memcpy_to Region.heap s2.m_Length src 0 (len + 1)
          let y ← (pure { s with m_Capacity := s.m_Length + len + 1 } : Except Error fast_string)
          (pure { y with m_Length := y.m_Length + len } : Except Error fast_string)) = .ok r →
        r.m_Capacity = s.m_Length + len + 1 ∧ r.m_Length = s.m_Length + len ∧
          r.m_Hash = s.m_Hash := by
      intro s2 l2 g2 h2
      obtain ⟨s3, h3, h2⟩ := bind_ok h2
      cases h2
      obtain ⟨c3, l3, g3⟩ := memcpy_to_fields h3
      simp only [l3, g3, l2, g2, and_self]
    split at h
    · obtain ⟨s2, h2, h⟩ := bind_ok h
      obtain ⟨c2, l2, g2⟩ := memcpy_to_fields h2
      exact key s2 l2 g2 h
    · obtain ⟨s2, h2, h⟩ := bind_ok h
      cases h2
      exact key { s with m_Data := some (realloc junk s.m_Data (s.m_Length + len + 1)) } rfl rfl h

/-- The fields after `append(const char*)`. -/
theorem append_cstr_fields {junk : Nat → Nat} {s r : fast_string} {str : List Nat}
    (h : s.append_cstr junk str = .ok r) :
    r.m_Capacity =
        (if s.m_Length + strlen str < s.m_Capacity then s.m_Capacity
          else s.m_Length + strlen str + 1) ∧
      r.m_Length = s.m_Length + strlen str ∧ r.m_Hash = s.m_Hash :=
  append_core_fields (by rw [← append_cstr_eq]; exact h)

/-- A call that reads through `fs.c_str()` returns only when there is a block behind
it. -/
theorem append_fs_block {junk : Nat → Nat} {s fs r : fast_string}
    (h : s.append_fs junk fs = .ok r) : ∃ src, fs.block fs.c_str = .ok src := by
  cases hsrc : fs.block fs.c_str with
  | ok src => exact ⟨src, rfl⟩
  | error e =>
    exfalso
    unfold append_fs at h
    simp only [hsrc] at h
    split at h
    · cases h
    · split at h
      · obtain ⟨s2, -, h⟩ := bind_ok h
        cases h
      · cases h

/-- The fields after `append(const fast_string&)`. -/
theorem append_fs_fields {junk : Nat → Nat} {s fs r : fast_string}
    (h : s.append_fs junk fs = .ok r) :
    r.m_Capacity =
        (if s.m_Length + fs.m_Length < s.m_Capacity then s.m_Capacity
          else s.m_Length + fs.m_Length + 1) ∧
      r.m_Length = s.m_Length + fs.m_Length ∧ r.m_Hash = s.m_Hash := by
  obtain ⟨src, hsrc⟩ := append_fs_block h
  rw [append_fs_eq junk s hsrc] at h
  exact append_core_fields h

/-- The fields after the body of `insert`. -/
theorem insert_core_fields {junk : Nat → Nat} {s r : fast_string} {index len : Nat}
    {src : List Nat} (h : insert_core junk s index len src = .ok r) :
    index ≤ s.m_Length ∧
      r.m_Capacity =
        (if s.m_Length + len ≥ s.m_Capacity then s.m_Length + len + 1 else s.m_Capacity) ∧
      r.m_Length = s.m_Length + len ∧ r.m_Hash = s.m_Hash := by
  unfold insert_core at h
  by_cases hi : index > s.m_Length
  · simp only [if_pos hi] at h
    cases h
  · simp only [if_neg hi] at h
    refine ⟨by omega, ?_⟩
    by_cases hg : s.m_Length + len ≥ s.m_Capacity
    · rw [if_pos hg] at h ⊢
      obtain ⟨u, -, h⟩ := bind_ok h
      obtain ⟨s1, h1, h⟩ := bind_ok h
      obtain ⟨c2, l2, g2⟩ := edit_fields h
      obtain ⟨c1, l1, g1⟩ := grow_fields h1
      exact ⟨by rw [c2, c1], by rw [l2, l1], by rw [g2, g1]⟩
    · rw [if_neg hg] at h ⊢
      obtain ⟨u, -, h⟩ := bind_ok h
      obtain ⟨s1, h1, h⟩ := bind_ok h
      obtain ⟨c2, l2, g2⟩ := edit_fields h
      cases h1
      exact ⟨c2, l2, g2⟩

end fast_string

namespace fast_string

/-- The fields after `insert(size_t, const char*)`. -/
theorem insert_cstr_fields {junk : Nat → Nat} {s r : fast_string} {index : Nat}
    {str : List Nat} (h : s.insert_cstr junk index str = .ok r) :
    index ≤ s.m_Length ∧
      r.m_Capacity =
        (if s.m_Length + strlen str ≥ s.m_Capacity then s.m_Length + strlen str + 1
          else s.m_Capacity) ∧
      r.m_Length = s.m_Length + strlen str ∧ r.m_Hash = s.m_Hash :=
  insert_core_fields (by rw [← insert_cstr_eq]; exact h)

theorem insert_fs_block {junk : Nat → Nat} {s fs r : fast_string} {index : Nat}
    (h : s.insert_fs junk index fs = .ok r) : ∃ src, fs.block fs.c_str = .ok src := by
  cases hsrc : fs.block fs.c_str with
  | ok src => exact ⟨src, rfl⟩
  | error e =>
    exfalso
    unfold insert_fs at h
    simp only [hsrc] at h
    split at h
    · cases h
    · split at h <;>
      · obtain ⟨y, -, h⟩ := bind_ok h
        obtain ⟨s1, -, h⟩ := bind_ok h
        obtain ⟨s2, -, h⟩ := bind_ok h
        cases h

/-- The fields after `insert(size_t, const fast_string&)`. -/
theorem insert_fs_fields {junk : Nat → Nat} {s fs r : fast_string} {index : Nat}
    (h : s.insert_fs junk index fs = .ok r) :
    index ≤ s.m_Length ∧
      r.m_Capacity =
        (if s.m_Length + fs.m_Length ≥ s.m_Capacity then s.m_Length + fs.m_Length + 1
          else s.m_Capacity) ∧
      r.m_Length = s.m_Length + fs.m_Length ∧ r.m_Hash = s.m_Hash := by
  obtain ⟨src, hsrc⟩ := insert_fs_block h
  rw [insert_fs_eq junk s index hsrc] at h
  exact insert_core_fields h

/-- The fields after `erase(size_t, size_t)`. -/
theorem erase_fields {s r : fast_string} {index count : Nat} (h : s.erase index count = .ok r) :
    index ≤ s.m_Length ∧ r.m_Capacity = s.m_Capacity ∧
      r.m_Length = s.m_Length - min count (s.m_Length - index) ∧ r.m_Hash = s.m_Hash := by
  unfold erase at h
  by_cases hi : index > s.m_Length
  · simp only [if_pos hi] at h
    cases h
  · simp only [if_neg hi] at h
    obtain ⟨u, -, h⟩ := bind_ok h
    obtain ⟨s1, h1, h⟩ := bind_ok h
    obtain ⟨c1, l1, g1⟩ := memcpy_within_fields h1
    obtain ⟨c2, l2, g2⟩ := store_fields h
    simp only at c2 l2 g2
    refine ⟨by omega, by rw [c2, c1], ?_, by rw [g2, g1]⟩
    rw [l2, l1]
    split <;> omega

/-- The fields after `substr`. -/
theorem substr_fields {s r : fast_string} {index count : Nat}
    (h : s.substr index count = .ok r) :
    index ≤ s.m_Length ∧ r.m_Capacity = s.m_Capacity ∧
      r.m_Length = (if sub64 count index < s.m_Length then count else s.m_Length - index) ∧
      r.m_Hash = s.m_Hash := by
  unfold substr at h
  by_cases hi : index > s.m_Length
  · simp only [if_pos hi] at h
    cases h
  · simp only [if_neg hi] at h
    obtain ⟨u, -, h⟩ := bind_ok h
    obtain ⟨s1, h1, h⟩ := bind_ok h
    obtain ⟨c1, l1, g1⟩ := memcpy_within_fields h1
    obtain ⟨c2, l2, g2⟩ := store_fields h
    simp only at c2 l2 g2
    exact ⟨by omega, by rw [c2, c1], l2, by rw [g2, g1]⟩

/-- The fields after the body of `replace`. -/
theorem replace_at_fields {junk : Nat → Nat} {s r : fast_string} {index sl rl : Nat}
    {src : List Nat} (h : replace_at junk s index sl rl src = .ok r) :
    r.m_Capacity =
        (if add64 (sub64 s.m_Length sl) rl > s.m_Capacity then
          add64 s.m_Capacity (sub64 rl sl) else s.m_Capacity) ∧
      r.m_Length = add64 s.m_Length (sub64 rl sl) ∧ r.m_Hash = s.m_Hash := by
  rw [replace_at_eq] at h
  simp only at h
  by_cases hg : add64 (sub64 s.m_Length sl) rl > s.m_Capacity
  · rw [if_pos hg] at h ⊢
    obtain ⟨s1, h1, h⟩ := bind_ok h
    obtain ⟨c2, l2, g2⟩ := edit_fields h
    obtain ⟨c1, l1, g1⟩ := grow_fields h1
    exact ⟨by rw [c2, c1], by rw [l2, l1], by rw [g2, g1]⟩
  · rw [if_neg hg] at h ⊢
    obtain ⟨s1, h1, h⟩ := bind_ok h
    obtain ⟨c2, l2, g2⟩ := edit_fields h
    cases h1
    exact ⟨c2, l2, g2⟩

/-- The member `replace(const char*, const char*)` returns the object as it was, when
`find` returns `invalid`, or the result of the shared body at the index `find`
returns. -/
theorem replace_cstr_cstr_cases {junk : Nat → Nat} {s r : fast_string} {P R : List Nat}
    (h : s.replace_cstr_cstr junk P R = .ok r) :
    (s.find_cstr P = .ok invalid ∧ r = s) ∨
      ∃ i, s.find_cstr P = .ok i ∧ i ≠ invalid ∧
        replace_at junk s i (strlen P) (strlen R) (c_string R) = .ok r := by
  unfold replace_cstr_cstr at h
  obtain ⟨i, hi, h⟩ := bind_ok h
  by_cases hv : i = invalid
  · subst hv
    simp only [bne_self_eq_false, Bool.false_eq_true, if_false] at h
    cases h
    exact Or.inl ⟨hi, rfl⟩
  · have hb : (i != invalid) = true := by simp [hv]
    simp only [hb, if_true] at h
    exact Or.inr ⟨i, hi, hv, h⟩

theorem replace_fs_cstr_cases {junk : Nat → Nat} {s t r : fast_string} {R : List Nat}
    (h : s.replace_fs_cstr junk t R = .ok r) :
    (s.find_fs t = .ok invalid ∧ r = s) ∨
      ∃ i, s.find_fs t = .ok i ∧ i ≠ invalid ∧
        replace_at junk s i t.m_Length (strlen R) (c_string R) = .ok r := by
  unfold replace_fs_cstr at h
  obtain ⟨i, hi, h⟩ := bind_ok h
  by_cases hv : i = invalid
  · subst hv
    simp only [bne_self_eq_false, Bool.false_eq_true, if_false] at h
    cases h
    exact Or.inl ⟨hi, rfl⟩
  · have hb : (i != invalid) = true := by simp [hv]
    simp only [hb, if_true] at h
    exact Or.inr ⟨i, hi, hv, h⟩

theorem replace_cstr_fs_cases {junk : Nat → Nat} {s q r : fast_string} {P : List Nat}
    (h : s.replace_cstr_fs junk P q = .ok r) :
    (s.find_cstr P = .ok invalid ∧ r = s) ∨
      ∃ i src, s.find_cstr P = .ok i ∧ i ≠ invalid ∧
        replace_at junk s i (strlen P) q.m_Length src = .ok r := by
  unfold replace_cstr_fs at h
  obtain ⟨i, hi, h⟩ := bind_ok h
  by_cases hv : i = invalid
  · subst hv
    simp only [bne_self_eq_false, Bool.false_eq_true, if_false] at h
    cases h
    exact Or.inl ⟨hi, rfl⟩
  · have hb : (i != invalid) = true := by simp [hv]
    simp only [hb, if_true] at h
    obtain ⟨src, -, h⟩ := bind_ok h
    exact Or.inr ⟨i, src, hi, hv, h⟩

theorem replace_fs_fs_cases {junk : Nat → Nat} {s t q r : fast_string}
    (h : s.replace_fs_fs junk t q = .ok r) :
    (s.find_fs t = .ok invalid ∧ r = s) ∨
      ∃ i src, s.find_fs t = .ok i ∧ i ≠ invalid ∧
        replace_at junk s i t.m_Length q.m_Length src = .ok r := by
  unfold replace_fs_fs at h
  obtain ⟨i, hi, h⟩ := bind_ok h
  by_cases hv : i = invalid
  · subst hv
    simp only [bne_self_eq_false, Bool.false_eq_true, if_false] at h
    cases h
    exact Or.inl ⟨hi, rfl⟩
  · have hb : (i != invalid) = true := by simp [hv]
    simp only [hb, if_true] at h
    obtain ⟨src, -, h⟩ := bind_ok h
    exact Or.inr ⟨i, src, hi, hv, h⟩

/-- The fields after `reserve`, which always returns. -/
theorem reserve_fields (junk : Nat → Nat) (s : fast_string) (n : Nat) :
    ∃ r, s.reserve junk n = .ok r ∧ r.m_Capacity = add64 s.m_Capacity n ∧
      r.m_Length = s.m_Length ∧ r.m_Hash = s.m_Hash ∧ r.m_SSOBuffer = s.m_SSOBuffer :=
  ⟨_, rfl, rfl, rfl, rfl, rfl⟩

/-- The fields after `operator=(const fast_string&)`. -/
theorem assign_fs_fields {junk : Nat → Nat} {s fs r : fast_string}
    (h : s.assign_fs junk fs = .ok r) :
    r.m_Capacity = max s.m_Capacity fs.m_Capacity ∧ r.m_Length = fs.m_Length ∧
      r.m_Hash = s.m_Hash := by
  unfold assign_fs at h
  simp only at h
  obtain ⟨src, -, h⟩ := bind_ok h
  obtain ⟨c1, l1, g1⟩ := memcpy_to_fields h
  simp only at c1 l1 g1
  refine ⟨?_, l1, ?_⟩
  · rw [c1]
    split
    · simp only
      omega
    · omega
  · rw [g1]
    split <;> rfl

/-- The fields after `operator=(const char*)`. -/
theorem assign_cstr_fields {junk : Nat → Nat} {s r : fast_string} {str : List Nat}
    (h : s.assign_cstr junk str = .ok r) :
    r.m_Capacity = max s.m_Capacity (strlen str + 1) ∧ r.m_Length = strlen str ∧
      r.m_Hash = s.m_Hash := by
  unfold assign_cstr at h
  simp only at h
  obtain ⟨s1, h1, h⟩ := bind_ok h
  obtain ⟨c1, l1, g1⟩ := memcpy_to_fields h1
  obtain ⟨c2, l2, g2⟩ := store_fields h
  simp only at c1 l1 g1
  refine ⟨?_, by rw [l2, l1], ?_⟩
  · rw [c2, c1]
    split
    · simp only
      omega
    · omega
  · rw [g2, g1]
    split <;> rfl

/-- The fields after `swap`. -/
theorem swap_fields {junk : Nat → Nat} {s fs : fast_string} {p : fast_string × fast_string}
    (h : s.swap junk fs = .ok p) :
    p.1.m_Capacity = fs.m_Capacity ∧ p.1.m_Length = fs.m_Length ∧ p.1.m_Hash = fs.m_Hash ∧
      p.2.m_Capacity = s.m_Capacity ∧ p.2.m_Length = s.m_Length ∧ p.2.m_Hash = s.m_Hash := by
  unfold swap at h
  simp only at h
  obtain ⟨t, -, h⟩ := bind_ok h
  obtain ⟨s1, h1, h⟩ := bind_ok h
  obtain ⟨s2, h2, h⟩ := bind_ok h
  cases h
  obtain ⟨c1, l1, g1⟩ := memcpy_to_fields h1
  obtain ⟨c2, l2, g2⟩ := memcpy_to_fields h2
  exact ⟨c1, l1, g1, c2, l2, g2⟩

end fast_string

namespace fast_string

/-! ## Returning calls on buffers that satisfy the structural invariant -/

theorem append_cstr_spec (junk : Nat → Nat) {s : fast_string} {A B : List Nat}
    (hw : s.wf) (h : s.holds A) (hB : zero_free B) :
    ∃ r, s.append_cstr junk B = .ok r ∧ r.holds (A ++ B) ∧ r.wf ∧ r.m_Hash = s.m_Hash := by
  obtain ⟨c1, c2, c3⟩ := c_string_src hB
  obtain ⟨r, er, hr, wr, gr, -⟩ := append_core_spec junk hw h c1 c2 c3
  rw [← strlen_zero_free hB, ← append_cstr_eq] at er
  exact ⟨r, er, hr, wr, gr⟩

theorem append_fs_spec (junk : Nat → Nat) {s fs : fast_string} {A B : List Nat}
    (hw : s.wf) (h : s.holds A) (hb : fs.holds B) :
    ∃ r, s.append_fs junk fs = .ok r ∧ r.holds (A ++ B) ∧ r.wf ∧ r.m_Hash = s.m_Hash := by
  obtain ⟨src, hsrc, c1, c2, c3, c4⟩ := holds_elim hb
  obtain ⟨r, er, hr, wr, gr, -⟩ := append_core_spec junk hw h c1 c2 c3
  rw [← c4, ← append_fs_eq junk s hsrc] at er
  exact ⟨r, er, hr, wr, gr⟩

theorem insert_cstr_spec (junk : Nat → Nat) {s : fast_string} {Y X : List Nat} {i : Nat}
    (hw : s.wf) (h : s.holds Y) (hX : zero_free X) (hi : i ≤ Y.length) :
    ∃ r, s.insert_cstr junk i X = .ok r ∧ r.holds (splice Y i i X) ∧ r.wf ∧
      r.m_Hash = s.m_Hash := by
  obtain ⟨c1, -, c3⟩ := c_string_src hX
  obtain ⟨r, er, hr, wr, gr, -⟩ := insert_core_spec junk (i := i) hw h c1 (by omega) hi
  rw [← strlen_zero_free hX, ← insert_cstr_eq] at er
  exact ⟨r, er, hr, wr, gr⟩

theorem insert_fs_spec (junk : Nat → Nat) {s fs : fast_string} {Y X : List Nat} {i : Nat}
    (hw : s.wf) (h : s.holds Y) (hb : fs.holds X) (hi : i ≤ Y.length) :
    ∃ r, s.insert_fs junk i fs = .ok r ∧ r.holds (splice Y i i X) ∧ r.wf ∧
      r.m_Hash = s.m_Hash := by
  obtain ⟨src, hsrc, c1, c2, c3, c4⟩ := holds_elim hb
  obtain ⟨r, er, hr, wr, gr, -⟩ := insert_core_spec junk (i := i) hw h c1 (by omega) hi
  rw [← c4, ← insert_fs_eq junk s i hsrc] at er
  exact ⟨r, er, hr, wr, gr⟩

/-- An index `find(const char*)` returns for a zero-free pattern is the index of an
occurrence inside the content. -/
theorem find_cstr_found {s : fast_string} {Y P : List Nat} {i : Nat} (h : s.holds Y)
    (hP : zero_free P) (hne : P ≠ []) (hf : s.find_cstr P = .ok i) (hi : i ≠ invalid) :
    i + P.length ≤ Y.length := by
  obtain ⟨r, er, hr⟩ := find_cstr_spec h hP hne
  rw [hf] at er
  injection er with er
  subst er
  rcases hr with ⟨h1, -⟩ | ⟨h1, h2, -⟩
  · exact absurd h1 hi
  · have := h2.length_le
    rw [List.length_drop] at this
    omega

theorem find_fs_found {s t : fast_string} {Y P : List Nat} {i : Nat} (h : s.holds Y)
    (ht : t.holds P) (hP : zero_free P) (hne : P ≠ []) (hf : s.find_fs t = .ok i)
    (hi : i ≠ invalid) : i + P.length ≤ Y.length := by
  obtain ⟨r, er, hr⟩ := find_fs_spec h ht hP hne
  rw [hf] at er
  injection er with er
  subst er
  rcases hr with ⟨h1, -⟩ | ⟨h1, h2, -⟩
  · exact absurd h1 hi
  · have := h2.length_le
    rw [List.length_drop] at this
    omega

/-- The sizes after the body of `replace` when the pattern of `sl` bytes lies inside
the content and the sizes are sizes of objects in memory: the 64-bit arithmetic of the
code gives the length `L - sl + rl`, and the capacity `Cap + (rl - sl)` when that
length exceeds `Cap`. -/
theorem replace_at_sizes {junk : Nat → Nat} {s r : fast_string} {index sl rl : Nat}
    {src : List Nat} (h : replace_at junk s index sl rl src = .ok r)
    (hsl : sl ≤ s.m_Length) (hlt : s.m_Length < s.m_Capacity)
    (hsz : s.m_Capacity + rl < 2 ^ 64) :
    r.m_Length = s.m_Length - sl + rl ∧
      r.m_Capacity =
        (if s.m_Length - sl + rl > s.m_Capacity then s.m_Capacity + (rl - sl)
          else s.m_Capacity) ∧
      r.m_Hash = s.m_Hash ∧ s.m_Capacity ≤ r.m_Capacity ∧
      (s.m_Length - sl + rl ≠ s.m_Capacity → r.m_Length < r.m_Capacity) := by
  obtain ⟨c1, l1, g1⟩ := replace_at_fields h
  have a1 : add64 (sub64 s.m_Length sl) rl = s.m_Length - sl + rl := by
    unfold add64 sub64
    omega
  have a2 : add64 s.m_Length (sub64 rl sl) = s.m_Length - sl + rl := by
    unfold add64 sub64
    omega
  have a3 : s.m_Length - sl + rl > s.m_Capacity →
      add64 s.m_Capacity (sub64 rl sl) = s.m_Capacity + (rl - sl) := by
    intro hg
    unfold add64 sub64
    omega
  rw [a1] at c1
  rw [a2] at l1
  by_cases hg : s.m_Length - sl + rl > s.m_Capacity
  · rw [if_pos hg, a3 hg] at c1
    rw [if_pos hg]
    refine ⟨l1, c1, g1, by omega, fun _ => by omega⟩
  · rw [if_neg hg] at c1
    rw [if_neg hg]
    refine ⟨l1, c1, g1, by omega, fun _ => by omega⟩

end fast_string

namespace fast_string

/-- On a buffer that satisfies the structural invariant and holds a content, the mutators
return. -/
theorem mutators_return (junk : Nat → Nat) {s : fast_string} {Y str : List Nat}
    (c index count : Nat) (hw : s.wf) (hh : s.holds Y) (hstr : zero_free str)
    (hi : index ≤ Y.length) :
    (∃ r, s.push_back junk c = .ok r) ∧ (∃ r, s.append_cstr junk str = .ok r) ∧
      (∃ r, s.insert_cstr junk index str = .ok r) ∧ (∃ r, s.erase index count = .ok r) ∧
      (∃ r, s.reserve junk count = .ok r) ∧ (∃ r, s.assign_cstr junk str = .ok r) ∧
      (Y ≠ [] → Y.length < 2 ^ 64 → ∃ r, s.pop_back = .ok r) := by
  obtain ⟨r1, e1, -⟩ := push_back_spec junk c hw hh
  obtain ⟨r2, e2, -⟩ := append_cstr_spec junk hw hh hstr
  obtain ⟨r3, e3, -⟩ := insert_cstr_spec junk hw hh hstr hi
  obtain ⟨r4, e4, -⟩ := erase_spec index count hh hi
  obtain ⟨r5, e5, -⟩ := reserve_fields junk s count
  obtain ⟨r6, e6, -⟩ := assign_cstr_spec junk (wf_allocated hw) hstr
  refine ⟨⟨r1, e1⟩, ⟨r2, e2⟩, ⟨r3, e3⟩, ⟨r4, e4⟩, ⟨r5, e5⟩, ⟨r6, e6⟩, ?_⟩
  intro hne hsz
  obtain ⟨r7, e7, -⟩ := pop_back_spec hh hne hsz
  exact ⟨r7, e7⟩

/-- What the constructor `fast_string(size_t size)` builds: an empty buffer whose
capacity field is `size`, in the inline array when `size ≤ 32` and in a heap block of
`size` bytes otherwise. -/
theorem of_size_spec (sso : List Nat) (junk : Nat → Nat) (n : Nat) (hsso : sso.length = 32) :
    ∃ r, of_size sso junk n = .ok r ∧ r.m_Capacity = n ∧ r.m_Length = 0 ∧ r.m_Hash = 0 ∧
      r.holds [] ∧ r.allocated ∧ (n ≤ 32 → r.m_Data = none) := by
  by_cases hn : n > _default_sso_size
  · have hn' : 32 < n := hn
    obtain ⟨b, hb⟩ : ∃ b, poke (malloc junk n) 0 0 = .ok b :=
      ⟨_, poke_ok 0 (by rw [length_malloc]; omega)⟩
    have lb : b.length = n := by rw [poke_length hb, length_malloc]
    simp only [of_size, if_pos hn, store, block, set_block, bind, Except.bind, hb, pure,
      Except.pure]
    refine ⟨_, rfl, rfl, rfl, rfl, ?_, ?_, fun h => absurd h (by omega)⟩
    · apply holds_intro (b := b) rfl
      · simp [c_str, block, hn]
      · intro k hk
        simp at hk
      · rw [List.length_nil, poke_getElem? hb, if_pos rfl]
    · exact ⟨hsso, fun _ => by simp [lb]⟩
  · obtain ⟨b, hb⟩ : ∃ b, poke sso 0 0 = .ok b := ⟨_, poke_ok 0 (by omega)⟩
    have lb : b.length = 32 := by rw [poke_length hb, hsso]
    simp only [of_size, if_neg hn, store, block, set_block, bind, Except.bind, hb, pure,
      Except.pure]
    refine ⟨_, rfl, rfl, rfl, rfl, ?_, ?_, fun _ => rfl⟩
    · apply holds_intro (b := b) rfl
      · simp [c_str, block, hn]
      · intro k hk
        simp at hk
      · rw [List.length_nil, poke_getElem? hb, if_pos rfl]
    · exact ⟨lb, fun h => absurd h hn⟩

end fast_string

namespace fast_string

/-! ## The sizes after replace -/

/-- The four overloads of `replace` on a buffer that holds `Y`, with a zero-free
pattern `P`: a call that returns has left the object as it was, or has run the shared
body for a pattern that is not longer than the content (at the index of an occurrence
of `P` inside `Y`, when `P` is not empty). -/
theorem replace_found {junk : Nat → Nat} {s t q r : fast_string} {Y P R : List Nat}
    (hh : s.holds Y) (hP : zero_free P) :
    (s.replace_cstr_cstr junk P R = .ok r →
      r = s ∨ ∃ i src, P.length ≤ s.m_Length ∧
        replace_at junk s i P.length (strlen R) src = .ok r) ∧
    (s.replace_cstr_fs junk P q = .ok r →
      r = s ∨ ∃ i src, P.length ≤ s.m_Length ∧
        replace_at junk s i P.length q.m_Length src = .ok r) ∧
    (t.holds P → s.replace_fs_cstr junk t R = .ok r →
      r = s ∨ ∃ i src, P.length ≤ s.m_Length ∧
        replace_at junk s i P.length (strlen R) src = .ok r) ∧
    (t.holds P → s.replace_fs_fs junk t q = .ok r →
      r = s ∨ ∃ i src, P.length ≤ s.m_Length ∧
        replace_at junk s i P.length q.m_Length src = .ok r) := by
  have key : ∀ i, (s.find_cstr P = .ok i ∨ (t.holds P ∧ s.find_fs t = .ok i)) → i ≠ invalid →
      P.length ≤ s.m_Length := by
    intro i hf hi
    by_cases hne : P = []
    · rw [hne]
      exact Nat.zero_le _
    · rw [hh.1]
      rcases hf with hf | ⟨ht, hf⟩
      · have := find_cstr_found hh hP hne hf hi
        omega
      · have := find_fs_found hh ht hP hne hf hi
        omega
  refine ⟨?_, ?_, ?_, ?_⟩
  · intro h
    rcases replace_cstr_cstr_cases h with ⟨-, e⟩ | ⟨i, hf, hi, h2⟩
    · exact Or.inl e
    · rw [strlen_zero_free hP] at h2
      exact Or.inr ⟨i, _, key i (Or.inl hf) hi, h2⟩
  · intro h
    rcases replace_cstr_fs_cases h with ⟨-, e⟩ | ⟨i, src, hf, hi, h2⟩
    · exact Or.inl e
    · rw [strlen_zero_free hP] at h2
      exact Or.inr ⟨i, src, key i (Or.inl hf) hi, h2⟩
  · intro ht h
    rcases replace_fs_cstr_cases h with ⟨-, e⟩ | ⟨i, hf, hi, h2⟩
    · exact Or.inl e
    · rw [ht.1] at h2
      exact Or.inr ⟨i, _, key i (Or.inr ⟨ht, hf⟩) hi, h2⟩
  · intro ht h
    rcases replace_fs_fs_cases h with ⟨-, e⟩ | ⟨i, src, hf, hi, h2⟩
    · exact Or.inl e
    · rw [ht.1] at h2
      exact Or.inr ⟨i, src, key i (Or.inr ⟨ht, hf⟩) hi, h2⟩

/-- The sizes after a `replace` that has left the object as it was or has run the
shared body for a pattern of `pl` bytes and a replacement of `rl` bytes. -/
theorem replace_found_sizes {junk : Nat → Nat} {s r : fast_string} {pl rl : Nat}
    (h : r = s ∨ ∃ i src, pl ≤ s.m_Length ∧ replace_at junk s i pl rl src = .ok r)
    (hlt : s.m_Length < s.m_Capacity) (hsz : s.m_Capacity + rl < 2 ^ 64) :
    r.m_Hash = s.m_Hash ∧ s.m_Capacity ≤ r.m_Capacity ∧
      (s.m_Length - pl + rl ≠ s.m_Capacity → r.m_Length < r.m_Capacity) := by
  rcases h with e | ⟨i, src, hi, h2⟩
  · subst e
    exact ⟨rfl, le_refl _, fun _ => hlt⟩
  · obtain ⟨-, -, g, c, l⟩ := replace_at_sizes h2 hi hlt hsz
    exact ⟨g, c, l⟩

end fast_string

namespace fast_string

/-! ## generate_hash and the cached hash -/

/-- One round of the hash loop is `h * 33 + c` modulo `2 ^ 64` for a byte below `0x80`,
and `h * 33 + c - 256` modulo `2 ^ 64` for a byte from `0x80` to `0xFF`. -/
theorem hash_step_eq (h c : Nat) :
    (c < 128 → hash_step h c = (h * 33 + c) % 2 ^ 64) ∧
    (128 ≤ c → c < 256 → hash_step h c = (h * 33 + c + 2 ^ 64 - 256) % 2 ^ 64) := by
  unfold hash_step
  constructor
  · intro hc
    rw [if_pos hc]
    omega
  · intro hc _
    rw [if_neg (by omega)]
    omega

theorem hash_of_eq (Y : List Nat) (h7 : ∀ b ∈ Y, b < 128) :
    hash_of Y = Y.foldl (fun h b => (h * 33 + b) % 2 ^ 64) 0x3B6C := by
  unfold hash_of
  generalize (0x3B6C : Nat) = h0
  induction Y generalizing h0 with
  | nil => rfl
  | cons y Y ih =>
    simp only [List.foldl_cons]
    rw [(hash_step_eq h0 y).1 (h7 y (List.mem_cons_self _ _))]
    exact ih (fun b hb => h7 b (List.mem_cons_of_mem _ hb)) _

/-- The loop of `generate_hash` starts at `m_Data`: on an object whose heap pointer is
null the first load is through the null pointer. -/
theorem generate_hash_null {s : fast_string} (h : s.m_Data = none) :
    s.generate_hash = .error .undefined := by
  unfold generate_hash
  simp only [block, h, bind, Except.bind]

/-- The two cases of `generate_hash` on a buffer built from zero-free content `Y` of bytes
below `0x80`: with `|Y| ≤ 31` the content is in the inline array, `m_Data` is null and the
call is undefined; with `|Y| > 31` the call stores `h_n`, where `h_0 = 0x3B6C` and
`h_{k+1} = (h_k * 33 + Y[k]) mod 2^64`, and the content stays. -/
theorem generate_hash_of_cstr (sso : List Nat) (junk : Nat → Nat) {Y : List Nat}
    (hsso : sso.length = 32) (hY : zero_free Y) (h7 : ∀ b ∈ Y, b < 128) :
    (Y.length ≤ 31 → (of_cstr sso junk Y).bind (fun s => s.generate_hash) = .error .undefined) ∧
    (31 < Y.length → ∃ r, (of_cstr sso junk Y).bind (fun s => s.generate_hash) = .ok r ∧
      r.get_hash = Y.foldl (fun h b => (h * 33 + b) % 2 ^ 64) 0x3B6C ∧ r.holds Y) := by
  obtain ⟨s, es, hs, ws, g0, hin, hheap⟩ := of_cstr_spec sso junk hsso hY
  constructor
  · intro hle
    rw [es]
    exact generate_hash_null (hin hle).2
  · intro hlt
    obtain ⟨hc, -⟩ := hheap hlt
    have hcap : _default_sso_size < s.m_Capacity := by
      rw [hc]
      unfold _default_sso_size
      omega
    rw [es]
    refine ⟨_, generate_hash_heap hs hY hcap, hash_of_eq Y h7, ?_⟩
    exact hs

set_option maxRecDepth 100000 in
/-- C21 on the code.  `fast_string s("Hello"); s.generate_hash();`: the content is in the
inline array and `m_Data` is the null pointer; `generate_hash` reads `*ptr` with
`ptr = m_Data`, not `c_str()`, so the call is undefined and stores no hash.  Before
the call `get_hash()` is 0.  On `fast_string(40 times 'a')`, whose content is behind
`m_Data`, the call stores `h_40`. -/
theorem generate_hash_inline :
    (of_cstr (List.replicate 32 204) (fun _ => 205) (bytes "Hello")).map
        (fun s => (s.c_str, s.m_Data, s.get_hash)) = .ok (Region.sso, none, 0) ∧
    (of_cstr (List.replicate 32 204) (fun _ => 205) (bytes "Hello")).bind
        (fun s => s.generate_hash) = .error .undefined ∧
    ((of_cstr (List.replicate 32 204) (fun _ => 205) (List.replicate 40 97)).bind
        (fun s => s.generate_hash)).map (fun s => s.get_hash)
      = .ok ((List.replicate 40 97).foldl (fun h b => (h * 33 + b) % 2 ^ 64) 0x3B6C) := by
  decide

end fast_string

namespace fast_string

set_option maxRecDepth 100000 in
/-- The stale value: `fast_string s(40 times 'a'); s.generate_hash(); s.push_back('b');`
leaves the hash of the 40 bytes in `s`, and a second `generate_hash()` replaces it by
the hash of the 41 bytes. -/
theorem stale_hash_example :
    (((of_cstr (List.replicate 32 204) (fun _ => 205) (List.replicate 40 97)).bind
        (fun s => s.generate_hash)).bind (fun s => s.push_back (fun _ => 205) 98)).bind
        (fun s => s.generate_hash.map (fun r => (s.get_hash, r.get_hash)))
      = .ok (hash_of (List.replicate 40 97), hash_of (List.replicate 40 97 ++ [98])) ∧
    hash_of (List.replicate 40 97) ≠ hash_of (List.replicate 40 97 ++ [98]) := by
  decide

end fast_string

namespace fast_string

/-! ## Growth of the capacity -/

/-- The result of `append` in place does not depend on what an allocation would
return: no allocation is made. -/
theorem append_inplace_junk (junk junk' : Nat → Nat) (s fs : fast_string) (str : List Nat) :
    (s.m_Length + strlen str < s.m_Capacity →
      s.append_cstr junk str = s.append_cstr junk' str) ∧
    (s.m_Length + fs.m_Length < s.m_Capacity →
      s.append_fs junk fs = s.append_fs junk' fs) := by
  constructor
  · intro h
    unfold append_cstr
    simp only [if_pos h]
  · intro h
    unfold append_fs
    simp only [if_pos h]

/-- The result of `insert` in place does not depend on what an allocation would
return: no allocation is made. -/
theorem insert_inplace_junk (junk junk' : Nat → Nat) (s fs : fast_string) (index : Nat)
    (str : List Nat) :
    (s.m_Length + strlen str < s.m_Capacity →
      s.insert_cstr junk index str = s.insert_cstr junk' index str) ∧
    (s.m_Length + fs.m_Length < s.m_Capacity →
      s.insert_fs junk index fs = s.insert_fs junk' index fs) := by
  constructor
  · intro h
    have h' : ¬ s.m_Length + strlen str ≥ s.m_Capacity := by omega
    unfold insert_cstr
    simp only [if_neg h']
  · intro h
    have h' : ¬ s.m_Length + fs.m_Length ≥ s.m_Capacity := by omega
    unfold insert_fs
    simp only [if_neg h']

/-- C25. Exact-fit growth.  For `append` and `insert` (both overloads) adding `k` bytes to
an object of length `L` and capacity `Cap`, the capacity after the call is `Cap` when
`L + k + 1 ≤ Cap` and exactly `L + k + 1` otherwise.  When `L + k + 1 ≤ Cap` the result
is the same whatever an allocation would return: nothing is allocated.  On a buffer that
satisfies the structural invariant and holds a content the calls return, with the bytes
added. -/
theorem exact_fit_growth (junk junk' : Nat → Nat) (s fs : fast_string) (A B : List Nat)
    (index : Nat) :
    after (s.append_cstr junk B) (fun r => r.m_Capacity =
      if s.m_Length + strlen B + 1 ≤ s.m_Capacity then s.m_Capacity
        else s.m_Length + strlen B + 1) ∧
    after (s.append_fs junk fs) (fun r => r.m_Capacity =
      if s.m_Length + fs.m_Length + 1 ≤ s.m_Capacity then s.m_Capacity
        else s.m_Length + fs.m_Length + 1) ∧
    after (s.insert_cstr junk index B) (fun r => r.m_Capacity =
      if s.m_Length + strlen B + 1 ≤ s.m_Capacity then s.m_Capacity
        else s.m_Length + strlen B + 1) ∧
    after (s.insert_fs junk index fs) (fun r => r.m_Capacity =
      if s.m_Length + fs.m_Length + 1 ≤ s.m_Capacity then s.m_Capacity
        else s.m_Length + fs.m_Length + 1) ∧
    (s.m_Length + strlen B + 1 ≤ s.m_Capacity →
      s.append_cstr junk B = s.append_cstr junk' B ∧
      s.insert_cstr junk index B = s.insert_cstr junk' index B) ∧
    (s.m_Length + fs.m_Length + 1 ≤ s.m_Capacity →
      s.append_fs junk fs = s.append_fs junk' fs ∧
      s.insert_fs junk index fs = s.insert_fs junk' index fs) ∧
    (s.wf → s.holds A → zero_free B → fs.holds B → index ≤ A.length →
      (∃ r, s.append_cstr junk B = .ok r ∧ r.holds (A ++ B)) ∧
      (∃ r, s.append_fs junk fs = .ok r ∧ r.holds (A ++ B)) ∧
      (∃ r, s.insert_cstr junk index B = .ok r ∧
        r.holds (A.take index ++ B ++ A.drop index)) ∧
      (∃ r, s.insert_fs junk index fs = .ok r ∧
        r.holds (A.take index ++ B ++ A.drop index))) := by
  refine ⟨?_, ?_, ?_, ?_, ?_, ?_, ?_⟩
  · intro r h
    rw [(append_cstr_fields h).1]
    split <;> split <;> omega
  · intro r h
    rw [(append_fs_fields h).1]
    split <;> split <;> omega
  · intro r h
    rw [(insert_cstr_fields h).2.1]
    split <;> split <;> omega
  · intro r h
    rw [(insert_fs_fields h).2.1]
    split <;> split <;> omega
  · intro h
    exact ⟨(append_inplace_junk junk junk' s fs B).1 (by omega),
      (insert_inplace_junk junk junk' s fs index B).1 (by omega)⟩
  · intro h
    exact ⟨(append_inplace_junk junk junk' s fs B).2 (by omega),
      (insert_inplace_junk junk junk' s fs index B).2 (by omega)⟩
  · intro hw hh hB hfs hi
    obtain ⟨r1, e1, h1, -⟩ := append_cstr_spec junk hw hh hB
    obtain ⟨r2, e2, h2, -⟩ := append_fs_spec junk hw hh hfs
    obtain ⟨r3, e3, h3, -⟩ := insert_cstr_spec junk hw hh hB hi
    obtain ⟨r4, e4, h4, -⟩ := insert_fs_spec junk hw hh hfs hi
    rw [splice_insert] at h3 h4
    exact ⟨⟨r1, e1, h1⟩, ⟨r2, e2, h2⟩, ⟨r3, e3, h3⟩, ⟨r4, e4, h4⟩⟩

theorem exact_fit_growth_witness :
    (∃ r, hello_world.append_fs (fun _ => 205) heap_aaa = .ok r ∧
      r.holds (bytes "Hello World!" ++ List.replicate 40 97) ∧ r.m_Capacity = 53) ∧
    hello_world.insert_cstr (fun _ => 205) 5 (bytes " Nice")
      = hello_world.insert_cstr (fun _ => 204) 5 (bytes " Nice") := by
  have t := exact_fit_growth (fun _ => 205) (fun _ => 204) hello_world heap_aaa
    (bytes "Hello World!") (List.replicate 40 97) 5
  have u := exact_fit_growth (fun _ => 205) (fun _ => 204) hello_world hello_world
    (bytes "Hello World!") (bytes " Nice") 5
  obtain ⟨r, hr, hh⟩ := (t.2.2.2.2.2.2 (by decide) (by decide) (by decide) (by decide)
    (by decide)).2.1
  exact ⟨⟨r, hr, hh, t.2.1 r hr⟩, (u.2.2.2.2.1 (by decide)).2⟩

end fast_string

namespace fast_string

/-! ## The invariant length < capacity -/

/-- C23, as the code has it.  `length < capacity` holds for the buffer each constructor
builds: from zero-free content, with `fast_string(size_t size)` for `size ≥ 1`, and as a
copy of a buffer that has it.  It is kept by every call of `push_back`, `append`,
`insert`, `erase`, `operator=` and `swap` on an object that has it (the object assigned
from or swapped with having it too), by `substr(index, count)` for `count ≤ length`, by
`reserve(n)` when `capacity + n` does not wrap, and by `replace` of a zero-free pattern
in a buffer that holds a content when the new length is not exactly the capacity (the
capacity field is a 64-bit value).  On a buffer that satisfies the structural invariant
the calls return. -/
theorem length_below_capacity (sso : List Nat) (junk : Nat → Nat) (s fs t q x : fast_string)
    (C Y P R str : List Nat) (c index count n size : Nat) (hsso : sso.length = 32)
    (hlt : s.m_Length < s.m_Capacity) (hcap : s.m_Capacity < 2 ^ 64) :
    (zero_free C → ∃ r, of_cstr sso junk C = .ok r ∧ r.m_Length < r.m_Capacity) ∧
    (1 ≤ size → ∃ r, of_size sso junk size = .ok r ∧ r.m_Length < r.m_Capacity) ∧
    (x.allocated → x.m_Length < x.m_Capacity →
      ∃ r, of_copy sso junk x = .ok r ∧ r.m_Length < r.m_Capacity) ∧
    after (s.push_back junk c) (fun r => r.m_Length < r.m_Capacity) ∧
    after (s.append_cstr junk str) (fun r => r.m_Length < r.m_Capacity) ∧
    after (s.append_fs junk fs) (fun r => r.m_Length < r.m_Capacity) ∧
    after (s.insert_cstr junk index str) (fun r => r.m_Length < r.m_Capacity) ∧
    after (s.insert_fs junk index fs) (fun r => r.m_Length < r.m_Capacity) ∧
    after (s.erase index count) (fun r => r.m_Length < r.m_Capacity) ∧
    after (s.assign_cstr junk str) (fun r => r.m_Length < r.m_Capacity) ∧
    (fs.m_Length < fs.m_Capacity →
      after (s.assign_fs junk fs) (fun r => r.m_Length < r.m_Capacity) ∧
      ∀ p, s.swap junk fs = .ok p →
        p.1.m_Length < p.1.m_Capacity ∧ p.2.m_Length < p.2.m_Capacity) ∧
    (count ≤ s.m_Length → after (s.substr index count) (fun r => r.m_Length < r.m_Capacity)) ∧
    (s.m_Capacity + n < 2 ^ 64 →
      after (s.reserve junk n) (fun r => r.m_Length < r.m_Capacity)) ∧
    (s.holds Y → zero_free P →
      after (s.erase_cstr junk P) (fun r => r.m_Length < r.m_Capacity) ∧
      (t.holds P → after (s.erase_fs junk t) (fun r => r.m_Length < r.m_Capacity)) ∧
      (s.m_Capacity + strlen R < 2 ^ 64 → s.m_Length - P.length + strlen R ≠ s.m_Capacity →
        after (s.replace_cstr_cstr junk P R) (fun r => r.m_Length < r.m_Capacity) ∧
        (t.holds P →
          after (s.replace_fs_cstr junk t R) (fun r => r.m_Length < r.m_Capacity))) ∧
      (s.m_Capacity + q.m_Length < 2 ^ 64 → s.m_Length - P.length + q.m_Length ≠ s.m_Capacity →
        after (s.replace_cstr_fs junk P q) (fun r => r.m_Length < r.m_Capacity) ∧
        (t.holds P →
          after (s.replace_fs_fs junk t q) (fun r => r.m_Length < r.m_Capacity)))) ∧
    (s.wf → s.holds Y → zero_free str → index ≤ Y.length →
      (∃ r, s.push_back junk c = .ok r) ∧ (∃ r, s.append_cstr junk str = .ok r) ∧
      (∃ r, s.insert_cstr junk index str = .ok r) ∧ (∃ r, s.erase index count = .ok r) ∧
      (∃ r, s.reserve junk count = .ok r) ∧ (∃ r, s.assign_cstr junk str = .ok r) ∧
      (Y ≠ [] → Y.length < 2 ^ 64 → ∃ r, s.pop_back = .ok r)) := by
  refine ⟨?_, ?_, ?_, ?_, ?_, ?_, ?_, ?_, ?_, ?_, ?_, ?_, ?_, ?_, ?_⟩
  · intro hC
    obtain ⟨r, er, -, wr, -⟩ := of_cstr_spec sso junk hsso hC
    exact ⟨r, er, wr.2.2.1⟩
  · intro hn
    obtain ⟨r, er, cr, lr, -⟩ := of_size_spec sso junk size hsso
    exact ⟨r, er, by rw [cr, lr]; omega⟩
  · intro hx hl
    obtain ⟨r, er, cr, lr, -⟩ := of_copy_spec sso junk hsso hx
    exact ⟨r, er, by rw [cr, lr]; exact hl⟩
  · intro r h
    obtain ⟨cr, lr, -⟩ := push_back_fields h
    rw [cr, lr]
    split <;> omega
  · intro r h
    obtain ⟨cr, lr, -⟩ := append_cstr_fields h
    rw [cr, lr]
    split <;> omega
  · intro r h
    obtain ⟨cr, lr, -⟩ := append_fs_fields h
    rw [cr, lr]
    split <;> omega
  · intro r h
    obtain ⟨-, cr, lr, -⟩ := insert_cstr_fields h
    rw [cr, lr]
    split <;> omega
  · intro r h
    obtain ⟨-, cr, lr, -⟩ := insert_fs_fields h
    rw [cr, lr]
    split <;> omega
  · intro r h
    obtain ⟨-, cr, lr, -⟩ := erase_fields h
    rw [cr, lr]
    omega
  · intro r h
    obtain ⟨cr, lr, -⟩ := assign_cstr_fields h
    rw [cr, lr]
    omega
  · intro hfs
    constructor
    · intro r h
      obtain ⟨cr, lr, -⟩ := assign_fs_fields h
      rw [cr, lr]
      omega
    · intro p h
      obtain ⟨c1, l1, -, c2, l2, -⟩ := swap_fields h
      rw [c1, l1, c2, l2]
      exact ⟨hfs, hlt⟩
  · intro hc r h
    obtain ⟨-, cr, lr, -⟩ := substr_fields h
    rw [cr, lr]
    split <;> omega
  · intro hn r h
    cases h
    show s.m_Length < add64 s.m_Capacity n
    unfold add64
    omega
  · intro hh hP
    have z : strlen ([] : List Nat) = 0 := rfl
    refine ⟨?_, ?_, ?_, ?_⟩
    · intro r h
      exact (replace_found_sizes ((replace_found hh hP (t := t) (q := q)).1 h) hlt
        (by rw [z]; omega)).2.2 (by rw [z]; omega)
    · intro ht r h
      exact (replace_found_sizes ((replace_found hh hP (q := q)).2.2.1 ht h) hlt
        (by rw [z]; omega)).2.2 (by rw [z]; omega)
    · intro hsz hnq
      constructor
      · intro r h
        exact (replace_found_sizes ((replace_found hh hP (t := t) (q := q)).1 h) hlt
          hsz).2.2 hnq
      · intro ht r h
        exact (replace_found_sizes ((replace_found hh hP (q := q)).2.2.1 ht h) hlt
          hsz).2.2 hnq
    · intro hsz hnq
      constructor
      · intro r h
        exact (replace_found_sizes ((replace_found hh hP (t := t) (R := R)).2.1 h) hlt
          hsz).2.2 hnq
      · intro ht r h
        exact (replace_found_sizes ((replace_found hh hP (R := R)).2.2.2 ht h) hlt
          hsz).2.2 hnq
  · intro hw hh hstr hi
    exact mutators_return junk c index count hw hh hstr hi

theorem length_below_capacity_witness :
    (∃ r, of_size (List.replicate 32 204) (fun _ => 205) 5 = .ok r ∧
      r.m_Length < r.m_Capacity) ∧
    ∃ r, hello_world.push_back (fun _ => 205) 99 = .ok r ∧ r.m_Length < r.m_Capacity := by
  have t := length_below_capacity (List.replicate 32 204) (fun _ => 205) hello_world
    hello_world hello_world hello_world hello_world (bytes "Hello") (bytes "Hello World!")
    (bytes "World!") (bytes "Nice!") (bytes "Nice World!") 99 4 5 10 5 (by decide)
    (by decide) (by decide)
  obtain ⟨r, hr⟩ := (t.2.2.2.2.2.2.2.2.2.2.2.2.2.2 (by decide) (by decide) (by decide)
    (by decide)).1
  exact ⟨t.2.1 (by decide), r, hr, t.2.2.2.1 r hr⟩

/-- C23, as stated, fails.  `fast_string s(0)` has length 0 and capacity 0, and after
`s.push_back('a')` length 1 and capacity 1.  `fast_string s(5); s.append("abcd");
s.replace("a", "xy");` ends with length 5 and capacity 5, and so does
`s.substr(2, 5)` in the place of the `replace`; none of these calls leaves the inline
array.  `fast_string s(31 times 'a'); s.reserve((size_t)-1);` ends with length 31 and
capacity 31. -/
theorem length_reaches_capacity :
    (of_size (List.replicate 32 204) (fun _ => 205) 0).map
        (fun s => (s.m_Length, s.m_Capacity)) = .ok (0, 0) ∧
    ((of_size (List.replicate 32 204) (fun _ => 205) 0).bind
        (fun s => s.push_back (fun _ => 205) 97)).map
        (fun s => (s.m_Length, s.m_Capacity, s.c_str_view)) = .ok (1, 1, some [97, 0]) ∧
    (((of_size (List.replicate 32 204) (fun _ => 205) 5).bind
        (fun s => s.append_cstr (fun _ => 205) (bytes "abcd"))).bind
        (fun s => s.replace_cstr_cstr (fun _ => 205) (bytes "a") (bytes "xy"))).map
        (fun s => (s.m_Length, s.m_Capacity, s.c_str_view))
      = .ok (5, 5, some (bytes "xybcd" ++ [0])) ∧
    (((of_size (List.replicate 32 204) (fun _ => 205) 5).bind
        (fun s => s.append_cstr (fun _ => 205) (bytes "abcd"))).bind
        (fun s => s.substr 2 5)).map (fun s => (s.m_Length, s.m_Capacity)) = .ok (5, 5) ∧
    ((of_cstr (List.replicate 32 204) (fun _ => 205) (List.replicate 31 97)).bind
        (fun s => s.reserve (fun _ => 205) (2 ^ 64 - 1))).map
        (fun s => (s.m_Length, s.m_Capacity)) = .ok (31, 31) := by
  decide

end fast_string

namespace fast_string

/-! ## The capacity never shrinks -/

theorem not_shrunk_of_le {s r : fast_string} (h : s.m_Capacity ≤ r.m_Capacity) :
    s.not_shrunk r := by
  refine ⟨h, ?_⟩
  unfold c_str
  split
  · intro _
    rw [if_pos (by omega)]
  · intro h0
    cases h0

/-- C26, as the code has it.  For every object with `length < capacity`, the capacity
after `push_back`, `pop_back`, `append`, `insert`, `erase` and `operator=` is not below
the capacity before, and neither is it after `substr(index, count)` for
`count ≤ length` (a larger `count` can make the call copy and store past the end of the
block, see `substr_past_block`), after `reserve(n)` when `capacity + n` does not
wrap, nor after `replace` or `erase` of a zero-free pattern in a buffer that holds a
content, whether the replacement is shorter or longer than the pattern.  Hence a buffer
whose `c_str()` is the heap pointer keeps it.  On a buffer that satisfies the structural
invariant the calls return. -/
theorem capacity_never_shrinks (junk : Nat → Nat) (s fs t q : fast_string)
    (Y P R str : List Nat) (c index count n : Nat) (hlt : s.m_Length < s.m_Capacity)
    (hcap : s.m_Capacity < 2 ^ 64) :
    after (s.push_back junk c) s.not_shrunk ∧
    after s.pop_back s.not_shrunk ∧
    after (s.append_cstr junk str) s.not_shrunk ∧
    after (s.append_fs junk fs) s.not_shrunk ∧
    after (s.insert_cstr junk index str) s.not_shrunk ∧
    after (s.insert_fs junk index fs) s.not_shrunk ∧
    after (s.erase index count) s.not_shrunk ∧
    (count ≤ s.m_Length → after (s.substr index count) s.not_shrunk) ∧
    after (s.assign_cstr junk str) s.not_shrunk ∧
    after (s.assign_fs junk fs) s.not_shrunk ∧
    (s.m_Capacity + n < 2 ^ 64 → after (s.reserve junk n) s.not_shrunk) ∧
    (s.holds Y → zero_free P →
      after (s.erase_cstr junk P) s.not_shrunk ∧
      (t.holds P → after (s.erase_fs junk t) s.not_shrunk) ∧
      (s.m_Capacity + strlen R < 2 ^ 64 →
        after (s.replace_cstr_cstr junk P R) s.not_shrunk ∧
        (t.holds P → after (s.replace_fs_cstr junk t R) s.not_shrunk)) ∧
      (s.m_Capacity + q.m_Length < 2 ^ 64 →
        after (s.replace_cstr_fs junk P q) s.not_shrunk ∧
        (t.holds P → after (s.replace_fs_fs junk t q) s.not_shrunk))) ∧
    (s.wf → s.holds Y → zero_free str → index ≤ Y.length →
      (∃ r, s.push_back junk c = .ok r) ∧ (∃ r, s.append_cstr junk str = .ok r) ∧
      (∃ r, s.insert_cstr junk index str = .ok r) ∧ (∃ r, s.erase index count = .ok r) ∧
      (∃ r, s.reserve junk count = .ok r) ∧ (∃ r, s.assign_cstr junk str = .ok r) ∧
      (Y ≠ [] → Y.length < 2 ^ 64 → ∃ r, s.pop_back = .ok r)) := by
  refine ⟨?_, ?_, ?_, ?_, ?_, ?_, ?_, ?_, ?_, ?_, ?_, ?_, ?_⟩
  · intro r h
    apply not_shrunk_of_le
    rw [(push_back_fields h).1]
    split <;> omega
  · intro r h
    exact not_shrunk_of_le (le_of_eq (pop_back_fields h).1.symm)
  · intro r h
    apply not_shrunk_of_le
    rw [(append_cstr_fields h).1]
    split <;> omega
  · intro r h
    apply not_shrunk_of_le
    rw [(append_fs_fields h).1]
    split <;> omega
  · intro r h
    apply not_shrunk_of_le
    rw [(insert_cstr_fields h).2.1]
    split <;> omega
  · intro r h
    apply not_shrunk_of_le
    rw [(insert_fs_fields h).2.1]
    split <;> omega
  · intro r h
    exact not_shrunk_of_le (le_of_eq (erase_fields h).2.1.symm)
  · intro _ r h
    exact not_shrunk_of_le (le_of_eq (substr_fields h).2.1.symm)
  · intro r h
    apply not_shrunk_of_le
    rw [(assign_cstr_fields h).1]
    omega
  · intro r h
    apply not_shrunk_of_le
    rw [(assign_fs_fields h).1]
    omega
  · intro hn r h
    cases h
    apply not_shrunk_of_le
    show s.m_Capacity ≤ add64 s.m_Capacity n
    unfold add64
    omega
  · intro hh hP
    have z : strlen ([] : List Nat) = 0 := rfl
    refine ⟨?_, ?_, ?_, ?_⟩
    · intro r h
      exact not_shrunk_of_le (replace_found_sizes
        ((replace_found hh hP (t := t) (q := q)).1 h) hlt (by rw [z]; omega)).2.1
    · intro ht r h
      exact not_shrunk_of_le (replace_found_sizes
        ((replace_found hh hP (q := q)).2.2.1 ht h) hlt (by rw [z]; omega)).2.1
    · intro hsz
      constructor
      · intro r h
        exact not_shrunk_of_le (replace_found_sizes
          ((replace_found hh hP (t := t) (q := q)).1 h) hlt hsz).2.1
      · intro ht r h
        exact not_shrunk_of_le (replace_found_sizes
          ((replace_found hh hP (q := q)).2.2.1 ht h) hlt hsz).2.1
    · intro hsz
      constructor
      · intro r h
        exact not_shrunk_of_le (replace_found_sizes
          ((replace_found hh hP (t := t) (R := R)).2.1 h) hlt hsz).2.1
      · intro ht r h
        exact not_shrunk_of_le (replace_found_sizes
          ((replace_found hh hP (R := R)).2.2.2 ht h) hlt hsz).2.1
  · intro hw hh hstr hi
    exact mutators_return junk c index count hw hh hstr hi

theorem capacity_never_shrinks_witness :
    ∃ r, hello_world.insert_cstr (fun _ => 205) 5 (bytes " Nice World! Nice World!") = .ok r ∧
      hello_world.not_shrunk r := by
  have t := capacity_never_shrinks (fun _ => 205) hello_world hello_world hello_world
    hello_world (bytes "Hello World!") (bytes "World!") (bytes "Nice!")
    (bytes " Nice World! Nice World!") 99 5 5 10 (by decide) (by decide)
  obtain ⟨r, hr⟩ := (t.2.2.2.2.2.2.2.2.2.2.2.2 (by decide) (by decide) (by decide)
    (by decide)).2.2.1
  exact ⟨r, hr, t.2.2.2.2.1 r hr⟩

/-- C26, as stated, fails for `reserve`: `m_Capacity += bytes` wraps.
`fast_string s(31 times 'a'); s.reserve((size_t)-1);` takes the capacity from 32 to 31.
`fast_string s(32 times 'a'); s.reserve((size_t)-1);` takes it from 33 to 32, so `c_str()`
goes from the heap pointer back to the inline array, which does not hold the content. -/
theorem reserve_wraps :
    ((of_cstr (List.replicate 32 204) (fun _ => 205) (List.replicate 31 97)).bind
        (fun s => (s.reserve (fun _ => 205) (2 ^ 64 - 1)).map
          (fun r => (s.m_Length, s.m_Capacity, r.m_Length, r.m_Capacity))))
      = .ok (31, 32, 31, 31) ∧
    ((of_cstr (List.replicate 32 204) (fun _ => 205) (List.replicate 32 97)).bind
        (fun s => (s.reserve (fun _ => 205) (2 ^ 64 - 1)).map
          (fun r => (s.m_Capacity, s.c_str, r.m_Capacity, r.c_str,
            r.c_str_view == s.c_str_view))))
      = .ok (33, Region.heap, 32, Region.sso, false) := by
  decide

end fast_string

namespace fast_string

/-! ## The terminator behind c_str() -/

set_option maxRecDepth 100000 in
/-- C24 on the code.  Three states reached from a constructor through mutators in which
the block behind `c_str()` does not hold the content and a terminator at offset
`length`.  After `fast_string s("Hello"); s.reserve(10);` the capacity is 42, `c_str()` is
the fresh heap block and the byte at offset 5 is indeterminate (here `0xCD`).  After
`fast_string s(5); s.append("abcd"); s.append("efghi");` the length is 9, `c_str()` is the
inline array, and the byte at offset 9 is indeterminate (here `0xCC`).  And
`fast_string s(31 times 'a'); s.replace("a", "bb");` stores the terminator outside the
inline array, which is undefined; the last equation runs the body of that `replace` on
the same object with one more byte behind the 32 of the array, and the terminator is in
that byte, at offset 32, the capacity. -/
theorem terminator_not_kept :
    ((of_cstr (List.replicate 32 204) (fun _ => 205) (bytes "Hello")).bind
        (fun s => s.reserve (fun _ => 205) 10)).bind
        (fun s => (s.load s.c_str s.m_Length).map
          (fun v => (s.m_Capacity, s.m_Length, s.c_str, v)))
      = .ok (42, 5, Region.heap, 205) ∧
    (((of_size (List.replicate 32 204) (fun _ => 205) 5).bind
        (fun s => s.append_cstr (fun _ => 205) (bytes "abcd"))).bind
        (fun s => s.append_cstr (fun _ => 205) (bytes "efghi"))).bind
        (fun s => (s.load s.c_str s.m_Length).map
          (fun v => (s.m_Capacity, s.m_Length, s.c_str, v)))
      = .ok (10, 9, Region.sso, 204) ∧
    (of_cstr (List.replicate 32 204) (fun _ => 205) (List.replicate 31 97)).bind
        (fun s => s.replace_cstr_cstr (fun _ => 205) (bytes "a") (bytes "bb"))
      = .error .undefined ∧
    ((of_cstr (List.replicate 32 204) (fun _ => 205) (List.replicate 31 97)).bind
        (fun s => replace_at (fun _ => 205) { s with m_SSOBuffer := s.m_SSOBuffer ++ [204] } 0 1
          2 (bytes "bb"))).map (fun s => (s.m_Capacity, s.m_Length, s.m_SSOBuffer.length,
            s.m_SSOBuffer[32]?)) = .ok (32, 32, 33, some 0) := by
  decide

end fast_string

namespace fast_string

/-! ## Buffers built with a capacity below 32 -/

/-- With `fast_string(32)`, the default, two appends of zero-free `A` and `B` return and
leave the content `A ++ B`. -/
theorem append_after_default_size (sso : List Nat) (junk junk' junk'' : Nat → Nat)
    (A B : List Nat) (hsso : sso.length = 32) (hA : zero_free A) (hB : zero_free B) :
    ∃ r, ((of_size sso junk 32).bind (fun s => s.append_cstr junk' A)).bind
        (fun s => s.append_cstr junk'' B) = .ok r ∧ r.holds (A ++ B) ∧
      r.m_Length = A.length + B.length := by
  obtain ⟨s, es, cs, ls, -, hs, as, -⟩ := of_size_spec sso junk 32 hsso
  have ws : s.wf := by
    refine ⟨as.1, ?_, ?_, as.2⟩
    · rw [cs]
      exact le_refl _
    · rw [cs, ls]
      omega
  obtain ⟨p, ep, hp, wp, -⟩ := append_cstr_spec junk' ws hs hA
  obtain ⟨r, er, hr, -⟩ := append_cstr_spec junk'' wp hp hB
  rw [List.nil_append] at hr
  refine ⟨r, ?_, hr, ?_⟩
  · rw [es]
    show (s.append_cstr junk' A).bind _ = _
    rw [ep]
    exact er
  · rw [hr.1, List.length_append]

/-- C27 on the code.  `fast_string s(5); s.append("abcd"); s.append("efgh");`: the second
`append` has to grow, and copies the inline array into the new block only when the
capacity is exactly 32.  The new capacity 9 is not above 32, so `c_str()` is still the
inline array, which holds `"abcd"`, its old terminator and four indeterminate bytes,
while `"efgh"` is in the heap block: the length is 8 and the content is not
`"abcdefgh"`.  With 30 bytes in the second `append` the capacity is 35 and `c_str()` is
the heap block, whose first four bytes are indeterminate: `"abcd"` is lost.  With
`fast_string s(0); s.append("Hi");` the two bytes go to a heap block and `c_str()` is
the inline array. -/
theorem append_small_capacity_loses_content :
    (((of_size (List.replicate 32 204) (fun _ => 205) 5).bind
        (fun s => s.append_cstr (fun _ => 205) (bytes "abcd"))).bind
        (fun s => s.append_cstr (fun _ => 205) (bytes "efgh"))).map
        (fun s => (s.m_Capacity, s.m_Length, s.c_str)) = .ok (9, 8, Region.sso) ∧
    (((of_size (List.replicate 32 204) (fun _ => 205) 5).bind
        (fun s => s.append_cstr (fun _ => 205) (bytes "abcd"))).bind
        (fun s => s.append_cstr (fun _ => 205) (bytes "efgh"))).map
        (fun s => (s.c_str_view, s.m_Data))
      = .ok (some (bytes "abcd" ++ [0, 204, 204, 204, 204]),
          some ([205, 205, 205, 205] ++ bytes "efgh" ++ [0])) ∧
    (((of_size (List.replicate 32 204) (fun _ => 205) 5).bind
        (fun s => s.append_cstr (fun _ => 205) (bytes "abcd"))).bind
        (fun s => s.append_cstr (fun _ => 205) (List.replicate 30 120))).map
        (fun s => (s.m_Capacity, s.m_Length, s.c_str, s.c_str_view))
      = .ok (35, 34, Region.heap,
          some ([205, 205, 205, 205] ++ List.replicate 30 120 ++ [0])) ∧
    ((of_size (List.replicate 32 204) (fun _ => 205) 0).bind
        (fun s => s.append_cstr (fun _ => 205) (bytes "Hi"))).map
        (fun s => (s.m_Capacity, s.m_Length, s.c_str)) = .ok (3, 2, Region.sso) ∧
    ((of_size (List.replicate 32 204) (fun _ => 205) 0).bind
        (fun s => s.append_cstr (fun _ => 205) (bytes "Hi"))).map
        (fun s => (s.c_str_view, s.m_Data))
      = .ok (some [0, 204, 204], some (bytes "Hi" ++ [0])) := by
  decide

end fast_string

namespace fast_string

/-! ## Assignment followed by equal -/

end fast_string

namespace fast_string

/-! ## push_back followed by pop_back -/

/-- C29. For every buffer built from zero-free content `Y` (inline or on the heap) and
every byte `c`, `push_back(c)` followed by `pop_back()` returns and leaves the content
`Y`, its terminator and the length `|Y|` of the original; the capacity is not below the
original one.  At `|Y| = 31` the buffer moves to the heap with `push_back` and stays
there. -/
theorem push_back_pop_back (sso : List Nat) (junk junk' : Nat → Nat) (Y : List Nat) (c : Nat)
    (hsso : sso.length = 32) (hY : zero_free Y) (hsz : Y.length + 1 < 2 ^ 64) :
    ∃ s p r, of_cstr sso junk Y = .ok s ∧ s.push_back junk' c = .ok p ∧ p.pop_back = .ok r ∧
      r.holds Y ∧ r.c_str_view = s.c_str_view ∧ r.m_Length = s.m_Length ∧
      s.m_Capacity ≤ r.m_Capacity ∧
      (Y.length = 31 → s.c_str = .sso ∧ r.c_str = .heap ∧ r.m_Capacity = 33) := by
  obtain ⟨s, es, hs, ws, -, hin, -⟩ := of_cstr_spec sso junk hsso hY
  obtain ⟨p, ep, hp, wp, -, hcap⟩ := push_back_spec junk' c ws hs
  obtain ⟨r, er, hr, hc, -⟩ :=
    pop_back_spec hp (by simp) (by rw [List.length_append, List.length_singleton]; exact hsz)
  rw [List.dropLast_concat] at hr
  refine ⟨s, p, r, es, ep, er, hr, hr.2.trans hs.2.symm, hr.1.trans hs.1.symm, ?_, ?_⟩
  · rw [hc, hcap]
    split <;> omega
  · intro h31
    obtain ⟨c1, -⟩ := hin (by omega)
    have hr33 : r.m_Capacity = 33 := by
      rw [hc, hcap, c1, if_pos (by omega)]
    exact ⟨by simp [c_str, c1, _default_sso_size], by simp [c_str, hr33, _default_sso_size],
      hr33⟩

theorem push_back_pop_back_witness :
    ∃ s p r, of_cstr (List.replicate 32 204) (fun _ => 205) (bytes "Hello World!") = .ok s ∧
      s.push_back (fun _ => 205) 99 = .ok p ∧ p.pop_back = .ok r ∧
      r.holds (bytes "Hello World!") ∧ r.c_str_view = s.c_str_view ∧
      r.m_Length = s.m_Length ∧ s.m_Capacity ≤ r.m_Capacity ∧
      ((bytes "Hello World!").length = 31 →
        s.c_str = .sso ∧ r.c_str = .heap ∧ r.m_Capacity = 33) :=
  push_back_pop_back (List.replicate 32 204) (fun _ => 205) (fun _ => 205)
    (bytes "Hello World!") 99 (by decide) (by decide) (by decide)

end fast_string

namespace fast_string

/-! ## The in-place shifts of insert and erase under the C standard -/

/-- An error of `grow` is an undefined access. -/
theorem grow_error {junk : Nat → Nat} {s : fast_string} {N : Nat} {e : Error}
    (h : grow junk s N = .error e) : e = .undefined := by
  cases e with
  | undefined => rfl
  | index_out_of_range => exact absurd h (no_throw_grow junk s N)

/-- `erase` under the C standard: when the tail that is shifted and the place it is
shifted to have a byte in common, the call is undefined; otherwise it is the call with
the block move. -/
theorem erase_std_cases (s : fast_string) (index count : Nat) (hi : index ≤ s.m_Length) :
    (overlap index (index + min count (s.m_Length - index))
        (s.m_Length - (index + min count (s.m_Length - index))) →
      s.erase_std index count = .error .undefined) ∧
    (¬ overlap index (index + min count (s.m_Length - index))
        (s.m_Length - (index + min count (s.m_Length - index))) →
      s.erase_std index count = s.erase index count) := by
  have hm : (if count < s.m_Length - index then count else s.m_Length - index)
      = min count (s.m_Length - index) := by
    split <;> omega
  have hi' : ¬ index > s.m_Length := by omega
  constructor
  · intro ho
    unfold erase_std memcpy_within_std
    simp only [if_neg hi', hm, if_pos ho]
    rfl
  · intro ho
    unfold erase_std erase memcpy_within_std
    simp only [if_neg hi', hm, if_neg ho]

/-- `insert(size_t, const char*)` under the C standard: when the tail is longer than the
inserted string, the tail and the place it is shifted to overlap and the call is
undefined; otherwise it is the call with the block move. -/
theorem insert_cstr_std_cases (junk : Nat → Nat) (s : fast_string) (index : Nat)
    (str : List Nat) (hi : index ≤ s.m_Length) :
    (strlen str < s.m_Length - index → s.insert_cstr_std junk index str = .error .undefined) ∧
    (s.m_Length - index ≤ strlen str →
      s.insert_cstr_std junk index str = s.insert_cstr junk index str) := by
  have hi' : ¬ index > s.m_Length := by omega
  constructor
  · intro hlt
    have ho : overlap (index + strlen str) index (s.m_Length - index) := by
      unfold overlap
      omega
    unfold insert_cstr_std memcpy_within_std
    simp only [if_neg hi']
    by_cases hg : s.m_Length + strlen str ≥ s.m_Capacity
    · simp only [if_pos hg]
      cases hgr : grow junk s (s.m_Length + strlen str + 1) with
      | error e =>
        rw [grow_error hgr]
        rfl
      | ok s1 =>
        obtain ⟨-, l1, -⟩ := grow_fields hgr
        simp only [bind, Except.bind, pure, Except.pure, l1, if_pos ho]
    · simp only [if_neg hg, bind, Except.bind, pure, Except.pure, if_pos ho]
  · intro hle
    have ho : ¬ overlap (index + strlen str) index (s.m_Length - index) := by
      unfold overlap
      omega
    unfold insert_cstr_std insert_cstr memcpy_within_std
    simp only [if_neg hi']
    by_cases hg : s.m_Length + strlen str ≥ s.m_Capacity
    · simp only [if_pos hg]
      cases hgr : grow junk s (s.m_Length + strlen str + 1) with
      | error e => rfl
      | ok s1 =>
        obtain ⟨-, l1, -⟩ := grow_fields hgr
        simp only [bind, Except.bind, pure, Except.pure, l1, if_neg ho]
    · simp only [if_neg hg, bind, Except.bind, pure, Except.pure, if_neg ho]

/-- `insert(size_t, const fast_string&)` under the C standard. -/
theorem insert_fs_std_cases (junk : Nat → Nat) (s fs : fast_string) (index : Nat)
    (hi : index ≤ s.m_Length) :
    (fs.m_Length < s.m_Length - index → s.insert_fs_std junk index fs = .error .undefined) ∧
    (s.m_Length - index ≤ fs.m_Length →
      s.insert_fs_std junk index fs = s.insert_fs junk index fs) := by
  have hi' : ¬ index > s.m_Length := by omega
  constructor
  · intro hlt
    have ho : overlap (index + fs.m_Length) index (s.m_Length - index) := by
      unfold overlap
      omega
    unfold insert_fs_std memcpy_within_std
    simp only [if_neg hi']
    by_cases hg : s.m_Length + fs.m_Length ≥ s.m_Capacity
    · simp only [if_pos hg]
      cases hgr : grow junk s (s.m_Length + fs.m_Length + 1) with
      | error e =>
        rw [grow_error hgr]
        rfl
      | ok s1 =>
        obtain ⟨-, l1, -⟩ := grow_fields hgr
        simp only [bind, Except.bind, pure, Except.pure, l1, if_pos ho]
    · simp only [if_neg hg, bind, Except.bind, pure, Except.pure, if_pos ho]
  · intro hle
    have ho : ¬ overlap (index + fs.m_Length) index (s.m_Length - index) := by
      unfold overlap
      omega
    unfold insert_fs_std insert_fs memcpy_within_std
    simp only [if_neg hi']
    by_cases hg : s.m_Length + fs.m_Length ≥ s.m_Capacity
    · simp only [if_pos hg]
      cases hgr : grow junk s (s.m_Length + fs.m_Length + 1) with
      | error e => rfl
      | ok s1 =>
        obtain ⟨-, l1, -⟩ := grow_fields hgr
        simp only [bind, Except.bind, pure, Except.pure, l1, if_neg ho]
    · simp only [if_neg hg, bind, Except.bind, pure, Except.pure, if_neg ho]

end fast_string

namespace fast_string

/-- `insert` under the C standard on a buffer built from zero-free `Y`, when the tail
`Y[i..)` is not longer than the inserted zero-free `X`: the shift does not overlap, the
call returns and leaves `Y[0..i) ++ X ++ Y[i..)`. -/
theorem insert_cstr_std_spec (sso : List Nat) (junk junk' : Nat → Nat) {Y X : List Nat}
    {i : Nat} (hsso : sso.length = 32) (hY : zero_free Y) (hX : zero_free X)
    (hi : i ≤ Y.length) (hno : Y.length - i ≤ X.length) :
    ∃ s r, of_cstr sso junk Y = .ok s ∧ s.insert_cstr_std junk' i X = .ok r ∧
      r.holds (Y.take i ++ X ++ Y.drop i) := by
  obtain ⟨s, es, hs, ws, -⟩ := of_cstr_spec sso junk hsso hY
  obtain ⟨r, er, hr, -⟩ := insert_cstr_spec junk' ws hs hX hi
  rw [splice_insert] at hr
  refine ⟨s, r, es, ?_, hr⟩
  rw [(insert_cstr_std_cases junk' s i X (by rw [hs.1]; exact hi)).2
    (by rw [hs.1, strlen_zero_free hX]; exact hno)]
  exact er

/-- `erase(size_t, size_t)` under the C standard on a buffer holding `Y`, when the tail
behind the erased bytes is not longer than the erased part: the shift does not overlap,
the call returns and leaves `Y` without the erased bytes. -/
theorem erase_std_spec {s : fast_string} {Y : List Nat} (i c : Nat) (h : s.holds Y)
    (hi : i ≤ Y.length) (hno : Y.length - (i + min c (Y.length - i)) ≤ min c (Y.length - i)) :
    ∃ r, s.erase_std i c = .ok r ∧ r.holds (Y.take i ++ Y.drop (i + min c (Y.length - i))) := by
  obtain ⟨r, er, hr, -⟩ := erase_spec i c h hi
  refine ⟨r, ?_, hr⟩
  rw [(erase_std_cases s i c (by rw [h.1]; exact hi)).2
    (by rw [h.1]; unfold overlap; omega)]
  exact er

/-- C3 on the code.  `fast_string s("Hello World!"); s.insert(0, "ab");` shifts the 12
bytes of the content with `memcpy(data_ptr + 2, data_ptr, 12)`: the bytes read and the
bytes written have 10 bytes in common, which the C standard leaves undefined for
`memcpy`; the same holds with `"ab"` passed as a `fast_string`.  Only a `memcpy` that
moves the bytes as a block, as `memmove` does, leaves `"abHello World!"`.  When the tail
is not longer than the inserted string, as in `fast_string s("Hello");
s.insert(0, "World!");`, the two ranges are apart and the call leaves `"World!Hello"`. -/
theorem insert_memcpy_overlaps :
    (of_cstr (List.replicate 32 204) (fun _ => 205) (bytes "Hello World!")).bind
        (fun s => s.insert_cstr_std (fun _ => 205) 0 (bytes "ab")) = .error .undefined ∧
    (of_cstr (List.replicate 32 204) (fun _ => 205) (bytes "Hello World!")).bind
        (fun s => (of_cstr (List.replicate 32 204) (fun _ => 205) (bytes "ab")).bind
          (fun x => s.insert_fs_std (fun _ => 205) 0 x)) = .error .undefined ∧
    overlap (0 + 2) 0 (12 - 0) ∧
    ((of_cstr (List.replicate 32 204) (fun _ => 205) (bytes "Hello World!")).bind
        (fun s => s.insert_cstr (fun _ => 205) 0 (bytes "ab"))).map (fun s => s.c_str_view)
      = .ok (some (bytes "abHello World!" ++ [0])) ∧
    ((of_cstr (List.replicate 32 204) (fun _ => 205) (bytes "Hello")).bind
        (fun s => s.insert_cstr_std (fun _ => 205) 0 (bytes "World!"))).map
        (fun s => s.c_str_view) = .ok (some (bytes "World!Hello" ++ [0])) := by
  decide

/-- C4 on the code.  `fast_string s("Hello World!"); s.erase(0, 1);` shifts the 11
bytes behind the erased one with `memcpy(data_ptr, data_ptr + 1, 11)`: the bytes read and
the bytes written have 10 bytes in common, which the C standard leaves undefined for
`memcpy`.  Only a `memcpy` that moves the bytes as a block leaves `"ello World!"`.  When
the tail is not longer than the erased part, as in `s.erase(4, 5)`, the two ranges are
apart and the call leaves `"Hellld!"`. -/
theorem erase_memcpy_overlaps :
    (of_cstr (List.replicate 32 204) (fun _ => 205) (bytes "Hello World!")).bind
        (fun s => s.erase_std 0 1) = .error .undefined ∧
    overlap 0 (0 + 1) (12 - (0 + 1)) ∧
    ((of_cstr (List.replicate 32 204) (fun _ => 205) (bytes "Hello World!")).bind
        (fun s => s.erase 0 1)).map (fun s => s.c_str_view)
      = .ok (some (bytes "ello World!" ++ [0])) ∧
    ((of_cstr (List.replicate 32 204) (fun _ => 205) (bytes "Hello World!")).bind
        (fun s => s.erase_std 4 5)).map (fun s => s.c_str_view)
      = .ok (some (bytes "Hellld!" ++ [0])) := by
  decide

/-- C5 on the code.  In `fast_string s("Hello World!"); s.erase(2, 3); s.insert(2, "llo");`
both calls shift the 7 bytes of the tail `" World!"` by 3 with `memcpy`, once down and
once up, over ranges that have 4 bytes in common: the `erase` is undefined under the C
standard, and so is the `insert` on the buffer `"He World!"` the `erase` is meant to
leave.  When the tail is not longer than the slice, as in `s.erase(4, 5);
s.insert(4, "o Wor");`, no shift overlaps and the content is restored. -/
theorem erase_insert_memcpy_overlaps :
    (of_cstr (List.replicate 32 204) (fun _ => 205) (bytes "Hello World!")).bind
        (fun s => s.erase_std 2 3) = .error .undefined ∧
    (of_cstr (List.replicate 32 204) (fun _ => 205) (bytes "He World!")).bind
        (fun s => s.insert_cstr_std (fun _ => 205) 2 (bytes "llo")) = .error .undefined ∧
    ((of_cstr (List.replicate 32 204) (fun _ => 205) (bytes "Hello World!")).bind
        (fun s => s.erase_std 2 3)).bind
        (fun s => s.insert_cstr_std (fun _ => 205) 2 (bytes "llo")) = .error .undefined ∧
    (((of_cstr (List.replicate 32 204) (fun _ => 205) (bytes "Hello World!")).bind
        (fun s => s.erase_std 4 5)).bind
        (fun s => s.insert_cstr_std (fun _ => 205) 4 (bytes "o Wor"))).map
        (fun s => s.c_str_view) = .ok (some (bytes "Hello World!" ++ [0])) := by
  decide

/-- `operator[]` on the buffer the constructor builds from zero-free `Y`: the `k`-th
byte of `Y` for `k < |Y|`, the terminator for `k = |Y|`, the exception for `k > |Y|`. -/
theorem op_index_of_cstr (sso : List Nat) (junk : Nat → Nat) {Y : List Nat} (k : Nat)
    (hsso : sso.length = 32) (hY : zero_free Y) :
    ∃ s, of_cstr sso junk Y = .ok s ∧
      (k < Y.length → ∃ v, s.op_index k = .ok v ∧ Y[k]? = some v) ∧
      (k = Y.length → s.op_index k = .ok 0) ∧
      (k > Y.length → s.op_index k = .error .index_out_of_range) := by
  obtain ⟨s, es, hs, -⟩ := of_cstr_spec sso junk hsso hY
  refine ⟨s, es, fun hk => (op_index_holds hs).1 k hk, ?_, ?_⟩
  · intro hk
    subst hk
    exact (op_index_holds hs).2
  · intro hk
    unfold op_index
    rw [hs.1, if_pos hk]
    rfl

/-- C13 on the code.  After `fast_string s("Hello"); s.reserve(10);` the length is 5 and
`c_str()` is the fresh heap block, into which `reserve` has copied nothing: `s[5]` is
not the terminator and `s[0]` is not `'H'` but whatever the allocation holds (here
`0xCD`); `s[6]` throws.  Before the `reserve`, `s[0]` is `'H'` and `s[5]` is 0. -/
theorem op_index_after_reserve :
    ((of_cstr (List.replicate 32 204) (fun _ => 205) (bytes "Hello")).bind
        (fun s => s.reserve (fun _ => 205) 10)).bind (fun s => s.op_index 5) = .ok 205 ∧
    ((of_cstr (List.replicate 32 204) (fun _ => 205) (bytes "Hello")).bind
        (fun s => s.reserve (fun _ => 205) 10)).bind (fun s => s.op_index 0) = .ok 205 ∧
    ((of_cstr (List.replicate 32 204) (fun _ => 205) (bytes "Hello")).bind
        (fun s => s.reserve (fun _ => 205) 10)).bind (fun s => s.op_index 6)
      = .error .index_out_of_range ∧
    ((of_cstr (List.replicate 32 204) (fun _ => 205) (bytes "Hello")).bind
        (fun s => s.reserve (fun _ => 205) 10)).map (fun s => (s.m_Length, s.c_str))
      = .ok (5, Region.heap) ∧
    (of_cstr (List.replicate 32 204) (fun _ => 205) (bytes "Hello")).bind
        (fun s => s.op_index 0) = .ok 72 ∧
    (of_cstr (List.replicate 32 204) (fun _ => 205) (bytes "Hello")).bind
        (fun s => s.op_index 5) = .ok 0 := by
  decide

end fast_string

namespace fast_string

/-- A call of `substr` with `count` above the length: on `fast_string(31 times 'a')`,
`substr(10, 40)` tests `40 - 10 < 31` and takes 40 bytes, so it copies
`memcpy(data_ptr, data_ptr + 10, 40)` and stores the terminator at offset 40 of the
32-byte inline array, behind which the other members of the object lie. -/
theorem substr_past_block :
    (of_cstr (List.replicate 32 204) (fun _ => 205) (List.replicate 31 97)).bind
        (fun s => s.substr 10 40) = .error .undefined ∧
    sub64 40 10 < 31 := by
  decide

end fast_string

namespace member

/-! ## What a throwing call leaves behind -/

theorem call_pure {α : Type} (a : α) (s : fast_string) :
    call (pure a : member α) s = (.ok a, s) := rfl

theorem call_bind {α β : Type} (m : member α) (k : α → member β) (s : fast_string) :
    call (m >>= k) s =
      match call m s with
      | (.ok a, s') => call (k a) s'
      | (.error e, s') => (.error e, s') := by
  unfold call
  simp only [ExceptT.run_bind, StateT.run_bind]
  rcases h : StateT.run (ExceptT.run m) s with ⟨r, s'⟩
  cases r <;> rfl

theorem call_get (s : fast_string) : call (get : member fast_string) s = (.ok s, s) := rfl

theorem call_modify (f : fast_string → fast_string) (s : fast_string) :
    call (modify f : member Unit) s = (.ok (), f s) := rfl

theorem call_throw {α : Type} (e : Error) (s : fast_string) :
    call (throw e : member α) s = (.error e, s) := rfl

theorem call_step (f : fast_string → Except Error fast_string) (s : fast_string) :
    call (step f) s =
      match f s with
      | .ok s' => (.ok (), s')
      | .error e => (.error e, s) := by
  unfold step
  rw [call_bind, call_get]
  simp only
  cases hf : f s with
  | ok s' => rfl
  | error e => rfl

end member

namespace member

/-- The statement form of `substr` agrees with `fast_string.substr`: the same outcome,
and the object it leaves on return is the object `fast_string.substr` returns; a call
with `index > length` ends with the exception and the object as it was. -/
theorem substr_call (index count : Nat) (s : fast_string) :
    (call (substr index count) s).1 = (s.substr index count).map (fun _ => ()) ∧
    (∀ r, s.substr index count = .ok r → call (substr index count) s = (.ok (), r)) ∧
    (index > s.m_Length → call (substr index count) s = (.error .index_out_of_range, s)) := by
  unfold substr fast_string.substr
  by_cases hi : index > s.m_Length
  · simp only [call_bind, call_get, if_pos hi, call_throw]
    exact ⟨rfl, fun r h => (by cases h), fun _ => trivial⟩
  · simp only [call_bind, call_get, if_neg hi, call_pure, call_step, call_modify]
    cases h1 : s.memcpy_within s.c_str 0 index
        (if sub64 count index < s.m_Length then count else s.m_Length - index) with
    | error e => exact ⟨rfl, fun r h => (by cases h), fun h => absurd h hi⟩
    | ok s1 =>
      simp only [bind, Except.bind, pure, Except.pure]
      cases h2 : fast_string.store
          { s1 with m_Length :=
            if sub64 count index < s.m_Length then count else s.m_Length - index }
          s.c_str (if sub64 count index < s.m_Length then count else s.m_Length - index) 0 with
      | error e => exact ⟨rfl, fun r h => (by cases h), fun h => absurd h hi⟩
      | ok s2 =>
        refine ⟨rfl, fun r h => ?_, fun h => absurd h hi⟩
        cases h
        rfl


/-- The statement form of `erase(size_t, size_t)` agrees with `fast_string.erase`. -/
theorem erase_call (index count : Nat) (s : fast_string) :
    (call (erase index count) s).1 = (s.erase index count).map (fun _ => ()) ∧
    (∀ r, s.erase index count = .ok r → call (erase index count) s = (.ok (), r)) ∧
    (index > s.m_Length → call (erase index count) s = (.error .index_out_of_range, s)) := by
  unfold erase fast_string.erase
  by_cases hi : index > s.m_Length
  · simp only [call_bind, call_get, if_pos hi, call_throw]
    exact ⟨rfl, fun r h => (by cases h), fun _ => trivial⟩
  · simp only [call_bind, call_get, if_neg hi, call_pure, call_step, call_modify]
    cases h1 : s.memcpy_within s.c_str index
        (index + if count < s.m_Length - index then count else s.m_Length - index)
        (s.m_Length - (index + if count < s.m_Length - index then count else s.m_Length - index))
      with
    | error e => exact ⟨rfl, fun r h => (by cases h), fun h => absurd h hi⟩
    | ok s1 =>
      simp only [bind, Except.bind, pure, Except.pure]
      generalize fast_string.store _ s.c_str _ 0 = x
      cases x with
      | error e => exact ⟨rfl, fun r h => (by cases h), fun h => absurd h hi⟩
      | ok s2 =>
        refine ⟨rfl, fun r h => ?_, fun h => absurd h hi⟩
        cases h
        rfl


/-- The statement form of `insert(size_t, const char*)` agrees with
`fast_string.insert_cstr`. -/
theorem insert_cstr_call (junk : Nat → Nat) (index : Nat) (str : List Nat) (s : fast_string) :
    (call (insert_cstr junk index str) s).1
      = (s.insert_cstr junk index str).map (fun _ => ()) ∧
    (∀ r, s.insert_cstr junk index str = .ok r →
      call (insert_cstr junk index str) s = (.ok (), r)) ∧
    (index > s.m_Length →
      call (insert_cstr junk index str) s = (.error .index_out_of_range, s)) := by
  unfold insert_cstr fast_string.insert_cstr
  by_cases hi : index > s.m_Length
  · simp only [call_bind, call_get, if_pos hi, call_throw]
    exact ⟨rfl, fun r h => (by cases h), fun _ => trivial⟩
  · have tail : ∀ t : fast_string,
        let x := (do
          let s ← t.memcpy_within t.c_str (index + strlen str) index (t.m_Length - index)
          let s ← s.memcpy_to t.c_str index (c_string str) 0 (strlen str)
          fast_string.store { s with m_Length := s.m_Length + strlen str } t.c_str
            (s.m_Length + strlen str) 0 : Except Error fast_string)
        let y := call (do
          let data_ptr := (← get).c_str
          step (fun s => s.memcpy_within data_ptr (index + strlen str) index (s.m_Length - index))
          step (fun s => s.memcpy_to data_ptr index (c_string str) 0 (strlen str))
          modify (fun s => { s with m_Length := s.m_Length + strlen str })
          step (fun s => s.store data_ptr s.m_Length 0) : member Unit) t
        y.1 = x.map (fun _ => ()) ∧ (∀ r, x = .ok r → y = (.ok (), r)) := by
      intro t
      simp only [call_bind, call_get, call_pure, call_step, call_modify]
      cases h1 : t.memcpy_within t.c_str (index + strlen str) index (t.m_Length - index) with
      | error e => exact ⟨rfl, fun r h => (by cases h)⟩
      | ok s1 =>
        simp only [bind, Except.bind]
        cases h2 : s1.memcpy_to t.c_str index (c_string str) 0 (strlen str) with
        | error e => exact ⟨rfl, fun r h => (by cases h)⟩
        | ok s2 =>
          simp only
          generalize fast_string.store _ t.c_str _ 0 = x
          cases x with
          | error e => exact ⟨rfl, fun r h => (by cases h)⟩
          | ok s3 =>
            refine ⟨rfl, fun r h => ?_⟩
            cases h
            rfl
    by_cases hg : s.m_Length + strlen str ≥ s.m_Capacity
    · simp only [call_bind, call_get, if_neg hi, if_pos hg, call_pure, call_step, call_modify]
      cases h0 : fast_string.grow junk s (s.m_Length + strlen str + 1) with
      | error e => exact ⟨rfl, fun r h => (by cases h), fun h => absurd h hi⟩
      | ok s0 =>
        have t := tail s0
        simp only [call_bind, call_get, call_pure, call_step, call_modify] at t
        simp only [bind, Except.bind, pure, Except.pure] at t ⊢
        exact ⟨t.1, t.2, fun h => absurd h hi⟩
    · simp only [call_bind, call_get, if_neg hi, if_neg hg, call_pure, call_step, call_modify]
      have t := tail s
      simp only [call_bind, call_get, call_pure, call_step, call_modify] at t
      simp only [bind, Except.bind, pure, Except.pure] at t ⊢
      exact ⟨t.1, t.2, fun h => absurd h hi⟩


/-- The statement form of `insert(size_t, const fast_string&)` agrees with
`fast_string.insert_fs`. -/
theorem insert_fs_call (junk : Nat → Nat) (index : Nat) (fs s : fast_string) :
    (call (insert_fs junk index fs) s).1 = (s.insert_fs junk index fs).map (fun _ => ()) ∧
    (∀ r, s.insert_fs junk index fs = .ok r →
      call (insert_fs junk index fs) s = (.ok (), r)) ∧
    (index > s.m_Length →
      call (insert_fs junk index fs) s = (.error .index_out_of_range, s)) := by
  unfold insert_fs fast_string.insert_fs
  by_cases hi : index > s.m_Length
  · simp only [call_bind, call_get, if_pos hi, call_throw]
    exact ⟨rfl, fun r h => (by cases h), fun _ => trivial⟩
  · have tail : ∀ t : fast_string,
        let x := (do
          let s ← t.memcpy_within t.c_str (index + fs.m_Length) index (t.m_Length - index)
          let src ← fs.block fs.c_str
          let s ← s.memcpy_to t.c_str index src 0 fs.m_Length
          fast_string.store { s with m_Length := s.m_Length + fs.m_Length } t.c_str
            (s.m_Length + fs.m_Length) 0 : Except Error fast_string)
        let y := call (do
          let data_ptr := (← get).c_str
          step (fun s => s.memcpy_within data_ptr (index + fs.m_Length) index
            (s.m_Length - index))
          step (fun s => do
            let src ← fs.block fs.c_str
            s.memcpy_to data_ptr index src 0 fs.m_Length)
          modify (fun s => { s with m_Length := s.m_Length + fs.m_Length })
          step (fun s => s.store data_ptr s.m_Length 0) : member Unit) t
        y.1 = x.map (fun _ => ()) ∧ (∀ r, x = .ok r → y = (.ok (), r)) := by
      intro t
      simp only [call_bind, call_get, call_pure, call_step, call_modify]
      cases h1 : t.memcpy_within t.c_str (index + fs.m_Length) index (t.m_Length - index) with
      | error e => exact ⟨rfl, fun r h => (by cases h)⟩
      | ok s1 =>
        simp only [bind, Except.bind]
        cases hb : fs.block fs.c_str with
        | error e => exact ⟨rfl, fun r h => (by cases h)⟩
        | ok src =>
          simp only
          cases h2 : s1.memcpy_to t.c_str index src 0 fs.m_Length with
          | error e => exact ⟨rfl, fun r h => (by cases h)⟩
          | ok s2 =>
            simp only
            generalize fast_string.store _ t.c_str _ 0 = x
            cases x with
            | error e => exact ⟨rfl, fun r h => (by cases h)⟩
            | ok s3 =>
              refine ⟨rfl, fun r h => ?_⟩
              cases h
              rfl
    by_cases hg : s.m_Length + fs.m_Length ≥ s.m_Capacity
    · simp only [call_bind, call_get, if_neg hi, if_pos hg, call_pure, call_step, call_modify]
      cases h0 : fast_string.grow junk s (s.m_Length + fs.m_Length + 1) with
      | error e => exact ⟨rfl, fun r h => (by cases h), fun h => absurd h hi⟩
      | ok s0 =>
        have t := tail s0
        simp only [call_bind, call_get, call_pure, call_step, call_modify] at t
        simp only [bind, Except.bind, pure, Except.pure] at t ⊢
        exact ⟨t.1, t.2, fun h => absurd h hi⟩
    · simp only [call_bind, call_get, if_neg hi, if_neg hg, call_pure, call_step, call_modify]
      have t := tail s
      simp only [call_bind, call_get, call_pure, call_step, call_modify] at t
      simp only [bind, Except.bind, pure, Except.pure] at t ⊢
      exact ⟨t.1, t.2, fun h => absurd h hi⟩

end member

namespace member

/-- C14. `substr(index, count)`, `erase(index, count)` and both overloads of
`insert(index, content)`, run statement by statement on the object: the call ends with the
index-out-of-range exception if and only if `index > length`, and when it does the object
after the call is the object before it, with every field and every byte of its blocks
as they were, so content, length, capacity and hash are unchanged.  The statement forms
have the outcomes of `fast_string.substr`, `fast_string.erase`, `fast_string.insert_cstr`
and `fast_string.insert_fs` (`substr_call`, `erase_call`, `insert_cstr_call`,
`insert_fs_call`). -/
theorem index_out_of_range_unchanged (junk : Nat → Nat) (s fs : fast_string)
    (index count : Nat) (str : List Nat) :
    (((call (substr index count) s).1 = .error .index_out_of_range ↔ index > s.m_Length) ∧
      (index > s.m_Length →
        call (substr index count) s = (.error .index_out_of_range, s))) ∧
    (((call (erase index count) s).1 = .error .index_out_of_range ↔ index > s.m_Length) ∧
      (index > s.m_Length →
        call (erase index count) s = (.error .index_out_of_range, s))) ∧
    (((call (insert_cstr junk index str) s).1 = .error .index_out_of_range
        ↔ index > s.m_Length) ∧
      (index > s.m_Length →
        call (insert_cstr junk index str) s = (.error .index_out_of_range, s))) ∧
    (((call (insert_fs junk index fs) s).1 = .error .index_out_of_range
        ↔ index > s.m_Length) ∧
      (index > s.m_Length →
        call (insert_fs junk index fs) s = (.error .index_out_of_range, s))) := by
  have key : ∀ (x : Except Error fast_string) (y : Except Error Unit × fast_string),
      y.1 = x.map (fun _ => ()) → (x = .error .index_out_of_range ↔ index > s.m_Length) →
      (index > s.m_Length → y = (.error .index_out_of_range, s)) →
      ((y.1 = .error .index_out_of_range ↔ index > s.m_Length) ∧
        (index > s.m_Length → y = (.error .index_out_of_range, s))) := by
    intro x y h1 h2 h3
    refine ⟨⟨fun h => ?_, fun h => by rw [h3 h]⟩, h3⟩
    apply h2.mp
    rw [h1] at h
    cases x with
    | ok r => cases h
    | error e =>
      injection h with h
      rw [h]
  obtain ⟨i1, i2, i3, i4⟩ := fast_string.index_out_of_range_iff junk s fs index count str
  obtain ⟨a1, -, a3⟩ := substr_call index count s
  obtain ⟨b1, -, b3⟩ := erase_call index count s
  obtain ⟨c1, -, c3⟩ := insert_cstr_call junk index str s
  obtain ⟨d1, -, d3⟩ := insert_fs_call junk index fs s
  exact ⟨key _ _ a1 i1 a3, key _ _ b1 i2 b3, key _ _ c1 i3 c3, key _ _ d1 i4 d3⟩

theorem index_out_of_range_unchanged_witness :
    call (substr 13 2) fast_string.hello_world
        = (.error .index_out_of_range, fast_string.hello_world) ∧
      call (insert_cstr (fun _ => 205) 13 (bytes "!")) fast_string.hello_world
        = (.error .index_out_of_range, fast_string.hello_world) :=
  ⟨(index_out_of_range_unchanged (fun _ => 205) fast_string.hello_world
      fast_string.hello_world 13 2 (bytes "!")).1.2 (by decide),
    (index_out_of_range_unchanged (fun _ => 205) fast_string.hello_world
      fast_string.hello_world 13 2 (bytes "!")).2.2.1.2 (by decide)⟩

end member

end FastString
